import Mathlib

/-!
# Handler binding and route resolution of `ghttp.Server`

A shallow embedding of `g/net/ghttp/http_server.go` and
`g/net/ghttp/http_server_domain.go`.

* A Go `string` is the list of its runes (`Str`).
* A Go `map[string]V` is an association list with unique keys (`GoMap V`);
  `len` is the length of the list and `range` visits the keys in list order.
  Go leaves the order of `range` unspecified, so the theorems quantify over
  every order of the maps that are ranged over.
* The receiver `*Server` is passed and returned explicitly.
* `error` is `Option String`, `none` being `nil`.
-/

namespace Ghttp

/-! ## Strings -/

/-- A Go string, as its sequence of runes. -/
abbrev Str := List Char

/-- The case tables of Go's package `unicode`, which lie outside the repository.
They are a parameter of the development; the only facts used about them are
that on ASCII runes `unicode.ToUpper` and `unicode.ToLower` are the ASCII
conversions (the fast path of both functions in the Go library). -/
structure CaseTables where
  ToUpper : Char → Char
  ToLower : Char → Char
  upper_ascii : ∀ c : Char, c.toNat < 128 → ToUpper c = c.toUpper
  lower_ascii : ∀ c : Char, c.toNat < 128 → ToLower c = c.toLower

/-- The tables that change ASCII letters only. -/
def asciiTables : CaseTables :=
  ⟨Char.toUpper, Char.toLower, fun _ _ => rfl, fun _ _ => rfl⟩

/-- Go `strings.ToUpper`: every rune is mapped by `unicode.ToUpper`. -/
def ToUpper (U : CaseTables) (s : Str) : Str := s.map U.ToUpper

/-- Go `strings.ToLower`: every rune is mapped by `unicode.ToLower`. -/
def ToLower (U : CaseTables) (s : Str) : Str := s.map U.ToLower

/-- Go `strings.Split(s, sep)` for a separator of one rune (every call in the
two files passes `"@"`, `":"` or `","`): the pieces between the occurrences of
`sep`, always at least one piece. -/
def Split (s : Str) (sep : Char) : List Str :=
  match s with
  | [] => [[]]
  | c :: cs =>
    if c = sep then [] :: Split cs sep
    else
      match Split cs sep with
      | [] => [[c]]
      | p :: ps => (c :: p) :: ps

/-- Go `unicode.IsSpace`. -/
def IsSpace (c : Char) : Bool :=
  let n := c.toNat
  n = 0x09 || n = 0x0A || n = 0x0B || n = 0x0C || n = 0x0D || n = 0x20 ||
  n = 0x85 || n = 0xA0 || n = 0x1680 || (0x2000 ≤ n && n ≤ 0x200A) ||
  n = 0x2028 || n = 0x2029 || n = 0x202F || n = 0x205F || n = 0x3000

/-- Go `strings.TrimSpace`. -/
def TrimSpace (s : Str) : Str :=
  ((s.dropWhile IsSpace).reverse.dropWhile IsSpace).reverse

/-- Go `strings.TrimRight(s, cutset)` for a cutset of one rune. -/
def TrimRight (s : Str) (cut : Char) : Str :=
  (s.reverse.dropWhile (fun c => c = cut)).reverse

/-! ## Maps -/

/-- A Go `map[string]V`. -/
abbrev GoMap (V : Type) := List (Str × V)

/-- The lookup `m[k]`, with `none` for an absent key. -/
def mapGet {V : Type} (m : GoMap V) (k : Str) : Option V :=
  match m with
  | [] => none
  | (k', v) :: rest => if k' = k then some v else mapGet rest k

/-- The assignment `m[k] = v`: an existing entry is overwritten in place, a new
one is added. -/
def mapSet {V : Type} (m : GoMap V) (k : Str) (v : V) : GoMap V :=
  match m with
  | [] => [(k, v)]
  | (k', v') :: rest => if k' = k then (k, v) :: rest else (k', v') :: mapSet rest k v

/-- The keys of a map, in the order `range` visits them. -/
def mapKeys {V : Type} (m : GoMap V) : List Str := m.map Prod.fst

/-! ## Data model -/

/-- Go `error`; `none` is `nil`. -/
abbrev error := Option String

/-- The type `HandlerFunc`: a function value, identified by its address; `none` is
the nil function. -/
abbrev HandlerFunc := Option Nat

/-- The struct `HandlerItem`; `ctype` is the name of the controller type, `none`
when it is nil. -/
structure HandlerItem where
  ctype : Option Str
  fname : Str
  faddr : HandlerFunc
deriving DecidableEq, Repr

/-- The type `HandlerMap`. -/
abbrev HandlerMap := GoMap HandlerItem

/-- The fields of `Server` that binding and resolution read or write.
`hooksMap` holds, per key, the `*glist.List` stored there, as the list of its
elements in order. -/
structure Server where
  name : Str
  status : Int
  handlerMap : HandlerMap
  methodsMap : GoMap Bool
  hooksMap : GoMap (List HandlerFunc)
deriving DecidableEq, Repr

def gDEFAULT_SERVER : Str := "default".toList

def gDEFAULT_DOMAIN : Str := "default".toList

def gDEFAULT_METHOD : Str := "all".toList

def gHTTP_METHODS : Str := "GET,PUT,POST,DELETE,PATCH,HEAD,CONNECT,OPTIONS,TRACE".toList

/-- The nine verbs, `strings.Split(gHTTP_METHODS, ",")`. -/
def httpMethods : List Str := Split gHTTP_METHODS ','

/-- The server that `GetServer` builds when the name is not registered yet: empty
maps, and `methodsMap` filled from `gHTTP_METHODS`. -/
def newServer (name : Str) : Server :=
  { name := name
    status := 0
    handlerMap := []
    methodsMap := httpMethods.foldl (fun m v => mapSet m v true) []
    hooksMap := [] }

/-! ## Handler registry -/

/-- The method `Server.handlerKey`. -/
def handlerKey (U : CaseTables) (domain method pattern : Str) : Str :=
  ToUpper U method ++ ":".toList ++ pattern ++ "@".toList ++ ToLower U domain

/-- The method `Server.setHandler`. -/
def setHandler (U : CaseTables) (s : Server) (domain method pattern : Str)
    (item : HandlerItem) : Server :=
  if method = gDEFAULT_METHOD then
    let store := fun (hm : HandlerMap) (v : Str) => mapSet hm (handlerKey U domain v pattern) item
    { s with handlerMap := (mapKeys s.methodsMap).foldl store s.handlerMap }
  else
    { s with handlerMap := mapSet s.handlerMap (handlerKey U domain method pattern) item }

/-- The method `Server.getHandler`; `none` is the nil pointer. -/
def getHandler (U : CaseTables) (s : Server) (domain method pattern : Str) :
    Option HandlerItem :=
  mapGet s.handlerMap (handlerKey U domain method pattern)

/-- The four results of `Server.parsePattern`. -/
structure Pattern where
  domain : Str
  method : Str
  uri : Str
  err : error
deriving DecidableEq, Repr

/-- The method `Server.parsePattern`. `result[0]` and the guarded `result[1]` are
always in range, since `Split` returns at least one piece (`Split_ne_nil`). -/
def parsePattern (pattern : Str) : Pattern :=
  let result := Split pattern '@'
  let domain := if result.length > 1 then result.getD 1 [] else gDEFAULT_DOMAIN
  let result := Split (result.getD 0 []) ':'
  let method := if result.length > 1 then result.getD 0 [] else "all".toList
  let uri := if result.length > 1 then result.getD 1 [] else result.getD 0 []
  let err : error := if uri = [] then some "invalid pattern" else none
  { domain := domain, method := method, uri := uri, err := err }

/-- The method `Server.bindHandlerItem`. -/
def bindHandlerItem (U : CaseTables) (s : Server) (pattern : Str) (item : HandlerItem) :
    Server × error :=
  if s.status = 1 then
    (s, some "server handlers cannot be changed while running")
  else
    let r := parsePattern pattern
    if r.err ≠ none then
      (s, some "invalid pattern")
    else
      (setHandler U s r.domain r.method r.uri item, none)

/-- The method `Server.BindHandler`. -/
def BindHandler (U : CaseTables) (s : Server) (pattern : Str) (handler : HandlerFunc) :
    Server × error :=
  bindHandlerItem U s pattern { ctype := none, fname := [], faddr := handler }

/-- The method `Server.bindHandlerByMap`; the entries of `m` are visited in list
order. -/
def bindHandlerByMap (U : CaseTables) (s : Server) (m : HandlerMap) : Server × error :=
  match m with
  | [] => (s, none)
  | (p, h) :: rest =>
    let r := bindHandlerItem U s p h
    if r.2 ≠ none then (r.1, r.2) else bindHandlerByMap U r.1 rest

/-! ## URIs derived from method names -/

/-- The UTF-8 encoding of a rune, as byte values. -/
def utf8EncodeRune (c : Char) : List Nat :=
  let v := c.toNat
  if v < 0x80 then [v]
  else if v < 0x800 then [0xC0 + v / 64, 0x80 + v % 64]
  else if v < 0x10000 then [0xE0 + v / 4096, 0x80 + v / 64 % 64, 0x80 + v % 64]
  else [0xF0 + v / 262144, 0x80 + v / 4096 % 64, 0x80 + v / 64 % 64, 0x80 + v % 64]

/-- The bytes of a string: `len(name)` is their number and `name[i]` the byte at
index `i`. -/
def bytes (s : Str) : List Nat := (s.map utf8EncodeRune).flatten

/-- Modelled from the spec: `gutil.IsLetterUpper`, a helper of the repository that
is not among the two files. The spec inserts the hyphen "before each internal
upper-case letter"; the argument is a byte, so the letters are `A` to `Z`. -/
def IsLetterUpper (b : Nat) : Bool := 65 ≤ b && b ≤ 90

/-- The loop of `appendMethodNameToUriWithPattern` from index `i` on, over the
bytes `name[i], name[i+1], ...`; `string(name[i])` is the rune of that value. -/
def appendMethodNameLoop (U : CaseTables) (name : List Nat) (i : Nat) (uri : Str) : Str :=
  match name with
  | [] => uri
  | b :: rest =>
    let uri := if 0 < i && IsLetterUpper b then uri ++ "-".toList else uri
    appendMethodNameLoop U rest (i + 1) (uri ++ ToLower U [Char.ofNat b])

/-- The method `Server.appendMethodNameToUriWithPattern`. -/
def appendMethodNameToUriWithPattern (U : CaseTables) (pattern name : Str) : Str :=
  let array := Split pattern '@'
  let uri := array.getD 0 []
  let uri := TrimRight uri '/' ++ "/".toList
  let uri := appendMethodNameLoop U (bytes name) 0 uri
  if array.length > 1 then uri ++ "@".toList ++ array.getD 1 [] else uri

/-- What reflection shows of an object all of whose exported methods have the
handler signature (on any other method `BindObject` panics at the type assertion):
name and bound method value, in the order of `Type.Method(i)`. -/
abbrev Object := List (Str × HandlerFunc)

/-- The map `m` that the loop of `Server.BindObject` fills: one entry per method,
under the pattern derived from its name. -/
def BindObject.m (U : CaseTables) (pattern : Str) (obj : Object) : HandlerMap :=
  obj.foldl (fun (m : HandlerMap) (f : Str × HandlerFunc) =>
    mapSet m (appendMethodNameToUriWithPattern U pattern f.1)
      { ctype := none, fname := [], faddr := f.2 }) []

/-- The method `Server.BindObject`. -/
def BindObject (U : CaseTables) (s : Server) (pattern : Str) (obj : Object) : Server × error :=
  bindHandlerByMap U s (BindObject.m U pattern obj)

/-! ## Hook registry -/

/-- A `*glist.List`: `none` is the nil pointer. A list is reachable only through
the slot of `hooksMap` it was stored in, so a pointer is the key of that slot. -/
abbrev ListPtr := Option Str

/-- Modelled from the spec: `gmap.StringInterfaceMap.GetWithDefault`, of the
repository's package `gmap`, which is not among the two files. It returns the
value stored under `key` and stores the default first when the key is absent
("creating the list on first use"). Every value of `hooksMap` is a non-nil list,
so the returned interface value is never nil. -/
def GetWithDefault (m : GoMap (List HandlerFunc)) (key : Str) (value : List HandlerFunc) :
    GoMap (List HandlerFunc) × ListPtr :=
  match mapGet m key with
  | some _ => (m, some key)
  | none => (mapSet m key value, some key)

/-- Modelled from the spec: `glist.List.PushBack`, of the repository's package
`glist`: the handler is appended to the list the pointer refers to. The result
`none` is the run-time panic of a call through the nil pointer. -/
def PushBack (m : GoMap (List HandlerFunc)) (l : ListPtr) (handler : HandlerFunc) :
    Option (GoMap (List HandlerFunc)) :=
  match l with
  | none => none
  | some k => some (mapSet m k ((mapGet m k).getD [] ++ [handler]))

/-- The method `Server.handlerHookKey`. -/
def handlerHookKey (U : CaseTables) (domain method uri hook : Str) : Str :=
  ToUpper U hook ++ "^".toList ++ handlerKey U domain method uri

/-- The loop `for v, _ := range s.methodsMap` of `BindHookHandler`, over the keys
still to visit, with the hook map and the variable `l`. -/
def bindHookLoop (U : CaseTables) (domain uri hook : Str) (handler : HandlerFunc)
    (keys : List Str) (hm : GoMap (List HandlerFunc)) (l : ListPtr) :
    Option (GoMap (List HandlerFunc)) :=
  match keys with
  | [] => some hm
  | v :: rest =>
    let r := GetWithDefault hm (handlerHookKey U domain v uri hook) []
    let l := if r.2 ≠ none then r.2 else l
    match PushBack r.1 l handler with
    | none => none
    | some hm2 => bindHookLoop U domain uri hook handler rest hm2 l

/-- The method `Server.BindHookHandler`; `none` is a run-time panic. In the branch
of an explicit method the test is `v == nil`: when it holds the type assertion
on the nil interface panics, and when it fails `l` is still nil at `PushBack`. -/
def BindHookHandler (U : CaseTables) (s : Server) (pattern hook : Str)
    (handler : HandlerFunc) : Option (Server × error) :=
  let r := parsePattern pattern
  if r.err ≠ none then
    some (s, some "invalid pattern")
  else if r.method = gDEFAULT_METHOD then
    match bindHookLoop U r.domain r.uri hook handler (mapKeys s.methodsMap) s.hooksMap none with
    | none => none
    | some hm => some ({ s with hooksMap := hm }, none)
  else
    let g := GetWithDefault s.hooksMap (handlerHookKey U r.domain r.method r.uri hook) []
    if g.2 = none then
      none
    else
      match PushBack g.1 none handler with
      | none => none
      | some hm => some ({ s with hooksMap := hm }, none)

/-- The method `Server.BindHookHandlerInit`. -/
def BindHookHandlerInit (U : CaseTables) (s : Server) (pattern : Str)
    (handler : HandlerFunc) : Option (Server × error) :=
  BindHookHandler U s pattern "Init".toList handler

/-- The method `Server.BindHookHandlerShut`. -/
def BindHookHandlerShut (U : CaseTables) (s : Server) (pattern : Str)
    (handler : HandlerFunc) : Option (Server × error) :=
  BindHookHandler U s pattern "Shut".toList handler

/-- The method `Server.getHookList`; `none` is the nil slice. -/
def getHookList (U : CaseTables) (s : Server) (domain method uri hook : Str) :
    Option (List HandlerFunc) :=
  mapGet s.hooksMap (handlerHookKey U domain method uri hook)

/-- A run of `BindHookHandlerInit(pattern, h)` for the handlers of a list, in
order; `none` when a call panics or returns an error. -/
def bindHooksInit (U : CaseTables) (s : Server) (pattern : Str) (hs : List HandlerFunc) :
    Option Server :=
  match hs with
  | [] => some s
  | h :: rest =>
    match BindHookHandlerInit U s pattern h with
    | some (s1, none) => bindHooksInit U s1 pattern rest
    | _ => none

/-! ## Domains -/

/-- The struct `Domain`; `s` is the address of the owning server. -/
structure Domain where
  s : Nat
  m : GoMap Bool
deriving DecidableEq, Repr

/-- The state of the package: the `Server` objects by address, and the package
variable `domains`. -/
structure Pkg where
  servers : Nat → Server
  domains : GoMap Domain

/-- The method `Server.Domain`, called on the server at address `s`. -/
def Server.Domain (w : Pkg) (s : Nat) (domain : Str) : Pkg × Ghttp.Domain :=
  match mapGet w.domains domain with
  | some r => (w, r)
  | none =>
    let d : Ghttp.Domain :=
      { s := s, m := (Split domain ',').foldl (fun m v => mapSet m (TrimSpace v) true) [] }
    ({ w with domains := mapSet w.domains domain d }, d)

/-- The loop of `Domain.BindHandler` over the keys of `d.m` still to visit. -/
def Domain.bindHandlerLoop (U : CaseTables) (d : Ghttp.Domain) (pattern : Str)
    (handler : HandlerFunc) (keys : List Str) (w : Pkg) : Pkg × error :=
  match keys with
  | [] => (w, none)
  | domain :: rest =>
    let r := bindHandlerItem U (w.servers d.s) (pattern ++ "@".toList ++ domain)
      { ctype := none, fname := [], faddr := handler }
    let w1 : Pkg := { w with servers := Function.update w.servers d.s r.1 }
    if r.2 ≠ none then (w1, r.2) else Domain.bindHandlerLoop U d pattern handler rest w1

/-- The method `Domain.BindHandler`. -/
def Domain.BindHandler (U : CaseTables) (w : Pkg) (d : Ghttp.Domain) (pattern : Str)
    (handler : HandlerFunc) : Pkg × error :=
  Domain.bindHandlerLoop U d pattern handler (mapKeys d.m) w

/-! ## Notions of the specification -/

/-- Two strings are letter-casings of each other: they agree up to the case of
the ASCII letters. -/
def SameLetters (x y : Str) : Prop := x.map Char.toLower = y.map Char.toLower

instance (x y : Str) : Decidable (SameLetters x y) := by
  unfold SameLetters; infer_instance

/-- The specification's suffix of a method name: every character lower-cased, and
one `-` before each upper-case letter that is not the first character. -/
def kebab (n : Str) : Str :=
  match n with
  | [] => []
  | c :: cs =>
    c.toLower :: (cs.map (fun x => if x.isUpper then ['-', x.toLower] else [x.toLower])).flatten

/-- The methods table of a server is the one `GetServer` fills: its keys are the
nine verbs, in some order. -/
def Server.WF (s : Server) : Prop := (mapKeys s.methodsMap).Perm httpMethods

instance (s : Server) : Decidable s.WF := by
  unfold Server.WF; infer_instance

/-! ## Binding by reflection -/

/-- Go `reflect.Value.MethodByName`: the method whose name is exactly `name`; `none`
is the invalid `Value`, for which `IsValid` is false. -/
def MethodByName (obj : Object) (name : Str) : Option HandlerFunc := mapGet obj name

/-- The loop of `Server.BindObjectMethod` over the pieces of `methods` still to
visit, with the map `m`; it ends at the first name that is no method. -/
def BindObjectMethod.loop (U : CaseTables) (pattern : Str) (obj : Object)
    (names : List Str) (m : HandlerMap) : HandlerMap × error :=
  match names with
  | [] => (m, none)
  | v :: rest =>
    let method := TrimSpace v
    match MethodByName obj method with
    | none => (m, some ("invalid method name:" ++ String.mk method))
    | some fval =>
      BindObjectMethod.loop U pattern obj rest
        (mapSet m (appendMethodNameToUriWithPattern U pattern method)
          { ctype := none, fname := [], faddr := fval })

/-- The method `Server.BindObjectMethod`. -/
def BindObjectMethod (U : CaseTables) (s : Server) (pattern : Str) (obj : Object)
    (methods : Str) : Server × error :=
  let r := BindObjectMethod.loop U pattern obj (Split methods ',') []
  if r.2 ≠ none then (s, r.2) else bindHandlerByMap U s r.1

/-- The map `m` that the loop of `Server.BindObjectRest` fills: one entry per method
whose upper-cased name is a key of `methodsMap`, under the pattern `name:pattern`. -/
def BindObjectRest.m (U : CaseTables) (s : Server) (pattern : Str) (obj : Object) : HandlerMap :=
  obj.foldl (fun (m : HandlerMap) (f : Str × HandlerFunc) =>
    if (mapGet s.methodsMap (ToUpper U f.1)).isSome then
      mapSet m (f.1 ++ ":".toList ++ pattern) { ctype := none, fname := [], faddr := f.2 }
    else m) []

/-- The method `Server.BindObjectRest`. -/
def BindObjectRest (U : CaseTables) (s : Server) (pattern : Str) (obj : Object) :
    Server × error :=
  bindHandlerByMap U s (BindObjectRest.m U s pattern obj)

/-- What reflection shows of a controller (a pointer): the type it points to,
`v.Elem().Type()`, and the names of its exported methods in the order of
`Type.Method(i)`. -/
structure Controller where
  elemType : Str
  methods : List Str
deriving DecidableEq, Repr

/-- The map `m` that the loop of `Server.BindController` fills: one entry per method
other than `Init` and `Shut`, under the pattern derived from its name. -/
def BindController.m (U : CaseTables) (pattern : Str) (c : Controller) : HandlerMap :=
  c.methods.foldl (fun (m : HandlerMap) (name : Str) =>
    if name = "Init".toList ∨ name = "Shut".toList then m
    else
      mapSet m (appendMethodNameToUriWithPattern U pattern name)
        { ctype := some c.elemType, fname := name, faddr := none }) []

/-- The method `Server.BindController`. -/
def BindController (U : CaseTables) (s : Server) (pattern : Str) (c : Controller) :
    Server × error :=
  bindHandlerByMap U s (BindController.m U pattern c)

/-- The loop of `Server.BindControllerMethod`, as that of `BindObjectMethod`. -/
def BindControllerMethod.loop (U : CaseTables) (pattern : Str) (c : Controller)
    (names : List Str) (m : HandlerMap) : HandlerMap × error :=
  match names with
  | [] => (m, none)
  | v :: rest =>
    let method := TrimSpace v
    if method ∈ c.methods then
      BindControllerMethod.loop U pattern c rest
        (mapSet m (appendMethodNameToUriWithPattern U pattern method)
          { ctype := some c.elemType, fname := method, faddr := none })
    else (m, some ("invalid method name:" ++ String.mk method))

/-- The method `Server.BindControllerMethod`. -/
def BindControllerMethod (U : CaseTables) (s : Server) (pattern : Str) (c : Controller)
    (methods : Str) : Server × error :=
  let r := BindControllerMethod.loop U pattern c (Split methods ',') []
  if r.2 ≠ none then (s, r.2) else bindHandlerByMap U s r.1

/-- A run of `BindHandler` calls, one per pattern and handler of the list, in
order; a call that returns an error leaves the server as it was. -/
def bindHandlers (U : CaseTables) (s : Server) (binds : List (Str × HandlerFunc)) : Server :=
  binds.foldl (fun s b => (BindHandler U s b.1 b.2).1) s

/-! ## Further notions of the specification -/

/-- The name of an exported Go method, in ASCII: an upper-case letter, then letters,
digits and underscores. -/
def isExportedName (n : Str) : Bool :=
  match n with
  | [] => false
  | c :: cs => c.isUpper && cs.all (fun x => x.isAlphanum || x == '_')

/-- The case tables make no separator: only `:` has the upper case `:` and only `@`
has the lower case `@`. Go's tables are so, their case mappings send letters to
letters. -/
def CaseTables.KeepsSeparators (U : CaseTables) : Prop :=
  (∀ c, U.ToUpper c = ':' → c = ':') ∧ (∀ c, U.ToLower c = '@' → c = '@')

/-- The method component of a stored key: what stands before its first `:`. -/
def keyMethod (key : Str) : Str := key.takeWhile (fun c => c ≠ ':')

/-- The entries REST binding is to leave for an object, under domain `d` and URI `u`:
one per method whose upper-cased name is one of the nine verbs, under the key of
`(d, name, u)`, with the method value as `faddr`. -/
def restEntries (U : CaseTables) (d u : Str) (obj : Object) : HandlerMap :=
  (obj.filter (fun f => decide (ToUpper U f.1 ∈ httpMethods))).map
    (fun f => (handlerKey U d f.1 u, { ctype := none, fname := [], faddr := f.2 }))

/-- The keys of `handlerMap` that `Server.setHandler` assigns: for the wildcard
method one per key of `methodsMap`, otherwise the one key of the method. -/
def setHandlerKeys (U : CaseTables) (s : Server) (domain method pattern : Str) : List Str :=
  if method = gDEFAULT_METHOD then
    (mapKeys s.methodsMap).map (fun v => handlerKey U domain v pattern)
  else [handlerKey U domain method pattern]

/-! ## Facts about strings -/

theorem Split_ne_nil (s : Str) (sep : Char) : Split s sep ≠ [] := by
  cases s with
  | nil => simp [Split]
  | cons c cs =>
    unfold Split
    split
    · simp
    · split <;> simp

theorem Split_length_pos (s : Str) (sep : Char) : 0 < (Split s sep).length :=
  List.length_pos.mpr (Split_ne_nil s sep)

theorem Split_cons_sep (cs : Str) (sep : Char) : Split (sep :: cs) sep = [] :: Split cs sep := by
  rw [Split, if_pos rfl]

theorem Split_cons_of_ne (c : Char) (cs : Str) (sep : Char) (p : Str) (ps : List Str)
    (hc : c ≠ sep) (h : Split cs sep = p :: ps) : Split (c :: cs) sep = (c :: p) :: ps := by
  rw [Split, if_neg hc, h]

theorem Split_of_not_mem (s : Str) (sep : Char) (h : sep ∉ s) : Split s sep = [s] := by
  induction s with
  | nil => rfl
  | cons c cs ih =>
    have hc : c ≠ sep := fun e => h (by simp [e])
    have hcs : sep ∉ cs := fun e => h (by simp [e])
    exact Split_cons_of_ne c cs sep cs [] hc (ih hcs)

theorem Split_append_sep (a b : Str) (sep : Char) (h : sep ∉ a) :
    Split (a ++ sep :: b) sep = a :: Split b sep := by
  induction a with
  | nil => exact Split_cons_sep b sep
  | cons c cs ih =>
    have hc : c ≠ sep := fun e => h (by simp [e])
    have hcs : sep ∉ cs := fun e => h (by simp [e])
    exact Split_cons_of_ne c (cs ++ sep :: b) sep cs (Split b sep) hc (ih hcs)

/-- The first piece of a split holds no separator. -/
theorem Split_head_not_mem (s : Str) (sep : Char) : sep ∉ (Split s sep).getD 0 [] := by
  induction s with
  | nil => simp [Split]
  | cons c cs ih =>
    by_cases hc : c = sep
    · subst hc
      rw [Split_cons_sep]
      simp
    · obtain ⟨p, ps, hps⟩ := List.exists_cons_of_ne_nil (Split_ne_nil cs sep)
      rw [Split_cons_of_ne c cs sep p ps hc hps]
      rw [hps] at ih
      simp at ih ⊢
      exact ⟨fun e => hc e.symm, ih⟩

/-! ## Facts about letter case -/

theorem toNat_ofNat_small (n : Nat) (h : n < 0xd800) : (Char.ofNat n).toNat = n := by
  have hv : n.isValidChar := Or.inl h
  unfold Char.ofNat
  rw [dif_pos hv]
  rfl

theorem isUpper_iff (c : Char) : c.isUpper = decide (65 ≤ c.toNat ∧ c.toNat ≤ 90) := by
  have h1 : (65 ≤ c.val) ↔ 65 ≤ c.toNat := Iff.rfl
  have h2 : (c.val ≤ 90) ↔ c.toNat ≤ 90 := Iff.rfl
  simp [Char.isUpper, h1, h2]

theorem toNat_toLower (c : Char) :
    c.toLower.toNat = if 65 ≤ c.toNat ∧ c.toNat ≤ 90 then c.toNat + 32 else c.toNat := by
  unfold Char.toLower
  simp only [ge_iff_le]
  split
  · rw [toNat_ofNat_small _ (by omega)]
  · rfl

theorem toNat_toUpper (c : Char) :
    c.toUpper.toNat = if 97 ≤ c.toNat ∧ c.toNat ≤ 122 then c.toNat - 32 else c.toNat := by
  unfold Char.toUpper
  simp only [ge_iff_le]
  split
  · rw [toNat_ofNat_small _ (by omega)]
  · rfl

theorem char_eq_of_toNat (c d : Char) (h : c.toNat = d.toNat) : c = d := by
  rw [← Char.ofNat_toNat c, ← Char.ofNat_toNat d, h]

/-- Two runes with one ASCII lower case are equal, or are ASCII runes with one
ASCII upper case. -/
theorem sameLetter_cases (c d : Char) (h : c.toLower = d.toLower) :
    c = d ∨ (c.toNat < 128 ∧ d.toNat < 128 ∧ c.toUpper = d.toUpper) := by
  by_cases hcd : c = d
  · exact Or.inl hcd
  · right
    have hne : c.toNat ≠ d.toNat := fun e => hcd (char_eq_of_toNat c d e)
    have h1 := congrArg Char.toNat h
    rw [toNat_toLower, toNat_toLower] at h1
    refine ⟨?_, ?_, ?_⟩
    · split at h1 <;> split at h1 <;> omega
    · split at h1 <;> split at h1 <;> omega
    · apply char_eq_of_toNat
      rw [toNat_toUpper, toNat_toUpper]
      split at h1 <;> split at h1 <;> split <;> split <;> omega

theorem SameLetters.symm {x y : Str} (h : SameLetters x y) : SameLetters y x :=
  Eq.symm h

theorem SameLetters.trans {x y z : Str} (h1 : SameLetters x y) (h2 : SameLetters y z) :
    SameLetters x z :=
  Eq.trans h1 h2

/-- Letter-casings of one string have one upper case and one lower case, whatever
the tables do outside ASCII. -/
theorem SameLetters.fold_eq (U : CaseTables) (x y : Str) (h : SameLetters x y) :
    ToUpper U x = ToUpper U y ∧ ToLower U x = ToLower U y := by
  induction x generalizing y with
  | nil =>
    cases y with
    | nil => exact ⟨rfl, rfl⟩
    | cons d ds => simp [SameLetters] at h
  | cons c cs ih =>
    cases y with
    | nil => simp [SameLetters] at h
    | cons d ds =>
      simp only [SameLetters, List.map_cons, List.cons.injEq] at h
      obtain ⟨hu, hl⟩ := ih ds h.2
      simp only [ToUpper, ToLower] at hu hl
      simp only [ToUpper, ToLower, List.map_cons, List.cons.injEq]
      rcases sameLetter_cases c d h.1 with hcd | ⟨hc, hd, hup⟩
      · subst hcd
        exact ⟨⟨rfl, hu⟩, ⟨rfl, hl⟩⟩
      · refine ⟨⟨?_, hu⟩, ⟨?_, hl⟩⟩
        · rw [U.upper_ascii c hc, U.upper_ascii d hd, hup]
        · rw [U.lower_ascii c hc, U.lower_ascii d hd, h.1]

theorem handlerKey_congr (U : CaseTables) (d d1 m m1 u : Str) (hm : SameLetters m1 m)
    (hd : SameLetters d1 d) : handlerKey U d1 m1 u = handlerKey U d m u := by
  unfold handlerKey
  rw [(SameLetters.fold_eq U m1 m hm).1, (SameLetters.fold_eq U d1 d hd).2]

/-- Keys of one method and one domain differ when the URIs differ. -/
theorem handlerKey_uri_inj (U : CaseTables) (d m u u2 : Str)
    (h : handlerKey U d m u2 = handlerKey U d m u) : u2 = u := by
  unfold handlerKey at h
  simp only [List.append_assoc] at h
  have h1 := List.append_cancel_left (List.append_cancel_left h)
  have h2 : u2 ++ ("@".toList ++ ToLower U d) = u ++ ("@".toList ++ ToLower U d) := h1
  exact List.append_cancel_right h2

/-- No letter-casing of a verb is the wildcard `all`. -/
theorem ne_all_of_sameLetters_verb (m verb : Str) (hverb : verb ∈ httpMethods)
    (hm : SameLetters m verb) : m ≠ gDEFAULT_METHOD := by
  intro e
  subst e
  have h : ∀ v ∈ httpMethods, ¬ SameLetters gDEFAULT_METHOD v := by decide
  exact h verb hverb hm

/-! ## Facts about `parsePattern` -/

theorem parsePattern_no_sep (u : Str) (h1 : ':' ∉ u) (h2 : '@' ∉ u) :
    parsePattern u =
      ⟨gDEFAULT_DOMAIN, gDEFAULT_METHOD, u, if u = [] then some "invalid pattern" else none⟩ := by
  simp [parsePattern, Split_of_not_mem u '@' h2, Split_of_not_mem u ':' h1, gDEFAULT_METHOD]

theorem parsePattern_method (m u : Str) (hm1 : ':' ∉ m) (hm2 : '@' ∉ m)
    (hu1 : ':' ∉ u) (hu2 : '@' ∉ u) :
    parsePattern (m ++ ':' :: u) =
      ⟨gDEFAULT_DOMAIN, m, u, if u = [] then some "invalid pattern" else none⟩ := by
  have h2 : '@' ∉ m ++ ':' :: u := by simp [hm2, hu2]
  simp [parsePattern, Split_of_not_mem _ '@' h2, Split_append_sep m u ':' hm1,
    Split_of_not_mem u ':' hu1]

theorem parsePattern_domain (u d : Str) (hu1 : ':' ∉ u) (hu2 : '@' ∉ u) (hd : '@' ∉ d) :
    parsePattern (u ++ '@' :: d) =
      ⟨d, gDEFAULT_METHOD, u, if u = [] then some "invalid pattern" else none⟩ := by
  simp [parsePattern, Split_append_sep u d '@' hu2, Split_of_not_mem d '@' hd,
    Split_of_not_mem u ':' hu1, gDEFAULT_METHOD]

theorem parsePattern_method_domain (m u d : Str) (hm1 : ':' ∉ m) (hm2 : '@' ∉ m)
    (hu1 : ':' ∉ u) (hu2 : '@' ∉ u) (hd : '@' ∉ d) :
    parsePattern ((m ++ ':' :: u) ++ '@' :: d) =
      ⟨d, m, u, if u = [] then some "invalid pattern" else none⟩ := by
  have h2 : '@' ∉ m ++ ':' :: u := by simp [hm2, hu2]
  have hs : Split (m ++ ':' :: (u ++ '@' :: d)) '@' = [m ++ ':' :: u, d] := by
    have h := Split_append_sep (m ++ ':' :: u) d '@' h2
    simpa [Split_of_not_mem d '@' hd] using h
  simp [parsePattern, hs, Split_append_sep m u ':' hm1, Split_of_not_mem u ':' hu1]

theorem parsePattern_no_method (pattern : Str) (h : ':' ∉ (Split pattern '@').getD 0 []) :
    (parsePattern pattern).method = gDEFAULT_METHOD ∧
      (parsePattern pattern).uri = (Split pattern '@').getD 0 [] := by
  have hs := Split_of_not_mem _ ':' h
  simp only [parsePattern, hs]
  simp [gDEFAULT_METHOD]

/-! ## Facts about maps -/

theorem mapGet_mapSet_self {V : Type} (m : GoMap V) (k : Str) (v : V) :
    mapGet (mapSet m k v) k = some v := by
  induction m with
  | nil => simp [mapSet, mapGet]
  | cons e rest ih =>
    obtain ⟨k1, v1⟩ := e
    by_cases h : k1 = k
    · simp [mapSet, mapGet, h]
    · simp [mapSet, mapGet, h, ih]

theorem mapGet_mapSet_of_ne {V : Type} (m : GoMap V) (k k2 : Str) (v : V) (hk : k ≠ k2) :
    mapGet (mapSet m k v) k2 = mapGet m k2 := by
  induction m with
  | nil => simp [mapSet, mapGet, hk]
  | cons e rest ih =>
    obtain ⟨k1, v1⟩ := e
    by_cases h : k1 = k
    · subst h
      simp [mapSet, mapGet, hk]
    · by_cases h2 : k1 = k2
      · subst h2
        simp [mapSet, mapGet, h]
      · simp [mapSet, mapGet, h, h2, ih]

theorem length_mapSet_of_none {V : Type} (m : GoMap V) (k : Str) (v : V)
    (h : mapGet m k = none) : (mapSet m k v).length = m.length + 1 := by
  induction m with
  | nil => simp [mapSet]
  | cons e rest ih =>
    obtain ⟨k1, v1⟩ := e
    by_cases h1 : k1 = k
    · simp [mapGet, h1] at h
    · simp [mapGet, h1] at h
      simp [mapSet, h1, ih h]

theorem length_mapSet_of_some {V : Type} (m : GoMap V) (k : Str) (v v0 : V)
    (h : mapGet m k = some v0) : (mapSet m k v).length = m.length := by
  induction m with
  | nil => simp [mapGet] at h
  | cons e rest ih =>
    obtain ⟨k1, v1⟩ := e
    by_cases h1 : k1 = k
    · simp [mapSet, h1]
    · simp [mapGet, h1] at h
      simp [mapSet, h1, ih h]

/-- Lookup after storing one item under the keys `f v`, for `v` in a list. -/
theorem mapGet_foldl_mapSet {V : Type} (f : Str → Str) (item : V) (ks : List Str)
    (m : GoMap V) (k : Str) :
    mapGet (ks.foldl (fun hm v => mapSet hm (f v) item) m) k =
      if k ∈ ks.map f then some item else mapGet m k := by
  induction ks generalizing m with
  | nil => simp
  | cons v rest ih =>
    rw [List.foldl_cons, ih]
    by_cases h1 : k ∈ rest.map f
    · simp [h1]
    · by_cases h2 : f v = k
      · subst h2
        simp [mapGet_mapSet_self]
      · have h3 : k ∉ (v :: rest).map f := by
          simp only [List.map_cons, List.mem_cons, not_or]
          exact ⟨fun e => h2 e.symm, h1⟩
        rw [if_neg h1, if_neg h3, mapGet_mapSet_of_ne _ _ _ _ h2]

/-- The number of entries after storing one item under distinct new keys. -/
theorem length_foldl_mapSet {V : Type} (f : Str → Str) (item : V) (ks : List Str)
    (m : GoMap V) (hnd : (ks.map f).Nodup) (hnew : ∀ v ∈ ks, mapGet m (f v) = none) :
    (ks.foldl (fun hm v => mapSet hm (f v) item) m).length = m.length + ks.length := by
  induction ks generalizing m with
  | nil => simp
  | cons v rest ih =>
    rw [List.map_cons, List.nodup_cons] at hnd
    rw [List.foldl_cons, ih _ hnd.2]
    · rw [length_mapSet_of_none m (f v) item (hnew v (by simp))]
      simp only [List.length_cons]
      omega
    · intro w hw
      have hne : f v ≠ f w := fun e => hnd.1 (e ▸ List.mem_map_of_mem f hw)
      rw [mapGet_mapSet_of_ne _ _ _ _ hne]
      exact hnew w (by simp [hw])

/-! ## Facts about keys -/

theorem ToUpper_ascii (U : CaseTables) (s : Str) (h : ∀ c ∈ s, c.toNat < 128) :
    ToUpper U s = s.map Char.toUpper := by
  unfold ToUpper
  exact List.map_congr_left (fun c hc => U.upper_ascii c (h c hc))

theorem ToLower_ascii (U : CaseTables) (s : Str) (h : ∀ c ∈ s, c.toNat < 128) :
    ToLower U s = s.map Char.toLower := by
  unfold ToLower
  exact List.map_congr_left (fun c hc => U.lower_ascii c (h c hc))

theorem httpMethods_eq : httpMethods = ["GET".toList, "PUT".toList, "POST".toList,
    "DELETE".toList, "PATCH".toList, "HEAD".toList, "CONNECT".toList, "OPTIONS".toList,
    "TRACE".toList] := by
  decide

theorem httpMethods_nodup : httpMethods.Nodup := by
  decide

/-- Upper-casing leaves the nine verbs as they are. -/
theorem ToUpper_verb (U : CaseTables) (v : Str) (hv : v ∈ httpMethods) : ToUpper U v = v := by
  have h : ∀ w ∈ httpMethods, (∀ c ∈ w, c.toNat < 128) ∧ w.map Char.toUpper = w := by
    decide
  rw [ToUpper_ascii U v (h v hv).1]
  exact (h v hv).2

theorem handlerKey_verb_inj (U : CaseTables) (d u v w : Str) (hv : v ∈ httpMethods)
    (hw : w ∈ httpMethods) (h : handlerKey U d v u = handlerKey U d w u) : v = w := by
  unfold handlerKey at h
  rw [ToUpper_verb U v hv, ToUpper_verb U w hw] at h
  simp only [List.append_assoc] at h
  exact List.append_cancel_right h

theorem handlerKey_nodup (U : CaseTables) (d u : Str) (ks : List Str)
    (hks : ks.Perm httpMethods) : (ks.map (fun v => handlerKey U d v u)).Nodup := by
  have hnd : ks.Nodup := hks.nodup_iff.mpr httpMethods_nodup
  refine List.Nodup.map_on ?_ hnd
  intro v hv w hw h
  exact handlerKey_verb_inj U d u v w (hks.mem_iff.mp hv) (hks.mem_iff.mp hw) h

/-! ## Facts about binding -/

theorem parsePattern_err_none (pattern : Str) (hu : (parsePattern pattern).uri ≠ []) :
    (parsePattern pattern).err = none := by
  simp only [parsePattern] at hu ⊢
  rw [if_neg hu]

theorem bindHandlerItem_ok (U : CaseTables) (s : Server) (pattern : Str) (item : HandlerItem)
    (hs : s.status ≠ 1) (hu : (parsePattern pattern).uri ≠ []) :
    bindHandlerItem U s pattern item =
      (setHandler U s (parsePattern pattern).domain (parsePattern pattern).method
        (parsePattern pattern).uri item, none) := by
  unfold bindHandlerItem
  rw [if_neg hs]
  simp [parsePattern_err_none pattern hu]

theorem setHandler_all (U : CaseTables) (s : Server) (d u : Str) (item : HandlerItem) :
    (setHandler U s d gDEFAULT_METHOD u item).handlerMap =
      (mapKeys s.methodsMap).foldl (fun hm v => mapSet hm (handlerKey U d v u) item)
        s.handlerMap := by
  simp [setHandler]

theorem setHandler_one (U : CaseTables) (s : Server) (d m u : Str) (item : HandlerItem)
    (hm : m ≠ gDEFAULT_METHOD) :
    (setHandler U s d m u item).handlerMap =
      mapSet s.handlerMap (handlerKey U d m u) item := by
  simp [setHandler, hm]

/-- After a wildcard `setHandler`, every verb resolves to the item. -/
theorem getHandler_setHandler_all (U : CaseTables) (s : Server) (d u v : Str)
    (item : HandlerItem) (hwf : s.WF) (hv : v ∈ httpMethods) :
    getHandler U (setHandler U s d gDEFAULT_METHOD u item) d v u = some item := by
  unfold getHandler
  rw [setHandler_all, mapGet_foldl_mapSet (fun v => handlerKey U d v u)]
  have hmem : handlerKey U d v u ∈ (mapKeys s.methodsMap).map (fun v => handlerKey U d v u) :=
    List.mem_map_of_mem _ (hwf.mem_iff.mpr hv)
  rw [if_pos hmem]

/-- A wildcard `setHandler` on an empty map leaves nine entries. -/
theorem length_setHandler_all (U : CaseTables) (s : Server) (d u : Str) (item : HandlerItem)
    (hwf : s.WF) (hempty : s.handlerMap = []) :
    (setHandler U s d gDEFAULT_METHOD u item).handlerMap.length = 9 := by
  rw [setHandler_all, hempty,
    length_foldl_mapSet (fun v => handlerKey U d v u) item _ [] (handlerKey_nodup U d u _ hwf)
      (fun _ _ => rfl)]
  have h9 : httpMethods.length = 9 := by decide
  simp [hwf.length_eq, h9]

/-! ## Facts about hooks -/

theorem handlerHookKey_nodup (U : CaseTables) (d u hook : Str) (ks : List Str)
    (hks : ks.Perm httpMethods) : (ks.map (fun v => handlerHookKey U d v u hook)).Nodup := by
  have hnd : ks.Nodup := hks.nodup_iff.mpr httpMethods_nodup
  refine List.Nodup.map_on ?_ hnd
  intro v hv w hw h
  unfold handlerHookKey at h
  exact handlerKey_verb_inj U d u v w (hks.mem_iff.mp hv) (hks.mem_iff.mp hw)
    (List.append_cancel_left h)

/-- One round of the loop of `BindHookHandler`: the list under the key gets the
handler at its end, and no other list changes. -/
theorem hook_round (hm : GoMap (List HandlerFunc)) (k : Str) (h : HandlerFunc) (l : ListPtr) :
    ∃ hm2, PushBack (GetWithDefault hm k []).1
        (if (GetWithDefault hm k []).2 ≠ none then (GetWithDefault hm k []).2 else l) h
        = some hm2 ∧
      ∀ k2, mapGet hm2 k2 =
        if k = k2 then some ((mapGet hm k).getD [] ++ [h]) else mapGet hm k2 := by
  cases hg : mapGet hm k with
  | none =>
    refine ⟨mapSet (mapSet hm k []) k ([] ++ [h]), ?_, ?_⟩
    · simp [GetWithDefault, hg, PushBack, mapGet_mapSet_self]
    · intro k2
      by_cases hk : k = k2
      · subst hk
        simp [mapGet_mapSet_self]
      · rw [if_neg hk, mapGet_mapSet_of_ne _ _ _ _ hk, mapGet_mapSet_of_ne _ _ _ _ hk]
  | some old =>
    refine ⟨mapSet hm k (old ++ [h]), ?_, ?_⟩
    · simp [GetWithDefault, hg, PushBack]
    · intro k2
      by_cases hk : k = k2
      · subst hk
        simp [mapGet_mapSet_self]
      · rw [if_neg hk, mapGet_mapSet_of_ne _ _ _ _ hk]

/-- The loop of `BindHookHandler` ends without a panic, and appends the handler to
the list of every key it visits. -/
theorem bindHookLoop_spec (U : CaseTables) (d u hook : Str) (h : HandlerFunc) (ks : List Str)
    (hm : GoMap (List HandlerFunc)) (l : ListPtr)
    (hnd : (ks.map (fun v => handlerHookKey U d v u hook)).Nodup) :
    ∃ hm2, bindHookLoop U d u hook h ks hm l = some hm2 ∧
      ∀ k2, mapGet hm2 k2 =
        if k2 ∈ ks.map (fun v => handlerHookKey U d v u hook)
        then some ((mapGet hm k2).getD [] ++ [h]) else mapGet hm k2 := by
  induction ks generalizing hm l with
  | nil => exact ⟨hm, rfl, fun k2 => by simp⟩
  | cons v rest ih =>
    rw [List.map_cons, List.nodup_cons] at hnd
    obtain ⟨hm1, hpush, hget1⟩ := hook_round hm (handlerHookKey U d v u hook) h l
    obtain ⟨hm2, hloop, hget2⟩ := ih hm1
      (if (GetWithDefault hm (handlerHookKey U d v u hook) []).2 ≠ none
        then (GetWithDefault hm (handlerHookKey U d v u hook) []).2 else l) hnd.2
    refine ⟨hm2, ?_, ?_⟩
    · rw [bindHookLoop]
      simp only [hpush]
      exact hloop
    · intro k2
      rw [List.map_cons, hget2 k2, hget1 k2]
      by_cases h1 : k2 ∈ rest.map (fun v => handlerHookKey U d v u hook)
      · have hne : handlerHookKey U d v u hook ≠ k2 := fun e => hnd.1 (e ▸ h1)
        rw [if_pos h1, if_neg hne, if_pos (List.mem_cons_of_mem _ h1)]
      · by_cases h2 : handlerHookKey U d v u hook = k2
        · subst h2
          rw [if_neg h1, if_pos rfl, if_pos (List.mem_cons_self _ _)]
        · have h3 : k2 ∉ handlerHookKey U d v u hook ::
              rest.map (fun v => handlerHookKey U d v u hook) := by
            simp only [List.mem_cons, not_or]
            exact ⟨fun e => h2 e.symm, h1⟩
          rw [if_neg h1, if_neg h2, if_neg h3]

/-- A wildcard `BindHookHandler` returns nil and appends the handler to the hook
list of every verb. -/
theorem BindHookHandler_all (U : CaseTables) (s : Server) (pattern hook : Str)
    (h : HandlerFunc) (hwf : s.WF) (hmethod : ':' ∉ (Split pattern '@').getD 0 [])
    (huri : (Split pattern '@').getD 0 [] ≠ []) :
    ∃ s1, BindHookHandler U s pattern hook h = some (s1, none) ∧ s1.WF ∧
      s1.handlerMap = s.handlerMap ∧ s1.status = s.status ∧
      ∀ v ∈ httpMethods,
        getHookList U s1 (parsePattern pattern).domain v (parsePattern pattern).uri hook =
          some ((getHookList U s (parsePattern pattern).domain v
            (parsePattern pattern).uri hook).getD [] ++ [h]) := by
  obtain ⟨hm, hu⟩ := parsePattern_no_method pattern hmethod
  have hu0 : (parsePattern pattern).uri ≠ [] := by rw [hu]; exact huri
  obtain ⟨hm2, hloop, hget⟩ := bindHookLoop_spec U (parsePattern pattern).domain
    (parsePattern pattern).uri hook h (mapKeys s.methodsMap) s.hooksMap none
    (handlerHookKey_nodup U _ _ hook _ hwf)
  refine ⟨{ s with hooksMap := hm2 }, ?_, hwf, rfl, rfl, ?_⟩
  · unfold BindHookHandler
    simp only [parsePattern_err_none pattern hu0, hm, hloop]
    simp
  · intro v hv
    unfold getHookList
    rw [hget]
    have hmem : handlerHookKey U (parsePattern pattern).domain v (parsePattern pattern).uri hook ∈
        (mapKeys s.methodsMap).map (fun v => handlerHookKey U (parsePattern pattern).domain v
          (parsePattern pattern).uri hook) :=
      List.mem_map_of_mem _ (hwf.mem_iff.mpr hv)
    rw [if_pos hmem]

/-- A run of wildcard `BindHookHandlerInit` calls ends without panic or error, and
every verb's hook list is the former one followed by the handlers in call order. -/
theorem bindHooksInit_spec (U : CaseTables) (pattern : Str) (hs : List HandlerFunc)
    (hmethod : ':' ∉ (Split pattern '@').getD 0 [])
    (huri : (Split pattern '@').getD 0 [] ≠ []) (s : Server) (hwf : s.WF) :
    ∃ sn, bindHooksInit U s pattern hs = some sn ∧
      ∀ v ∈ httpMethods,
        getHookList U sn (parsePattern pattern).domain v (parsePattern pattern).uri
            "Init".toList =
          if hs = [] then
            getHookList U s (parsePattern pattern).domain v (parsePattern pattern).uri
              "Init".toList
          else
            some ((getHookList U s (parsePattern pattern).domain v (parsePattern pattern).uri
              "Init".toList).getD [] ++ hs) := by
  induction hs generalizing s with
  | nil => exact ⟨s, rfl, fun v _ => by simp⟩
  | cons h rest ih =>
    obtain ⟨s1, hb, hwf1, -, -, hget1⟩ :=
      BindHookHandler_all U s pattern "Init".toList h hwf hmethod huri
    obtain ⟨sn, hrun, hgetn⟩ := ih s1 hwf1
    refine ⟨sn, ?_, ?_⟩
    · rw [bindHooksInit]
      simp only [BindHookHandlerInit, hb]
      exact hrun
    · intro v hv
      rw [hgetn v hv, hget1 v hv]
      by_cases hr : rest = []
      · simp [hr]
      · simp [hr]

/-! ## Facts about domains -/

theorem mem_mapKeys_mapSet {V : Type} (m : GoMap V) (k k2 : Str) (v : V) :
    k2 ∈ mapKeys (mapSet m k v) ↔ k2 = k ∨ k2 ∈ mapKeys m := by
  induction m with
  | nil => simp [mapSet, mapKeys]
  | cons e rest ih =>
    obtain ⟨k1, v1⟩ := e
    by_cases h : k1 = k
    · subst h
      simp only [mapSet, if_pos, mapKeys, List.map_cons, List.mem_cons]
      constructor
      · rintro (h | h)
        · exact Or.inl h
        · exact Or.inr (Or.inr h)
      · rintro (h | h | h)
        · exact Or.inl h
        · exact Or.inl h
        · exact Or.inr h
    · simp only [mapKeys] at ih
      simp only [mapSet, if_neg h, mapKeys, List.map_cons, List.mem_cons, ih]
      exact or_left_comm

theorem mem_mapKeys_foldl {V : Type} (f : Str → Str) (x : V) (xs : List Str) (m : GoMap V)
    (k : Str) :
    k ∈ mapKeys (xs.foldl (fun m v => mapSet m (f v) x) m) ↔ k ∈ xs.map f ∨ k ∈ mapKeys m := by
  induction xs generalizing m with
  | nil => simp
  | cons v rest ih =>
    rw [List.foldl_cons, ih, mem_mapKeys_mapSet, List.map_cons, List.mem_cons]
    constructor
    · rintro (h | h | h)
      · exact Or.inl (Or.inr h)
      · exact Or.inl (Or.inl h)
      · exact Or.inr h
    · rintro ((h | h) | h)
      · exact Or.inr (Or.inl h)
      · exact Or.inl h
      · exact Or.inr (Or.inr h)

/-- With an empty cache `Server.Domain` builds a `Domain` of the calling server whose
keys are the trimmed pieces of the string, and leaves the servers as they are. -/
theorem Server.Domain_fresh (w : Pkg) (sid : Nat) (L : Str) (hcache : w.domains = []) :
    (Server.Domain w sid L).1.servers = w.servers ∧
    (Server.Domain w sid L).2.s = sid ∧
    ∀ a, a ∈ mapKeys (Server.Domain w sid L).2.m ↔ a ∈ (Split L ',').map TrimSpace := by
  have hnone : mapGet w.domains L = none := by rw [hcache]; rfl
  have hd : Server.Domain w sid L =
      (⟨w.servers, mapSet w.domains L
          ⟨sid, (Split L ',').foldl (fun m v => mapSet m (TrimSpace v) true) []⟩⟩,
        ⟨sid, (Split L ',').foldl (fun m v => mapSet m (TrimSpace v) true) []⟩) := by
    unfold Server.Domain
    simp only [hnone]
  rw [hd]
  refine ⟨rfl, rfl, ?_⟩
  intro a
  show a ∈ mapKeys ((Split L ',').foldl (fun m v => mapSet m (TrimSpace v) true) []) ↔ _
  rw [mem_mapKeys_foldl TrimSpace true]
  simp [mapKeys]

/-- A wildcard `setHandler` keeps every resolution that already gave its item. -/
theorem getHandler_setHandler_all_keep (U : CaseTables) (s : Server) (d u d2 v2 u2 : Str)
    (item : HandlerItem) (h : getHandler U s d2 v2 u2 = some item) :
    getHandler U (setHandler U s d gDEFAULT_METHOD u item) d2 v2 u2 = some item := by
  unfold getHandler at h ⊢
  rw [setHandler_all, mapGet_foldl_mapSet (fun v => handlerKey U d v u)]
  split
  · rfl
  · exact h

theorem setHandler_methodsMap (U : CaseTables) (s : Server) (d m u : Str) (item : HandlerItem) :
    (setHandler U s d m u item).methodsMap = s.methodsMap ∧
      (setHandler U s d m u item).status = s.status := by
  unfold setHandler
  split <;> exact ⟨rfl, rfl⟩

/-- The loop of `Domain.BindHandler` returns nil and binds the handler for every
alias it visits and every verb, keeping what an earlier round bound. -/
theorem Domain.bindHandlerLoop_spec (U : CaseTables) (d : Ghttp.Domain) (p : Str)
    (fn : HandlerFunc) (hp0 : p ≠ []) (hp1 : '@' ∉ p) (hp2 : ':' ∉ p) (ks : List Str)
    (hks : ∀ a ∈ ks, '@' ∉ a) (w : Pkg) (hwf : (w.servers d.s).WF)
    (hstatus : (w.servers d.s).status ≠ 1) :
    (Domain.bindHandlerLoop U d p fn ks w).2 = none ∧
    ∀ a v, v ∈ httpMethods →
      (a ∈ ks ∨ getHandler U (w.servers d.s) a v p =
        some { ctype := none, fname := [], faddr := fn }) →
      getHandler U ((Domain.bindHandlerLoop U d p fn ks w).1.servers d.s) a v p =
        some { ctype := none, fname := [], faddr := fn } := by
  induction ks generalizing w with
  | nil =>
    refine ⟨rfl, ?_⟩
    intro a v _ h
    rcases h with h | h
    · simp at h
    · exact h
  | cons a1 rest ih =>
    have ha1 : '@' ∉ a1 := hks a1 (by simp)
    have hparse : parsePattern (p ++ "@".toList ++ a1) = ⟨a1, gDEFAULT_METHOD, p, none⟩ := by
      have h := parsePattern_domain p a1 hp2 hp1 ha1
      rw [if_neg hp0] at h
      simpa using h
    have hb := bindHandlerItem_ok U (w.servers d.s) (p ++ "@".toList ++ a1)
      { ctype := none, fname := [], faddr := fn } hstatus (by rw [hparse]; exact hp0)
    rw [hparse] at hb
    simp only at hb
    have hmm := setHandler_methodsMap U (w.servers d.s) a1 gDEFAULT_METHOD p
      { ctype := none, fname := [], faddr := fn }
    have hwf1 : (setHandler U (w.servers d.s) a1 gDEFAULT_METHOD p
        { ctype := none, fname := [], faddr := fn }).WF := by
      unfold Server.WF
      rw [hmm.1]
      exact hwf
    obtain ⟨herr, hget⟩ := ih (fun a ha => hks a (by simp [ha]))
      ⟨Function.update w.servers d.s (setHandler U (w.servers d.s) a1 gDEFAULT_METHOD p
        { ctype := none, fname := [], faddr := fn }), w.domains⟩
      (by simpa using hwf1) (by simpa [hmm.2] using hstatus)
    rw [Domain.bindHandlerLoop]
    simp only [hb, ne_eq, not_true_eq_false, if_false]
    refine ⟨herr, ?_⟩
    intro a v hv h
    apply hget a v hv
    simp only [Function.update_same]
    rcases h with h | h
    · rcases List.mem_cons.mp h with h1 | h1
      · right
        subst h1
        exact getHandler_setHandler_all U _ _ _ v _ hwf hv
      · exact Or.inl h1
    · right
      exact getHandler_setHandler_all_keep U _ _ _ _ _ _ _ h

/-! ## Facts about URIs derived from method names -/

theorem isLower_iff (c : Char) : c.isLower = decide (97 ≤ c.toNat ∧ c.toNat ≤ 122) := by
  have h1 : (97 ≤ c.val) ↔ 97 ≤ c.toNat := Iff.rfl
  have h2 : (c.val ≤ 122) ↔ c.toNat ≤ 122 := Iff.rfl
  simp [Char.isLower, h1, h2]

theorem isDigit_iff (c : Char) : c.isDigit = decide (48 ≤ c.toNat ∧ c.toNat ≤ 57) := by
  have h1 : (48 ≤ c.val) ↔ 48 ≤ c.toNat := Iff.rfl
  have h2 : (c.val ≤ 57) ↔ c.toNat ≤ 57 := Iff.rfl
  simp [Char.isDigit, h1, h2]

theorem isAlphanum_iff (c : Char) : c.isAlphanum = true ↔
    (65 ≤ c.toNat ∧ c.toNat ≤ 90) ∨ (97 ≤ c.toNat ∧ c.toNat ≤ 122) ∨
      (48 ≤ c.toNat ∧ c.toNat ≤ 57) := by
  simp only [Char.isAlphanum, Char.isAlpha, isUpper_iff, isLower_iff, isDigit_iff,
    Bool.or_eq_true, decide_eq_true_eq, or_assoc]

theorem isAlphanum_ascii (c : Char) (h : c.isAlphanum = true) : c.toNat < 128 := by
  rw [isAlphanum_iff] at h
  omega

/-- The bytes of an ASCII string are its runes. -/
theorem bytes_ascii (n : Str) (h : ∀ c ∈ n, c.toNat < 128) : bytes n = n.map Char.toNat := by
  induction n with
  | nil => rfl
  | cons c cs ih =>
    have hc : c.toNat < 128 := h c (by simp)
    have hcs := ih (fun x hx => h x (by simp [hx]))
    unfold bytes at hcs ⊢
    simp only [List.map_cons, List.flatten_cons, hcs]
    simp [utf8EncodeRune, hc]

theorem IsLetterUpper_toNat (c : Char) : IsLetterUpper c.toNat = c.isUpper := by
  rw [isUpper_iff]
  simp [IsLetterUpper]

/-- The loop of `appendMethodNameToUriWithPattern` past the first byte of an ASCII
name. -/
theorem appendMethodNameLoop_pos (U : CaseTables) (cs : Str) (hcs : ∀ c ∈ cs, c.toNat < 128)
    (i : Nat) (hi : 0 < i) (uri : Str) :
    appendMethodNameLoop U (cs.map Char.toNat) i uri =
      uri ++ (cs.map (fun x => if x.isUpper then ['-', x.toLower] else [x.toLower])).flatten := by
  induction cs generalizing i uri with
  | nil => simp [appendMethodNameLoop]
  | cons c rest ih =>
    have hc : c.toNat < 128 := hcs c (by simp)
    rw [List.map_cons, appendMethodNameLoop, ih (fun x hx => hcs x (by simp [hx])) (i + 1)
      (by omega)]
    simp only [ToLower, List.map_cons, List.map_nil, Char.ofNat_toNat, U.lower_ascii c hc,
      IsLetterUpper_toNat, List.flatten_cons]
    by_cases hup : c.isUpper = true
    · simp [hup, hi]
    · simp [hup]

/-- The loop of `appendMethodNameToUriWithPattern` on an ASCII name appends the
suffix of the specification. -/
theorem appendMethodNameLoop_kebab (U : CaseTables) (n : Str) (hn : ∀ c ∈ n, c.toNat < 128)
    (uri : Str) : appendMethodNameLoop U (bytes n) 0 uri = uri ++ kebab n := by
  rw [bytes_ascii n hn]
  cases n with
  | nil => simp [appendMethodNameLoop, kebab]
  | cons c rest =>
    have hc : c.toNat < 128 := hn c (by simp)
    rw [List.map_cons, appendMethodNameLoop,
      appendMethodNameLoop_pos U rest (fun x hx => hn x (by simp [hx])) 1 (by omega)]
    simp [ToLower, U.lower_ascii c hc, kebab]

/-- The result of `appendMethodNameToUriWithPattern` for a name of ASCII letters
and digits, on a pattern without and with a domain part. -/
theorem appendMethodName_eq (U : CaseTables) (base dom n : Str)
    (hn : ∀ c ∈ n, c.isAlphanum = true) (hbase : '@' ∉ base) (hdom : '@' ∉ dom) :
    appendMethodNameToUriWithPattern U base n =
      TrimRight base '/' ++ "/".toList ++ kebab n ∧
    appendMethodNameToUriWithPattern U (base ++ "@".toList ++ dom) n =
      TrimRight base '/' ++ "/".toList ++ kebab n ++ "@".toList ++ dom := by
  have hascii : ∀ c ∈ n, c.toNat < 128 := fun c hc => isAlphanum_ascii c (hn c hc)
  refine ⟨?_, ?_⟩
  · unfold appendMethodNameToUriWithPattern
    simp only [Split_of_not_mem base '@' hbase, appendMethodNameLoop_kebab U n hascii]
    simp
  · have hs : Split (base ++ "@".toList ++ dom) '@' = [base, dom] := by
      have h := Split_append_sep base dom '@' hbase
      rw [Split_of_not_mem dom '@' hdom] at h
      simpa using h
    unfold appendMethodNameToUriWithPattern
    simp only [hs, appendMethodNameLoop_kebab U n hascii]
    simp

/-! ## Facts about object binding -/

theorem toLower_alphanum (c : Char) (h : c.isAlphanum = true) :
    c.toLower.isAlphanum = true := by
  rw [isAlphanum_iff] at h ⊢
  rw [toNat_toLower]
  split <;> omega

/-- The runes of the suffix are hyphens, letters and digits. -/
theorem kebab_chars (n : Str) (hn : ∀ c ∈ n, c.isAlphanum = true) :
    ∀ c ∈ kebab n, c = '-' ∨ c.isAlphanum = true := by
  cases n with
  | nil => simp [kebab]
  | cons x rest =>
    intro c hc
    simp only [kebab, List.mem_cons, List.mem_flatten, List.mem_map] at hc
    rcases hc with hc | ⟨l, ⟨y, hy, hl⟩, hcl⟩
    · right
      rw [hc]
      exact toLower_alphanum x (hn x (by simp))
    · have hy2 := toLower_alphanum y (hn y (by simp [hy]))
      subst hl
      split at hcl
      · simp only [List.mem_cons, List.mem_singleton, List.not_mem_nil, or_false] at hcl
        rcases hcl with h | h
        · exact Or.inl h
        · exact Or.inr (h ▸ hy2)
      · simp only [List.mem_singleton] at hcl
        exact Or.inr (hcl ▸ hy2)

theorem kebab_not_mem (n : Str) (hn : ∀ c ∈ n, c.isAlphanum = true) (x : Char)
    (hx : x = ':' ∨ x = '@' ∨ x = '/') : x ∉ kebab n := by
  intro hmem
  have hnotalnum : x ≠ '-' ∧ x.isAlphanum ≠ true := by
    rcases hx with h | h | h <;> subst h <;> decide
  rcases kebab_chars n hn x hmem with h | h
  · exact hnotalnum.1 h
  · exact hnotalnum.2 h

theorem kebab_ne_nil (n : Str) (h : n ≠ []) : kebab n ≠ [] := by
  cases n with
  | nil => exact absurd rfl h
  | cons x rest => simp [kebab]

theorem TrimRight_subset (s : Str) (cut c : Char) (h : c ∈ TrimRight s cut) : c ∈ s := by
  unfold TrimRight at h
  rw [List.mem_reverse] at h
  exact List.mem_reverse.mp ((List.dropWhile_sublist _).subset h)

/-- The derived URI of a name of letters and digits holds no `:` and no `@`, is not
empty, and for a non-empty name does not end in `/`. -/
theorem derivedUri_facts (base n : Str) (hn : ∀ c ∈ n, c.isAlphanum = true)
    (hb1 : '@' ∉ base) (hb2 : ':' ∉ base) :
    ':' ∉ TrimRight base '/' ++ "/".toList ++ kebab n ∧
    '@' ∉ TrimRight base '/' ++ "/".toList ++ kebab n ∧
    TrimRight base '/' ++ "/".toList ++ kebab n ≠ [] ∧
    (n ≠ [] → (TrimRight base '/' ++ "/".toList ++ kebab n).getLast? ≠ some '/') := by
  have k1 := kebab_not_mem n hn ':' (Or.inl rfl)
  have k2 := kebab_not_mem n hn '@' (Or.inr (Or.inl rfl))
  have k3 := kebab_not_mem n hn '/' (Or.inr (Or.inr rfl))
  have t1 : ':' ∉ TrimRight base '/' := fun h => hb2 (TrimRight_subset base '/' ':' h)
  have t2 : '@' ∉ TrimRight base '/' := fun h => hb1 (TrimRight_subset base '/' '@' h)
  refine ⟨?_, ?_, ?_, ?_⟩
  · simp only [List.mem_append, not_or]
    exact ⟨⟨t1, by decide⟩, k1⟩
  · simp only [List.mem_append, not_or]
    exact ⟨⟨t2, by decide⟩, k2⟩
  · simp
  · intro hne hlast
    rw [List.getLast?_append_of_ne_nil _ (kebab_ne_nil n hne)] at hlast
    exact k3 (List.mem_of_getLast?_eq_some hlast)

theorem isSome_getHandler_setHandler_all (U : CaseTables) (s : Server) (d u d2 v2 u2 : Str)
    (item : HandlerItem) (h : (getHandler U s d2 v2 u2).isSome = true) :
    (getHandler U (setHandler U s d gDEFAULT_METHOD u item) d2 v2 u2).isSome = true := by
  unfold getHandler at h ⊢
  rw [setHandler_all, mapGet_foldl_mapSet (fun v => handlerKey U d v u)]
  split
  · rfl
  · exact h

/-- When every key of the map is a pattern without method part and with a non-empty
URI, `bindHandlerByMap` returns nil, and every key's URI is resolvable afterwards for
the nine verbs, as is whatever was resolvable before. -/
theorem bindHandlerByMap_spec (U : CaseTables) (m : HandlerMap) (s : Server) (hwf : s.WF)
    (hstatus : s.status ≠ 1)
    (hm : ∀ k ∈ mapKeys m,
      (parsePattern k).uri ≠ [] ∧ (parsePattern k).method = gDEFAULT_METHOD) :
    (bindHandlerByMap U s m).2 = none ∧
    ∀ d v u, v ∈ httpMethods →
      ((∃ k ∈ mapKeys m, (parsePattern k).domain = d ∧ (parsePattern k).uri = u) ∨
        (getHandler U s d v u).isSome = true) →
      (getHandler U (bindHandlerByMap U s m).1 d v u).isSome = true := by
  induction m generalizing s with
  | nil =>
    refine ⟨rfl, ?_⟩
    intro d v u _ h
    rcases h with ⟨k, hk, -⟩ | h
    · simp [mapKeys] at hk
    · exact h
  | cons e rest ih =>
    obtain ⟨p, item⟩ := e
    obtain ⟨hp0, hpm⟩ := hm p (List.mem_cons_self p (mapKeys rest))
    have hb := bindHandlerItem_ok U s p item hstatus hp0
    rw [hpm] at hb
    have hmm := setHandler_methodsMap U s (parsePattern p).domain gDEFAULT_METHOD
      (parsePattern p).uri item
    obtain ⟨herr, hget⟩ := ih (setHandler U s (parsePattern p).domain gDEFAULT_METHOD
        (parsePattern p).uri item)
      (by unfold Server.WF; rw [hmm.1]; exact hwf) (by rw [hmm.2]; exact hstatus)
      (fun k hk => hm k (by simp only [mapKeys, List.map_cons, List.mem_cons] at hk ⊢
                            exact Or.inr hk))
    rw [bindHandlerByMap]
    simp only [hb, ne_eq, not_true_eq_false, if_false]
    refine ⟨herr, ?_⟩
    intro d v u hv h
    apply hget d v u hv
    rcases h with ⟨k, hk, hkd, hku⟩ | h
    · simp only [mapKeys, List.map_cons, List.mem_cons] at hk
      rcases hk with hk | hk
      · right
        subst hk
        rw [← hkd, ← hku, getHandler_setHandler_all U s _ _ v item hwf hv]
        rfl
      · exact Or.inl ⟨k, hk, hkd, hku⟩
    · right
      exact isSome_getHandler_setHandler_all U s _ _ _ _ _ item h

theorem mem_mapKeys_foldl_pairs {V : Type} (g : Str → Str) (val : Str × HandlerFunc → V)
    (xs : Object) (m : GoMap V) (k : Str) :
    k ∈ mapKeys (xs.foldl (fun m f => mapSet m (g f.1) (val f)) m) ↔
      k ∈ xs.map (fun f => g f.1) ∨ k ∈ mapKeys m := by
  induction xs generalizing m with
  | nil => simp
  | cons f rest ih =>
    rw [List.foldl_cons, ih, mem_mapKeys_mapSet, List.map_cons, List.mem_cons]
    constructor
    · rintro (h | h | h)
      · exact Or.inl (Or.inr h)
      · exact Or.inl (Or.inl h)
      · exact Or.inr h
    · rintro ((h | h) | h)
      · exact Or.inr (Or.inl h)
      · exact Or.inl h
      · exact Or.inr (Or.inr h)

/-- The keys of the map that `BindObject` builds are the derived patterns of the
methods of the object. -/
theorem BindObject_keys (U : CaseTables) (pattern : Str) (obj : Object) (k : Str) :
    k ∈ mapKeys (BindObject.m U pattern obj) ↔
      ∃ f ∈ obj, k = appendMethodNameToUriWithPattern U pattern f.1 := by
  unfold BindObject.m
  rw [mem_mapKeys_foldl_pairs (appendMethodNameToUriWithPattern U pattern)
    (fun f => ({ ctype := none, fname := [], faddr := f.2 } : HandlerItem))]
  simp only [List.mem_map, mapKeys, List.map_nil, List.not_mem_nil, or_false]
  constructor
  · rintro ⟨f, hf, rfl⟩
    exact ⟨f, hf, rfl⟩
  · rintro ⟨f, hf, rfl⟩
    exact ⟨f, hf, rfl⟩

/-- The derived pattern of a method parses to the wildcard method and the derived
URI, under the default domain or the domain of the base pattern. -/
theorem derived_parse (U : CaseTables) (base dom n : Str) (hn : ∀ c ∈ n, c.isAlphanum = true)
    (hb1 : '@' ∉ base) (hb2 : ':' ∉ base) (hdom : '@' ∉ dom) :
    parsePattern (appendMethodNameToUriWithPattern U base n) =
      ⟨gDEFAULT_DOMAIN, gDEFAULT_METHOD, TrimRight base '/' ++ "/".toList ++ kebab n, none⟩ ∧
    parsePattern (appendMethodNameToUriWithPattern U (base ++ "@".toList ++ dom) n) =
      ⟨dom, gDEFAULT_METHOD, TrimRight base '/' ++ "/".toList ++ kebab n, none⟩ := by
  obtain ⟨h1, h2, h3, -⟩ := derivedUri_facts base n hn hb1 hb2
  obtain ⟨e1, e2⟩ := appendMethodName_eq U base dom n hn hb1 hdom
  constructor
  · rw [e1, parsePattern_no_sep _ h1 h2, if_neg h3]
  · have h := parsePattern_domain _ dom h1 h2 hdom
    rw [if_neg h3] at h
    rw [e2]
    simpa using h

/-- In the setting of `derived_parse`, `BindObject` returns nil and every method's
derived URI is resolvable for the nine verbs. -/
theorem BindObject_resolvable (U : CaseTables) (s : Server) (pattern d : Str) (obj : Object)
    (uri : Str → Str) (hwf : s.WF) (hstatus : s.status ≠ 1)
    (hparse : ∀ f ∈ obj, parsePattern (appendMethodNameToUriWithPattern U pattern f.1) =
      ⟨d, gDEFAULT_METHOD, uri f.1, none⟩)
    (huri : ∀ f ∈ obj, uri f.1 ≠ []) :
    (BindObject U s pattern obj).2 = none ∧
    ∀ f ∈ obj, ∀ v ∈ httpMethods,
      (getHandler U (BindObject U s pattern obj).1 d v (uri f.1)).isSome = true := by
  have hkeys := BindObject_keys U pattern obj
  obtain ⟨herr, hget⟩ := bindHandlerByMap_spec U (BindObject.m U pattern obj) s hwf hstatus
    (by
      intro k hk
      obtain ⟨f, hf, rfl⟩ := (hkeys k).mp hk
      rw [hparse f hf]
      exact ⟨huri f hf, rfl⟩)
  refine ⟨herr, ?_⟩
  intro f hf v hv
  refine hget d v (uri f.1) hv (Or.inl ⟨appendMethodNameToUriWithPattern U pattern f.1, ?_, ?_⟩)
  · exact (hkeys _).mpr ⟨f, hf, rfl⟩
  · rw [hparse f hf]
    exact ⟨rfl, rfl⟩

/-! ## Facts about the pieces of a split -/

/-- No piece of a split holds the separator. -/
theorem Split_piece_not_mem (s : Str) (sep : Char) : ∀ p ∈ Split s sep, sep ∉ p := by
  induction s with
  | nil => simp [Split]
  | cons c cs ih =>
    by_cases hc : c = sep
    · subst hc
      rw [Split_cons_sep]
      intro p hp
      rcases List.mem_cons.mp hp with h | h
      · subst h
        simp
      · exact ih p h
    · obtain ⟨q, qs, hq⟩ := List.exists_cons_of_ne_nil (Split_ne_nil cs sep)
      rw [Split_cons_of_ne c cs sep q qs hc hq]
      rw [hq] at ih
      intro p hp
      rcases List.mem_cons.mp hp with h | h
      · subst h
        intro hmem
        rcases List.mem_cons.mp hmem with h1 | h1
        · exact hc h1.symm
        · exact ih q (by simp) h1
      · exact ih p (by simp [h])

theorem getD_mem_or_nil (l : List Str) (i : Nat) : l.getD i [] ∈ l ∨ l.getD i [] = [] := by
  induction l generalizing i with
  | nil => right; rfl
  | cons x xs ih =>
    cases i with
    | zero => left; simp
    | succ j =>
      rcases ih j with h | h
      · left
        simp only [List.getD_cons_succ]
        exact List.mem_cons_of_mem _ h
      · right
        simpa using h

theorem Split_getD_not_mem (s : Str) (sep : Char) (i : Nat) : sep ∉ (Split s sep).getD i [] := by
  rcases getD_mem_or_nil (Split s sep) i with h | h
  · exact Split_piece_not_mem s sep _ h
  · rw [h]
    simp

/-- A string with one separator is two strings without, around it. -/
theorem exists_of_count_one (s : Str) (sep : Char) (h : s.count sep = 1) :
    ∃ a b, s = a ++ sep :: b ∧ sep ∉ a ∧ sep ∉ b := by
  induction s with
  | nil => simp at h
  | cons c cs ih =>
    by_cases hc : c = sep
    · subst hc
      rw [List.count_cons_self] at h
      have h0 : cs.count c = 0 := by omega
      exact ⟨[], cs, rfl, by simp, List.count_eq_zero.mp h0⟩
    · rw [List.count_cons_of_ne (fun e => hc e.symm)] at h
      obtain ⟨a, b, hs, ha, hb⟩ := ih h
      refine ⟨c :: a, b, by rw [hs]; rfl, ?_, hb⟩
      intro hmem
      rcases List.mem_cons.mp hmem with h1 | h1
      · exact hc h1.symm
      · exact ha h1

/-- The method that `parsePattern` returns holds no `:`, the domain no `@`. -/
theorem parsePattern_wellformed (pattern : Str) :
    ':' ∉ (parsePattern pattern).method ∧ '@' ∉ (parsePattern pattern).domain := by
  constructor
  · simp only [parsePattern]
    split
    · exact Split_getD_not_mem _ ':' 0
    · decide
  · simp only [parsePattern]
    split
    · exact Split_getD_not_mem _ '@' 1
    · decide

/-- A pattern with one `@` and one `:` before it is put together again from its
three parts. -/
theorem parsePattern_roundtrip (pattern : Str) (h1 : pattern.count '@' = 1)
    (h2 : ((Split pattern '@').getD 0 []).count ':' = 1) :
    (parsePattern pattern).method ++ ":".toList ++ (parsePattern pattern).uri ++ "@".toList ++
      (parsePattern pattern).domain = pattern := by
  obtain ⟨a, d, hp, ha, hd⟩ := exists_of_count_one pattern '@' h1
  have hs : Split pattern '@' = [a, d] := by
    rw [hp, Split_append_sep a d '@' ha, Split_of_not_mem d '@' hd]
  rw [hs] at h2
  obtain ⟨m, u, hmu, hm, hu⟩ := exists_of_count_one a ':' h2
  have hm2 : '@' ∉ m := fun h => ha (by rw [hmu]; simp [h])
  have hu2 : '@' ∉ u := fun h => ha (by rw [hmu]; simp [h])
  have hparse := parsePattern_method_domain m u d hm hm2 hu hu2 hd
  rw [hp, hmu, hparse]
  simp

/-- With an explicit method `BindHookHandler` panics: the variable `l` is nil at
`PushBack`. -/
theorem BindHookHandler_explicit (U : CaseTables) (s : Server) (pattern hook : Str)
    (h : HandlerFunc) (herr : (parsePattern pattern).err = none)
    (hm : (parsePattern pattern).method ≠ gDEFAULT_METHOD) :
    BindHookHandler U s pattern hook h = none := by
  unfold BindHookHandler
  simp only [herr, ne_eq, not_true_eq_false, if_false, hm]
  split
  · rfl
  · rfl

/-- A cached domain string gives the cached `Domain`, whatever server asks. -/
theorem Server.Domain_cached (w : Pkg) (sid : Nat) (L : Str) (d : Ghttp.Domain)
    (h : mapGet w.domains L = some d) : Server.Domain w sid L = (w, d) := by
  unfold Server.Domain
  simp only [h]

theorem Server.Domain_second (w : Pkg) (s1 s2 : Nat) (L : Str)
    (h : mapGet w.domains L = none) :
    (Server.Domain (Server.Domain w s1 L).1 s2 L).2.s = s1 := by
  have h1 : Server.Domain w s1 L =
      (⟨w.servers, mapSet w.domains L
          ⟨s1, (Split L ',').foldl (fun m v => mapSet m (TrimSpace v) true) []⟩⟩,
        ⟨s1, (Split L ',').foldl (fun m v => mapSet m (TrimSpace v) true) []⟩) := by
    unfold Server.Domain
    simp only [h]
  rw [h1]
  rw [Server.Domain_cached _ s2 L
    ⟨s1, (Split L ',').foldl (fun m v => mapSet m (TrimSpace v) true) []⟩
    (mapGet_mapSet_self _ _ _)]

/-! ## Facts about binding by a list of names -/

/-- The loop of `BindObjectMethod` ends with the error of the first name that is no
method of the object, when there is one. -/
theorem BindObjectMethod.loop_invalid (U : CaseTables) (pattern : Str) (obj : Object)
    (names : List Str) (m : HandlerMap)
    (hbad : ∃ v ∈ names, MethodByName obj (TrimSpace v) = none) :
    ∃ pre name post, names.map TrimSpace = pre ++ name :: post ∧
      (∀ x ∈ pre, MethodByName obj x ≠ none) ∧ MethodByName obj name = none ∧
      (BindObjectMethod.loop U pattern obj names m).2 =
        some ("invalid method name:" ++ String.mk name) := by
  induction names generalizing m with
  | nil =>
    obtain ⟨v, hv, -⟩ := hbad
    simp at hv
  | cons v rest ih =>
    cases hf : MethodByName obj (TrimSpace v) with
    | none =>
      refine ⟨[], TrimSpace v, rest.map TrimSpace, rfl, by simp, hf, ?_⟩
      rw [BindObjectMethod.loop]
      simp only [hf]
    | some fval =>
      have hbad2 : ∃ w ∈ rest, MethodByName obj (TrimSpace w) = none := by
        obtain ⟨w, hw, hwn⟩ := hbad
        rcases List.mem_cons.mp hw with h | h
        · subst h
          rw [hf] at hwn
          exact absurd hwn (by simp)
        · exact ⟨w, h, hwn⟩
      obtain ⟨pre, name, post, hsplit, hpre, hname, hres⟩ := ih
        (mapSet m (appendMethodNameToUriWithPattern U pattern (TrimSpace v))
          { ctype := none, fname := [], faddr := fval }) hbad2
      refine ⟨TrimSpace v :: pre, name, post, by simp [hsplit], ?_, hname, ?_⟩
      · intro x hx
        rcases List.mem_cons.mp hx with h | h
        · subst h
          rw [hf]
          simp
        · exact hpre x h
      · rw [BindObjectMethod.loop]
        simp only [hf]
        exact hres

/-- With a name that is no method in its list, `BindObjectMethod` returns the error
of the first such name and the server as it was. -/
theorem BindObjectMethod_invalid (U : CaseTables) (s : Server) (pattern : Str) (obj : Object)
    (methods : Str) (hbad : ∃ v ∈ Split methods ',', MethodByName obj (TrimSpace v) = none) :
    ∃ pre name post, (Split methods ',').map TrimSpace = pre ++ name :: post ∧
      (∀ x ∈ pre, MethodByName obj x ≠ none) ∧ MethodByName obj name = none ∧
      BindObjectMethod U s pattern obj methods =
        (s, some ("invalid method name:" ++ String.mk name)) := by
  obtain ⟨pre, name, post, hsplit, hpre, hname, hres⟩ :=
    BindObjectMethod.loop_invalid U pattern obj (Split methods ',') [] hbad
  refine ⟨pre, name, post, hsplit, hpre, hname, ?_⟩
  unfold BindObjectMethod
  simp only [hres, ne_eq, not_false_eq_true, if_true, reduceCtorEq]

/-! ## Facts about failing domain bindings -/

theorem Split_append_head (p a : Str) (sep : Char) :
    (Split (p ++ sep :: a) sep).getD 0 [] = (Split p sep).getD 0 [] := by
  induction p with
  | nil => simp [Split_cons_sep, Split]
  | cons c cs ih =>
    by_cases hc : c = sep
    · subst hc
      show (Split (c :: (cs ++ c :: a)) c).getD 0 [] = _
      rw [Split_cons_sep, Split_cons_sep]
      rfl
    · obtain ⟨q, qs, hq⟩ := List.exists_cons_of_ne_nil (Split_ne_nil (cs ++ sep :: a) sep)
      obtain ⟨r, rs, hr⟩ := List.exists_cons_of_ne_nil (Split_ne_nil cs sep)
      show (Split (c :: (cs ++ sep :: a)) sep).getD 0 [] = _
      rw [Split_cons_of_ne c _ sep q qs hc hq, Split_cons_of_ne c cs sep r rs hc hr]
      rw [hq, hr] at ih
      simp only [List.getD_cons_zero] at ih ⊢
      rw [ih]

/-- The method, the URI and the error of a pattern do not change when a domain
is put behind it. -/
theorem parsePattern_append_domain (p a : Str) :
    (parsePattern (p ++ "@".toList ++ a)).uri = (parsePattern p).uri ∧
    (parsePattern (p ++ "@".toList ++ a)).method = (parsePattern p).method ∧
    (parsePattern (p ++ "@".toList ++ a)).err = (parsePattern p).err := by
  have h : (Split (p ++ "@".toList ++ a) '@').getD 0 [] = (Split p '@').getD 0 [] := by
    have h0 := Split_append_head p a '@'
    simpa using h0
  simp only [parsePattern, h]
  exact ⟨trivial, trivial, trivial⟩

/-- The loop of `Domain.BindHandler` returns nil when the server is not running and
the pattern has a URI. -/
theorem Domain.bindHandlerLoop_ok (U : CaseTables) (d : Ghttp.Domain) (p : Str)
    (fn : HandlerFunc) (hu : (parsePattern p).uri ≠ []) (ks : List Str) (w : Pkg)
    (hstatus : (w.servers d.s).status ≠ 1) :
    (Domain.bindHandlerLoop U d p fn ks w).2 = none := by
  induction ks generalizing w with
  | nil => rfl
  | cons a rest ih =>
    have hua : (parsePattern (p ++ "@".toList ++ a)).uri ≠ [] := by
      rw [(parsePattern_append_domain p a).1]
      exact hu
    have hb := bindHandlerItem_ok U (w.servers d.s) (p ++ "@".toList ++ a)
      { ctype := none, fname := [], faddr := fn } hstatus hua
    rw [Domain.bindHandlerLoop]
    simp only [hb, ne_eq, not_true_eq_false, if_false]
    apply ih
    simp only [Function.update_same]
    rw [(setHandler_methodsMap U _ _ _ _ _).2]
    exact hstatus

/-- The loop of `Domain.BindHandler` changes nothing when the server is running or
the pattern has no URI: the first alias fails already. -/
theorem Domain.bindHandlerLoop_fail (U : CaseTables) (d : Ghttp.Domain) (p : Str)
    (fn : HandlerFunc) (ks : List Str) (w : Pkg)
    (hbad : (w.servers d.s).status = 1 ∨ (parsePattern p).uri = []) :
    (Domain.bindHandlerLoop U d p fn ks w).1.servers = w.servers ∧
    (Domain.bindHandlerLoop U d p fn ks w).1.domains = w.domains := by
  cases ks with
  | nil => exact ⟨rfl, rfl⟩
  | cons a rest =>
    have hitem : bindHandlerItem U (w.servers d.s) (p ++ "@".toList ++ a)
        { ctype := none, fname := [], faddr := fn } =
          (w.servers d.s, some "server handlers cannot be changed while running") ∨
        bindHandlerItem U (w.servers d.s) (p ++ "@".toList ++ a)
        { ctype := none, fname := [], faddr := fn } =
          (w.servers d.s, some "invalid pattern") := by
      by_cases hst : (w.servers d.s).status = 1
      · left
        simp [bindHandlerItem, hst]
      · right
        have hu : (parsePattern p).uri = [] := hbad.resolve_left hst
        have he : (parsePattern (p ++ "@".toList ++ a)).err ≠ none := by
          rw [(parsePattern_append_domain p a).2.2]
          simp only [parsePattern] at hu ⊢
          rw [if_pos hu]
          simp
        unfold bindHandlerItem
        rw [if_neg hst]
        simp only [he, ne_eq, not_false_eq_true, if_true]
    rw [Domain.bindHandlerLoop]
    rcases hitem with h | h
    · simp only [h, ne_eq, not_false_eq_true, if_true, reduceCtorEq, Function.update_eq_self]
      exact ⟨trivial, trivial⟩
    · simp only [h, ne_eq, not_false_eq_true, if_true, reduceCtorEq, Function.update_eq_self]
      exact ⟨trivial, trivial⟩

/-- When `Domain.BindHandler` returns an error, the server was running or the
pattern has no URI, and nothing has changed. -/
theorem Domain.BindHandler_error (U : CaseTables) (w : Pkg) (d : Ghttp.Domain) (p : Str)
    (fn : HandlerFunc) (herr : (Domain.BindHandler U w d p fn).2 ≠ none) :
    ((w.servers d.s).status = 1 ∨ (parsePattern p).uri = []) ∧
    (Domain.BindHandler U w d p fn).1.servers = w.servers ∧
    (Domain.BindHandler U w d p fn).1.domains = w.domains := by
  have hbad : (w.servers d.s).status = 1 ∨ (parsePattern p).uri = [] := by
    by_contra hgood
    rw [not_or] at hgood
    exact herr (Domain.bindHandlerLoop_ok U d p fn hgood.2 (mapKeys d.m) w hgood.1)
  exact ⟨hbad, Domain.bindHandlerLoop_fail U d p fn (mapKeys d.m) w hbad⟩

/-- A server that is running, or a pattern without URI, makes `bindHandlerItem` fail
for every alias. -/
theorem bindHandlerItem_alias_fails (U : CaseTables) (s : Server) (p a : Str)
    (item : HandlerItem) (hbad : s.status = 1 ∨ (parsePattern p).uri = []) :
    (bindHandlerItem U s (p ++ "@".toList ++ a) item).2 ≠ none := by
  unfold bindHandlerItem
  by_cases hst : s.status = 1
  · simp [hst]
  · have hu : (parsePattern p).uri = [] := hbad.resolve_left hst
    have he : (parsePattern (p ++ "@".toList ++ a)).err ≠ none := by
      rw [(parsePattern_append_domain p a).2.2]
      simp only [parsePattern] at hu ⊢
      rw [if_pos hu]
      simp
    rw [if_neg hst]
    simp only [he, ne_eq, not_false_eq_true, if_true]
    simp

/-! ## Facts about the method component of a key -/

theorem takeWhile_append_sep (x rest : Str) (sep : Char) (h : sep ∉ x) :
    (x ++ sep :: rest).takeWhile (fun c => c ≠ sep) = x := by
  induction x with
  | nil => simp [List.takeWhile]
  | cons c cs ih =>
    have hc : c ≠ sep := fun e => h (by simp [e])
    have hcs : sep ∉ cs := fun e => h (by simp [e])
    simp only [List.cons_append, List.takeWhile_cons, ih hcs]
    simp [hc]

theorem keyMethod_handlerKey (U : CaseTables) (d m u : Str) (h : ':' ∉ ToUpper U m) :
    keyMethod (handlerKey U d m u) = ToUpper U m := by
  unfold keyMethod handlerKey
  have e : ToUpper U m ++ ":".toList ++ u ++ "@".toList ++ ToLower U d =
      ToUpper U m ++ ':' :: (u ++ "@".toList ++ ToLower U d) := by simp
  rw [e]
  exact takeWhile_append_sep _ _ ':' h

theorem verb_no_colon (v : Str) (hv : v ∈ httpMethods) : ':' ∉ v := by
  have h : ∀ w ∈ httpMethods, ':' ∉ w := by decide
  exact h v hv

theorem keyMethod_verb (U : CaseTables) (d v u : Str) (hv : v ∈ httpMethods) :
    keyMethod (handlerKey U d v u) = v := by
  rw [keyMethod_handlerKey U d v u (by rw [ToUpper_verb U v hv]; exact verb_no_colon v hv),
    ToUpper_verb U v hv]

/-- The method component of the key of a letter-casing of a verb is the verb. -/
theorem keyMethod_sameLetters (U : CaseTables) (d m u verb : Str) (hv : verb ∈ httpMethods)
    (hm : SameLetters m verb) : keyMethod (handlerKey U d m u) = verb := by
  have hup : ToUpper U m = verb := by
    rw [(SameLetters.fold_eq U m verb hm).1, ToUpper_verb U verb hv]
  rw [keyMethod_handlerKey U d m u (by rw [hup]; exact verb_no_colon verb hv), hup]

/-- What `bindHandlerItem` does to the server: nothing, or one `setHandler`. -/
theorem bindHandlerItem_cases (U : CaseTables) (s : Server) (p : Str) (item : HandlerItem) :
    (bindHandlerItem U s p item).1 = s ∨
    (bindHandlerItem U s p item).1 =
      setHandler U s (parsePattern p).domain (parsePattern p).method (parsePattern p).uri
        item := by
  unfold bindHandlerItem
  by_cases hst : s.status = 1
  · rw [if_pos hst]
    exact Or.inl rfl
  · rw [if_neg hst]
    by_cases he : (parsePattern p).err ≠ none
    · simp only [he, ne_eq, not_false_eq_true, if_true]
      exact Or.inl trivial
    · simp only [he, ne_eq, if_false]
      exact Or.inr trivial

/-- A `setHandler` with the wildcard or with a letter-casing of a verb keeps the
method components of the keys among the nine verbs. -/
theorem setHandler_keyMethod (U : CaseTables) (s : Server) (d m u : Str) (item : HandlerItem)
    (hwf : s.WF) (hinv : ∀ k ∈ mapKeys s.handlerMap, keyMethod k ∈ httpMethods)
    (hm : m = gDEFAULT_METHOD ∨ ∃ verb ∈ httpMethods, SameLetters m verb) :
    ∀ k ∈ mapKeys (setHandler U s d m u item).handlerMap, keyMethod k ∈ httpMethods := by
  intro k hk
  by_cases hall : m = gDEFAULT_METHOD
  · subst hall
    rw [setHandler_all, mem_mapKeys_foldl (fun v => handlerKey U d v u) item] at hk
    rcases hk with hk | hk
    · obtain ⟨v, hv, rfl⟩ := List.mem_map.mp hk
      have hv2 : v ∈ httpMethods := hwf.mem_iff.mp hv
      rw [keyMethod_verb U d v u hv2]
      exact hv2
    · exact hinv k hk
  · rcases hm with hm | ⟨verb, hverb, hsame⟩
    · exact absurd hm hall
    · rw [setHandler_one U s d m u item hall, mem_mapKeys_mapSet] at hk
      rcases hk with hk | hk
      · rw [hk, keyMethod_sameLetters U d m u verb hverb hsame]
        exact hverb
      · exact hinv k hk

/-- A run of `BindHandler` calls whose methods are the wildcard or letter-casings of
verbs keeps the method components of the keys among the nine verbs. -/
theorem bindHandlers_keyMethod (U : CaseTables) (binds : List (Str × HandlerFunc)) (s : Server)
    (hwf : s.WF) (hinv : ∀ k ∈ mapKeys s.handlerMap, keyMethod k ∈ httpMethods)
    (hbinds : ∀ b ∈ binds, (parsePattern b.1).method = gDEFAULT_METHOD ∨
      ∃ verb ∈ httpMethods, SameLetters (parsePattern b.1).method verb) :
    ∀ k ∈ mapKeys (bindHandlers U s binds).handlerMap, keyMethod k ∈ httpMethods := by
  induction binds generalizing s with
  | nil => exact hinv
  | cons b rest ih =>
    have hb := hbinds b (by simp)
    have hrest : ∀ b2 ∈ rest, (parsePattern b2.1).method = gDEFAULT_METHOD ∨
        ∃ verb ∈ httpMethods, SameLetters (parsePattern b2.1).method verb :=
      fun b2 h2 => hbinds b2 (by simp [h2])
    show ∀ k ∈ mapKeys (bindHandlers U (BindHandler U s b.1 b.2).1 rest).handlerMap, _
    rcases bindHandlerItem_cases U s b.1 { ctype := none, fname := [], faddr := b.2 } with h | h
    · have e : (BindHandler U s b.1 b.2).1 = s := h
      rw [e]
      exact ih s hwf hinv hrest
    · have e : (BindHandler U s b.1 b.2).1 = setHandler U s (parsePattern b.1).domain
          (parsePattern b.1).method (parsePattern b.1).uri
          { ctype := none, fname := [], faddr := b.2 } := h
      rw [e]
      refine ih _ ?_ (setHandler_keyMethod U s _ _ _ _ hwf hinv hb) hrest
      unfold Server.WF
      rw [(setHandler_methodsMap U s _ _ _ _).1]
      exact hwf

/-! ## Facts about collisions of keys -/

/-- Two strings cut at their first separator are equal part by part. -/
theorem append_sep_inj_first (a b a2 b2 : Str) (sep : Char) (ha : sep ∉ a) (ha2 : sep ∉ a2)
    (h : a ++ sep :: b = a2 ++ sep :: b2) : a = a2 ∧ b = b2 := by
  induction a generalizing a2 with
  | nil =>
    cases a2 with
    | nil => simpa using h
    | cons c cs =>
      simp only [List.nil_append, List.cons_append, List.cons.injEq] at h
      exact absurd (by simp [h.1]) ha2
  | cons x xs ih =>
    cases a2 with
    | nil =>
      simp only [List.nil_append, List.cons_append, List.cons.injEq] at h
      exact absurd (by simp [h.1]) ha
    | cons c cs =>
      simp only [List.cons_append, List.cons.injEq] at h
      obtain ⟨e1, e2⟩ := ih cs (fun hm => ha (by simp [hm])) (fun hm => ha2 (by simp [hm])) h.2
      exact ⟨by rw [h.1, e1], e2⟩

/-- Two strings cut at their last separator are equal part by part. -/
theorem append_sep_inj_last (a b a2 b2 : Str) (sep : Char) (hb : sep ∉ b) (hb2 : sep ∉ b2)
    (h : a ++ sep :: b = a2 ++ sep :: b2) : a = a2 ∧ b = b2 := by
  have hr : b.reverse ++ sep :: a.reverse = b2.reverse ++ sep :: a2.reverse := by
    have h2 := congrArg List.reverse h
    simpa using h2
  obtain ⟨e1, e2⟩ := append_sep_inj_first b.reverse a.reverse b2.reverse a2.reverse sep
    (by simpa using hb) (by simpa using hb2) hr
  exact ⟨List.reverse_injective e2, List.reverse_injective e1⟩

theorem ToUpper_no_colon (U : CaseTables) (hU : U.KeepsSeparators) (m : Str) (h : ':' ∉ m) :
    ':' ∉ ToUpper U m := by
  intro hmem
  obtain ⟨x, hx, hxe⟩ := List.mem_map.mp hmem
  exact h (hU.1 x hxe ▸ hx)

theorem ToLower_no_at (U : CaseTables) (hU : U.KeepsSeparators) (d : Str) (h : '@' ∉ d) :
    '@' ∉ ToLower U d := by
  intro hmem
  obtain ⟨x, hx, hxe⟩ := List.mem_map.mp hmem
  exact h (hU.2 x hxe ▸ hx)

theorem asciiTables_keepsSeparators : asciiTables.KeepsSeparators := by
  constructor
  · intro c hc
    have h := congrArg Char.toNat hc
    change c.toUpper.toNat = 58 at h
    rw [toNat_toUpper] at h
    apply char_eq_of_toNat
    change c.toNat = 58
    split at h <;> omega
  · intro c hc
    have h := congrArg Char.toNat hc
    change c.toLower.toNat = 64 at h
    rw [toNat_toLower] at h
    apply char_eq_of_toNat
    change c.toNat = 64
    split at h <;> omega

/-- Keys of methods without `:` and domains without `@` are equal exactly when the
upper-cased methods, the URIs and the lower-cased domains are. -/
theorem handlerKey_eq_iff (U : CaseTables) (hU : U.KeepsSeparators) (d1 m1 p1 d2 m2 p2 : Str)
    (hm1 : ':' ∉ m1) (hm2 : ':' ∉ m2) (hd1 : '@' ∉ d1) (hd2 : '@' ∉ d2) :
    handlerKey U d1 m1 p1 = handlerKey U d2 m2 p2 ↔
      ToUpper U m1 = ToUpper U m2 ∧ p1 = p2 ∧ ToLower U d1 = ToLower U d2 := by
  constructor
  · intro h
    unfold handlerKey at h
    have h1 : ToUpper U m1 ++ ':' :: (p1 ++ '@' :: ToLower U d1) =
        ToUpper U m2 ++ ':' :: (p2 ++ '@' :: ToLower U d2) := by
      simpa using h
    obtain ⟨e1, e2⟩ := append_sep_inj_first _ _ _ _ ':' (ToUpper_no_colon U hU m1 hm1)
      (ToUpper_no_colon U hU m2 hm2) h1
    obtain ⟨e3, e4⟩ := append_sep_inj_last _ _ _ _ '@' (ToLower_no_at U hU d1 hd1)
      (ToLower_no_at U hU d2 hd2) e2
    exact ⟨e1, e3, e4⟩
  · rintro ⟨e1, e2, e3⟩
    unfold handlerKey
    rw [e1, e2, e3]

/-! ## Facts about maps filled with distinct keys -/

theorem mapKeys_cons {V : Type} (e : Str × V) (m : GoMap V) :
    mapKeys (e :: m) = e.1 :: mapKeys m := rfl

theorem mapKeys_append {V : Type} (m m2 : GoMap V) :
    mapKeys (m ++ m2) = mapKeys m ++ mapKeys m2 :=
  List.map_append Prod.fst m m2

theorem mapSet_of_not_mem {V : Type} (m : GoMap V) (k : Str) (v : V) (h : k ∉ mapKeys m) :
    mapSet m k v = m ++ [(k, v)] := by
  induction m with
  | nil => rfl
  | cons e rest ih =>
    obtain ⟨k1, v1⟩ := e
    rw [mapKeys_cons] at h
    have h1 : k1 ≠ k := fun e => h (e ▸ List.mem_cons_self k1 (mapKeys rest))
    have h2 : k ∉ mapKeys rest := fun hm => h (List.mem_cons_of_mem k1 hm)
    rw [mapSet, if_neg h1, ih h2]
    rfl

/-- Entries of distinct keys, none of them in the map, are added at its end. -/
theorem foldl_mapSet_entries {V : Type} (es : List (Str × V)) (m : GoMap V)
    (hnd : (mapKeys es).Nodup) (hnew : ∀ k ∈ mapKeys es, k ∉ mapKeys m) :
    es.foldl (fun hm e => mapSet hm e.1 e.2) m = m ++ es := by
  induction es generalizing m with
  | nil => exact (List.append_nil m).symm
  | cons e rest ih =>
    rw [mapKeys_cons] at hnd hnew
    have hnd2 := List.nodup_cons.mp hnd
    have he : e.1 ∉ mapKeys m := hnew e.1 (List.mem_cons_self _ _)
    rw [List.foldl_cons, mapSet_of_not_mem m e.1 e.2 he, ih _ hnd2.2]
    · rw [List.append_assoc]
      rfl
    · intro k hk hmem
      rw [mapKeys_append] at hmem
      rcases List.mem_append.mp hmem with h | h
      · exact hnew k (List.mem_cons_of_mem _ hk) h
      · have hke : k = e.1 := by
          rcases List.mem_cons.mp h with h1 | h1
          · exact h1
          · cases h1
        exact hnd2.1 (hke ▸ hk)

/-- A loop that stores the entries of the elements a test lets through. -/
theorem foldl_filter_mapSet {α V : Type} (P : α → Bool) (g : α → Str) (val : α → V)
    (xs : List α) (m : GoMap V) :
    xs.foldl (fun hm x => if P x = true then mapSet hm (g x) (val x) else hm) m =
      ((xs.filter P).map (fun x => (g x, val x))).foldl (fun hm e => mapSet hm e.1 e.2) m := by
  induction xs generalizing m with
  | nil => rfl
  | cons x rest ih =>
    by_cases hx : P x = true
    · rw [List.foldl_cons, if_pos hx, List.filter_cons_of_pos hx, List.map_cons,
        List.foldl_cons, ih]
    · rw [List.foldl_cons, if_neg hx, List.filter_cons_of_neg hx, ih]

theorem mapGet_isSome_iff {V : Type} (m : GoMap V) (k : Str) :
    (mapGet m k).isSome = true ↔ k ∈ mapKeys m := by
  induction m with
  | nil =>
    constructor
    · intro h
      rw [mapGet] at h
      cases h
    · intro h
      cases h
  | cons e rest ih =>
    obtain ⟨k1, v1⟩ := e
    rw [mapKeys_cons]
    by_cases h : k1 = k
    · subst h
      rw [mapGet, if_pos rfl]
      exact ⟨fun _ => List.mem_cons_self _ _, fun _ => rfl⟩
    · rw [mapGet, if_neg h, ih]
      constructor
      · exact fun hm => List.mem_cons_of_mem _ hm
      · intro hm
        rcases List.mem_cons.mp hm with e | hm
        · exact absurd e.symm h
        · exact hm

/-- In a map of distinct keys a lookup gives an item exactly when the entry is in
the map. -/
theorem mapGet_eq_some_iff {V : Type} (m : GoMap V) (hnd : (mapKeys m).Nodup) (k : Str) (v : V) :
    mapGet m k = some v ↔ (k, v) ∈ m := by
  induction m with
  | nil =>
    constructor
    · intro h
      rw [mapGet] at h
      cases h
    · intro h
      cases h
  | cons e rest ih =>
    obtain ⟨k1, v1⟩ := e
    rw [mapKeys_cons] at hnd
    have hnd2 := List.nodup_cons.mp hnd
    by_cases h : k1 = k
    · subst h
      rw [mapGet, if_pos rfl]
      constructor
      · intro e
        rw [Option.some.injEq] at e
        rw [e]
        exact List.mem_cons_self _ _
      · intro hm
        rcases List.mem_cons.mp hm with e | hm
        · rw [Prod.mk.injEq] at e
          rw [e.2]
        · exact absurd (List.mem_map_of_mem Prod.fst hm) hnd2.1
    · rw [mapGet, if_neg h, ih hnd2.2]
      constructor
      · exact fun hm => List.mem_cons_of_mem _ hm
      · intro hm
        rcases List.mem_cons.mp hm with e | hm
        · rw [Prod.mk.injEq] at e
          exact absurd e.1.symm h
        · exact hm

/-! ## Facts about binding entries of explicit methods -/

theorem setHandler_one_eq (U : CaseTables) (s : Server) (d m u : Str) (item : HandlerItem)
    (hm : m ≠ gDEFAULT_METHOD) :
    setHandler U s d m u item =
      { s with handlerMap := mapSet s.handlerMap (handlerKey U d m u) item } := by
  unfold setHandler
  rw [if_neg hm]

/-- When every key of the map is a pattern with a URI and a method other than the
wildcard, `bindHandlerByMap` returns nil and has stored each entry under the key of
its pattern, in the order of the visit. -/
theorem bindHandlerByMap_explicit (U : CaseTables) (m : HandlerMap) (s : Server)
    (hstatus : s.status ≠ 1)
    (hm : ∀ k ∈ mapKeys m,
      (parsePattern k).uri ≠ [] ∧ (parsePattern k).method ≠ gDEFAULT_METHOD) :
    (bindHandlerByMap U s m).2 = none ∧
    (bindHandlerByMap U s m).1.handlerMap =
      (m.map (fun e => (handlerKey U (parsePattern e.1).domain (parsePattern e.1).method
        (parsePattern e.1).uri, e.2))).foldl (fun hm e => mapSet hm e.1 e.2) s.handlerMap := by
  induction m generalizing s with
  | nil => exact ⟨rfl, rfl⟩
  | cons e rest ih =>
    obtain ⟨p, item⟩ := e
    obtain ⟨hp0, hpm⟩ := hm p (List.mem_cons_self p (mapKeys rest))
    have hb := bindHandlerItem_ok U s p item hstatus hp0
    obtain ⟨herr, hmap⟩ := ih (setHandler U s (parsePattern p).domain (parsePattern p).method
        (parsePattern p).uri item)
      (by rw [(setHandler_methodsMap U s _ _ _ _).2]; exact hstatus)
      (fun k hk => hm k (List.mem_cons_of_mem p hk))
    rw [bindHandlerByMap]
    simp only [hb, ne_eq, not_true_eq_false, if_false]
    refine ⟨herr, ?_⟩
    rw [hmap, setHandler_one U s _ _ _ item hpm]
    rfl

/-! ## Facts about REST binding -/

theorem Split_append_left (a b : Str) (sep : Char) (h : sep ∉ a) :
    Split (a ++ b) sep = (a ++ (Split b sep).getD 0 []) :: (Split b sep).tail := by
  induction a with
  | nil =>
    obtain ⟨q, qs, hq⟩ := List.exists_cons_of_ne_nil (Split_ne_nil b sep)
    rw [List.nil_append, hq]
    rfl
  | cons c cs ih =>
    have hc : c ≠ sep := fun e => h (by simp [e])
    have hcs : sep ∉ cs := fun e => h (by simp [e])
    exact Split_cons_of_ne c (cs ++ b) sep _ _ hc (ih hcs)

theorem Split_head_subset (s : Str) (sep c : Char) (h : c ∈ (Split s sep).getD 0 []) :
    c ∈ s := by
  induction s with
  | nil => simp [Split] at h
  | cons x xs ih =>
    by_cases hx : x = sep
    · subst hx
      rw [Split_cons_sep] at h
      simp at h
    · obtain ⟨q, qs, hq⟩ := List.exists_cons_of_ne_nil (Split_ne_nil xs sep)
      rw [Split_cons_of_ne x xs sep q qs hx hq] at h
      rw [hq] at ih
      simp only [List.getD_cons_zero] at h ih
      rcases List.mem_cons.mp h with h1 | h1
      · rw [h1]
        exact List.mem_cons_self _ _
      · exact List.mem_cons_of_mem _ (ih h1)

/-- A name without `:` and `@` put before a pattern without `:` becomes its method;
the domain, the URI and the error are those of the pattern. -/
theorem parsePattern_named (name p : Str) (hn1 : ':' ∉ name) (hn2 : '@' ∉ name)
    (hp : ':' ∉ p) :
    parsePattern (name ++ ":".toList ++ p) =
      ⟨(parsePattern p).domain, name, (parsePattern p).uri, (parsePattern p).err⟩ := by
  obtain ⟨h0, tl, hS⟩ := List.exists_cons_of_ne_nil (Split_ne_nil p '@')
  have hh0 : ':' ∉ h0 := by
    intro hmem
    have h1 : ':' ∈ (Split p '@').getD 0 [] := by rw [hS]; exact hmem
    exact hp (Split_head_subset p '@' ':' h1)
  have ha : '@' ∉ name ++ ":".toList := by
    intro hmem
    rcases List.mem_append.mp hmem with h | h
    · exact hn2 h
    · revert h
      decide
  have hS2 : Split (name ++ ":".toList ++ p) '@' = (name ++ ':' :: h0) :: tl := by
    rw [Split_append_left (name ++ ":".toList) p '@' ha, hS]
    simp
  have hS3 : Split (name ++ ':' :: h0) ':' = [name, h0] := by
    rw [Split_append_sep name h0 ':' hn1, Split_of_not_mem h0 ':' hh0]
  have hS4 : Split h0 ':' = [h0] := Split_of_not_mem h0 ':' hh0
  simp only [parsePattern, hS, hS2, List.getD_cons_zero, hS3, hS4, List.length_cons,
    List.getD_cons_succ]
  simp

theorem verb_no_at (v : Str) (hv : v ∈ httpMethods) : '@' ∉ v := by
  have h : ∀ w ∈ httpMethods, '@' ∉ w := by decide
  exact h v hv

/-- A name whose upper case is a verb holds no `:` and no `@`, and is not `all`. -/
theorem verbNamed_facts (U : CaseTables) (n : Str) (h : ToUpper U n ∈ httpMethods) :
    ':' ∉ n ∧ '@' ∉ n ∧ n ≠ gDEFAULT_METHOD := by
  refine ⟨?_, ?_, ?_⟩
  · intro hmem
    have h1 : U.ToUpper ':' ∈ ToUpper U n := List.mem_map_of_mem _ hmem
    rw [U.upper_ascii ':' (by decide)] at h1
    exact verb_no_colon _ h h1
  · intro hmem
    have h1 : U.ToUpper '@' ∈ ToUpper U n := List.mem_map_of_mem _ hmem
    rw [U.upper_ascii '@' (by decide)] at h1
    exact verb_no_at _ h h1
  · intro e
    subst e
    have h2 : ToUpper U gDEFAULT_METHOD = gDEFAULT_METHOD.map Char.toUpper :=
      ToUpper_ascii U gDEFAULT_METHOD (by decide)
    rw [h2] at h
    revert h
    decide

theorem handlerKey_method_inj (U : CaseTables) (d u m m2 : Str) :
    handlerKey U d m u = handlerKey U d m2 u ↔ ToUpper U m = ToUpper U m2 := by
  constructor
  · intro h
    unfold handlerKey at h
    simp only [List.append_assoc] at h
    exact List.append_cancel_right h
  · intro h
    unfold handlerKey
    rw [h]

/-- The entries that REST binding is to leave have distinct keys, when the names
of the object have distinct upper cases. -/
theorem restEntries_nodup (U : CaseTables) (d u : Str) (obj : Object)
    (hnames : (obj.map (fun f => ToUpper U f.1)).Nodup) :
    (mapKeys (restEntries U d u obj)).Nodup := by
  unfold restEntries mapKeys
  rw [List.map_map]
  refine List.Nodup.map_on ?_ ((List.Nodup.of_map _ hnames).filter _)
  intro f hf g hg h
  have h1 : ToUpper U f.1 = ToUpper U g.1 := (handlerKey_method_inj U d u f.1 g.1).mp h
  exact List.inj_on_of_nodup_map hnames (List.mem_filter.mp hf).1 (List.mem_filter.mp hg).1 h1

theorem keyMethod_named (name p : Str) (hc : ':' ∉ name) :
    keyMethod (name ++ ":".toList ++ p) = name := by
  unfold keyMethod
  have e : name ++ ":".toList ++ p = name ++ ':' :: p := by simp
  rw [e]
  exact takeWhile_append_sep name p ':' hc

/-- The map that `BindObjectRest` fills: under `name:pattern`, the verb-named
methods. -/
theorem BindObjectRest_m_eq (U : CaseTables) (s : Server) (p : Str) (obj : Object)
    (hwf : s.WF) (hnames : (obj.map (fun f => ToUpper U f.1)).Nodup) :
    BindObjectRest.m U s p obj =
      (obj.filter (fun f => decide (ToUpper U f.1 ∈ httpMethods))).map
        (fun f => (f.1 ++ ":".toList ++ p,
          ({ ctype := none, fname := [], faddr := f.2 } : HandlerItem))) := by
  have hP : ∀ f ∈ obj, (mapGet s.methodsMap (ToUpper U f.1)).isSome =
      decide (ToUpper U f.1 ∈ httpMethods) := by
    intro f _
    rw [Bool.eq_iff_iff, mapGet_isSome_iff, hwf.mem_iff, decide_eq_true_iff]
  have h1 : BindObjectRest.m U s p obj =
      ((obj.filter (fun f => (mapGet s.methodsMap (ToUpper U f.1)).isSome)).map
        (fun f => (f.1 ++ ":".toList ++ p,
          ({ ctype := none, fname := [], faddr := f.2 } : HandlerItem)))).foldl
        (fun hm e => mapSet hm e.1 e.2) [] :=
    foldl_filter_mapSet (fun f : Str × HandlerFunc => (mapGet s.methodsMap (ToUpper U f.1)).isSome)
      (fun f => f.1 ++ ":".toList ++ p)
      (fun f => ({ ctype := none, fname := [], faddr := f.2 } : HandlerItem)) obj []
  rw [h1, List.filter_congr hP, foldl_mapSet_entries _ [] ?_ (fun _ _ h => by cases h)]
  · rfl
  · unfold mapKeys
    rw [List.map_map]
    refine List.Nodup.map_on ?_ ((List.Nodup.of_map _ hnames).filter _)
    intro f hf g hg h
    have h1 : f.1 = g.1 := by
      have h2 : f.1 ++ (":".toList ++ p) = g.1 ++ (":".toList ++ p) := by
        simpa using h
      exact List.append_cancel_right h2
    exact List.inj_on_of_nodup_map hnames (List.mem_filter.mp hf).1 (List.mem_filter.mp hg).1
      (by rw [h1])

/-- Visited in any order, the map of `BindObjectRest` binds without error and leaves,
in the handler map that was empty, the entries REST binding is to leave. -/
theorem BindObjectRest_visit (U : CaseTables) (s : Server) (p : Str) (obj : Object)
    (hwf : s.WF) (hstatus : s.status ≠ 1) (hempty : s.handlerMap = [])
    (hp : ':' ∉ p) (hu : (parsePattern p).uri ≠ [])
    (hnames : (obj.map (fun f => ToUpper U f.1)).Nodup)
    (m2 : HandlerMap) (hperm : m2.Perm (BindObjectRest.m U s p obj)) :
    (bindHandlerByMap U s m2).2 = none ∧
    (bindHandlerByMap U s m2).1.handlerMap.Perm
      (restEntries U (parsePattern p).domain (parsePattern p).uri obj) ∧
    (m2 = BindObjectRest.m U s p obj →
      (bindHandlerByMap U s m2).1.handlerMap =
        restEntries U (parsePattern p).domain (parsePattern p).uri obj) := by
  have hM := BindObjectRest_m_eq U s p obj hwf hnames
  have hentry : ∀ e ∈ m2, ∃ f ∈ obj, ToUpper U f.1 ∈ httpMethods ∧
      e = (f.1 ++ ":".toList ++ p,
        ({ ctype := none, fname := [], faddr := f.2 } : HandlerItem)) := by
    intro e he
    have he2 := hperm.mem_iff.mp he
    rw [hM] at he2
    obtain ⟨f, hf, hfe⟩ := List.mem_map.mp he2
    obtain ⟨hf1, hf2⟩ := List.mem_filter.mp hf
    exact ⟨f, hf1, of_decide_eq_true hf2, hfe.symm⟩
  have hG : ∀ e ∈ m2,
      (handlerKey U (parsePattern e.1).domain (parsePattern e.1).method (parsePattern e.1).uri,
        e.2) = (handlerKey U (parsePattern p).domain (keyMethod e.1) (parsePattern p).uri, e.2) ∧
      (parsePattern e.1).uri ≠ [] ∧ (parsePattern e.1).method ≠ gDEFAULT_METHOD := by
    intro e he
    obtain ⟨f, -, hverb, rfl⟩ := hentry e he
    obtain ⟨hc, ha, hall⟩ := verbNamed_facts U f.1 hverb
    have hparse := parsePattern_named f.1 p hc ha hp
    simp only [hparse, keyMethod_named f.1 p hc]
    exact ⟨trivial, hu, hall⟩
  have hexp := bindHandlerByMap_explicit U m2 s hstatus (by
    intro k hk
    obtain ⟨e, he, rfl⟩ := List.mem_map.mp hk
    exact (hG e he).2)
  have hmap : m2.map (fun e => (handlerKey U (parsePattern e.1).domain (parsePattern e.1).method
      (parsePattern e.1).uri, e.2)) =
      m2.map (fun e => (handlerKey U (parsePattern p).domain (keyMethod e.1)
        (parsePattern p).uri, e.2)) :=
    List.map_congr_left (fun e he => (hG e he).1)
  have hMG : (BindObjectRest.m U s p obj).map (fun e => (handlerKey U (parsePattern p).domain
      (keyMethod e.1) (parsePattern p).uri, e.2)) =
      restEntries U (parsePattern p).domain (parsePattern p).uri obj := by
    rw [hM, List.map_map]
    unfold restEntries
    refine List.map_congr_left ?_
    intro f hf
    obtain ⟨hc, -, -⟩ := verbNamed_facts U f.1 (of_decide_eq_true (List.mem_filter.mp hf).2)
    simp only [Function.comp, keyMethod_named f.1 p hc]
  have hpermG : (m2.map (fun e => (handlerKey U (parsePattern p).domain (keyMethod e.1)
      (parsePattern p).uri, e.2))).Perm
      (restEntries U (parsePattern p).domain (parsePattern p).uri obj) := by
    rw [← hMG]
    exact hperm.map _
  have hnd : (mapKeys (m2.map (fun e => (handlerKey U (parsePattern p).domain (keyMethod e.1)
      (parsePattern p).uri, e.2)))).Nodup :=
    ((hpermG.map Prod.fst).nodup_iff).mpr (restEntries_nodup U _ _ obj hnames)
  have hfinal : (bindHandlerByMap U s m2).1.handlerMap =
      m2.map (fun e => (handlerKey U (parsePattern p).domain (keyMethod e.1)
        (parsePattern p).uri, e.2)) := by
    rw [hexp.2, hmap, hempty, foldl_mapSet_entries _ [] hnd (fun _ _ h => by cases h)]
    rfl
  refine ⟨hexp.1, ?_, ?_⟩
  · rw [hfinal]
    exact hpermG
  · intro e
    rw [hfinal, e, hMG]

/-! ## Facts about the names of exported methods -/

/-- The runes of an exported name: an upper-case letter, then letters, digits and
underscores. -/
theorem isExportedName_iff (n : Str) : isExportedName n = true ↔
    ∃ c cs, n = c :: cs ∧ c.isUpper = true ∧ ∀ x ∈ cs, x.isAlphanum = true ∨ x = '_' := by
  cases n with
  | nil => simp [isExportedName]
  | cons c cs =>
    simp only [isExportedName, Bool.and_eq_true, List.all_eq_true, Bool.or_eq_true,
      beq_iff_eq, List.cons.injEq]
    constructor
    · rintro ⟨h1, h2⟩
      exact ⟨c, cs, ⟨rfl, rfl⟩, h1, h2⟩
    · rintro ⟨c2, cs2, ⟨rfl, rfl⟩, h1, h2⟩
      exact ⟨h1, h2⟩

theorem isUpper_alphanum (c : Char) (h : c.isUpper = true) : c.isAlphanum = true := by
  rw [isUpper_iff, decide_eq_true_iff] at h
  rw [isAlphanum_iff]
  exact Or.inl h

theorem ident_ascii (x : Char) (h : x.isAlphanum = true ∨ x = '_') : x.toNat < 128 := by
  rcases h with h | h
  · exact isAlphanum_ascii x h
  · rw [h]
    decide

theorem isExportedName_chars (n : Str) (h : isExportedName n = true) :
    ∀ x ∈ n, x.isAlphanum = true ∨ x = '_' := by
  obtain ⟨c, cs, rfl, hc, hcs⟩ := (isExportedName_iff n).mp h
  intro x hx
  rcases List.mem_cons.mp hx with h1 | h1
  · rw [h1]
    exact Or.inl (isUpper_alphanum c hc)
  · exact hcs x h1

theorem toLower_of_not_upper (x : Char) (h : ¬ x.isUpper = true) : x.toLower = x := by
  apply char_eq_of_toNat
  rw [toNat_toLower]
  rw [isUpper_iff, decide_eq_true_iff] at h
  rw [if_neg h]

theorem toLower_inj_upper (x y : Char) (hx : x.isUpper = true) (hy : y.isUpper = true)
    (h : x.toLower = y.toLower) : x = y := by
  apply char_eq_of_toNat
  have h1 := congrArg Char.toNat h
  rw [toNat_toLower, toNat_toLower] at h1
  rw [isUpper_iff, decide_eq_true_iff] at hx hy
  rw [if_pos hx, if_pos hy] at h1
  omega

/-- The lower case of a letter, a digit or an underscore is none of `-`, `:`, `@`
and `/`. -/
theorem toLower_ident (x : Char) (h : x.isAlphanum = true ∨ x = '_') :
    x.toLower ≠ '-' ∧ x.toLower ≠ ':' ∧ x.toLower ≠ '@' ∧ x.toLower ≠ '/' := by
  rcases h with h | h
  · have h2 := toLower_alphanum x h
    refine ⟨?_, ?_, ?_, ?_⟩ <;> intro e <;> rw [e] at h2 <;> revert h2 <;> decide
  · rw [h]
    decide

theorem mem_kebab (n : Str) (c : Char) (hc : c ∈ kebab n) :
    c = '-' ∨ ∃ x ∈ n, c = x.toLower := by
  cases n with
  | nil => simp [kebab] at hc
  | cons x rest =>
    simp only [kebab, List.mem_cons, List.mem_flatten, List.mem_map] at hc
    rcases hc with hc | ⟨l, ⟨y, hy, hl⟩, hcl⟩
    · exact Or.inr ⟨x, List.mem_cons_self _ _, hc⟩
    · subst hl
      split at hcl
      · simp only [List.mem_cons, List.mem_singleton, List.not_mem_nil, or_false] at hcl
        rcases hcl with h | h
        · exact Or.inl h
        · exact Or.inr ⟨y, List.mem_cons_of_mem _ hy, h⟩
      · simp only [List.mem_singleton] at hcl
        exact Or.inr ⟨y, List.mem_cons_of_mem _ hy, hcl⟩

theorem kebab_ident_not_mem (n : Str) (hn : ∀ x ∈ n, x.isAlphanum = true ∨ x = '_') (c : Char)
    (hc : c = ':' ∨ c = '@' ∨ c = '/') : c ∉ kebab n := by
  intro hmem
  rcases mem_kebab n c hmem with h | ⟨x, hx, h⟩
  · rcases hc with e | e | e <;> rw [e] at h <;> revert h <;> decide
  · obtain ⟨-, h1, h2, h3⟩ := toLower_ident x (hn x hx)
    rcases hc with e | e | e
    · exact h1 (h ▸ e)
    · exact h2 (h ▸ e)
    · exact h3 (h ▸ e)

/-- The part of the suffix after its first rune gives back the runes it was made
of. -/
theorem kebab_tail_inj (cs cs2 : Str) (h1 : ∀ x ∈ cs, x.isAlphanum = true ∨ x = '_')
    (h2 : ∀ x ∈ cs2, x.isAlphanum = true ∨ x = '_')
    (h : (cs.map (fun x => if x.isUpper then ['-', x.toLower] else [x.toLower])).flatten =
      (cs2.map (fun x => if x.isUpper then ['-', x.toLower] else [x.toLower])).flatten) :
    cs = cs2 := by
  induction cs generalizing cs2 with
  | nil =>
    cases cs2 with
    | nil => rfl
    | cons y ys =>
      simp only [List.map_nil, List.flatten_nil, List.map_cons, List.flatten_cons] at h
      split at h <;> simp at h
  | cons x xs ih =>
    cases cs2 with
    | nil =>
      simp only [List.map_nil, List.flatten_nil, List.map_cons, List.flatten_cons] at h
      split at h <;> simp at h
    | cons y ys =>
      have hx := h1 x (List.mem_cons_self _ _)
      have hy := h2 y (List.mem_cons_self _ _)
      have hxs : ∀ z ∈ xs, z.isAlphanum = true ∨ z = '_' :=
        fun z hz => h1 z (List.mem_cons_of_mem _ hz)
      have hys : ∀ z ∈ ys, z.isAlphanum = true ∨ z = '_' :=
        fun z hz => h2 z (List.mem_cons_of_mem _ hz)
      simp only [List.map_cons, List.flatten_cons] at h
      by_cases hxu : x.isUpper = true
      · by_cases hyu : y.isUpper = true
        · rw [if_pos hxu, if_pos hyu] at h
          simp only [List.cons_append, List.nil_append, List.cons.injEq, true_and] at h
          rw [toLower_inj_upper x y hxu hyu h.1, ih ys hxs hys h.2]
        · rw [if_pos hxu, if_neg hyu] at h
          simp only [List.cons_append, List.nil_append, List.cons.injEq] at h
          exact absurd h.1.symm (toLower_ident y hy).1
      · by_cases hyu : y.isUpper = true
        · rw [if_neg hxu, if_pos hyu] at h
          simp only [List.cons_append, List.nil_append, List.cons.injEq] at h
          exact absurd h.1 (toLower_ident x hx).1
        · rw [if_neg hxu, if_neg hyu] at h
          simp only [List.cons_append, List.nil_append, List.cons.injEq] at h
          rw [toLower_of_not_upper x hxu, toLower_of_not_upper y hyu] at h
          rw [h.1, ih ys hxs hys h.2]

/-- Exported names with one suffix are one name. -/
theorem kebab_inj (n n2 : Str) (h1 : isExportedName n = true) (h2 : isExportedName n2 = true)
    (h : kebab n = kebab n2) : n = n2 := by
  obtain ⟨c, cs, rfl, hc, hcs⟩ := (isExportedName_iff n).mp h1
  obtain ⟨c2, cs2, rfl, hc2, hcs2⟩ := (isExportedName_iff n2).mp h2
  simp only [kebab, List.cons.injEq] at h
  rw [toLower_inj_upper c c2 hc hc2 h.1, kebab_tail_inj cs cs2 hcs hcs2 h.2]

/-! ## Facts about controller binding -/

/-- The derived pattern of a method, for any base pattern without method part,
parses to the domain of the base pattern, the wildcard and the derived URI. -/
theorem derived_parse_general (U : CaseTables) (pattern n : Str)
    (hn : ∀ x ∈ n, x.isAlphanum = true ∨ x = '_')
    (hhead : ':' ∉ (Split pattern '@').getD 0 []) :
    parsePattern (appendMethodNameToUriWithPattern U pattern n) =
      ⟨(parsePattern pattern).domain, gDEFAULT_METHOD,
        TrimRight ((Split pattern '@').getD 0 []) '/' ++ "/".toList ++ kebab n, none⟩ := by
  have hascii : ∀ c ∈ n, c.toNat < 128 := fun c hc => ident_ascii c (hn c hc)
  have k1 := kebab_ident_not_mem n hn ':' (Or.inl rfl)
  have k2 := kebab_ident_not_mem n hn '@' (Or.inr (Or.inl rfl))
  have t1 : ':' ∉ TrimRight ((Split pattern '@').getD 0 []) '/' :=
    fun h => hhead (TrimRight_subset _ '/' ':' h)
  have t2 : '@' ∉ TrimRight ((Split pattern '@').getD 0 []) '/' :=
    fun h => Split_head_not_mem pattern '@' (TrimRight_subset _ '/' '@' h)
  have u1 : ':' ∉ TrimRight ((Split pattern '@').getD 0 []) '/' ++ "/".toList ++ kebab n := by
    simp only [List.mem_append, not_or]
    exact ⟨⟨t1, by decide⟩, k1⟩
  have u2 : '@' ∉ TrimRight ((Split pattern '@').getD 0 []) '/' ++ "/".toList ++ kebab n := by
    simp only [List.mem_append, not_or]
    exact ⟨⟨t2, by decide⟩, k2⟩
  have u3 : TrimRight ((Split pattern '@').getD 0 []) '/' ++ "/".toList ++ kebab n ≠ [] := by
    simp
  unfold appendMethodNameToUriWithPattern
  simp only [appendMethodNameLoop_kebab U n hascii]
  by_cases hlen : (Split pattern '@').length > 1
  · rw [if_pos hlen]
    have hdom : (parsePattern pattern).domain = (Split pattern '@').getD 1 [] := by
      simp only [parsePattern]
      rw [if_pos hlen]
    have h := parsePattern_domain _ ((Split pattern '@').getD 1 []) u1 u2
      (Split_getD_not_mem pattern '@' 1)
    rw [if_neg u3] at h
    rw [hdom]
    simpa using h
  · rw [if_neg hlen]
    have hdom : (parsePattern pattern).domain = gDEFAULT_DOMAIN := by
      simp only [parsePattern]
      rw [if_neg hlen]
    rw [hdom, parsePattern_no_sep _ u1 u2, if_neg u3]

/-- Exported names with one derived pattern are one name. -/
theorem derived_inj (U : CaseTables) (pattern n n2 : Str) (h1 : isExportedName n = true)
    (h2 : isExportedName n2 = true) (hhead : ':' ∉ (Split pattern '@').getD 0 [])
    (h : (parsePattern (appendMethodNameToUriWithPattern U pattern n)).uri =
      (parsePattern (appendMethodNameToUriWithPattern U pattern n2)).uri) : n = n2 := by
  rw [derived_parse_general U pattern n (isExportedName_chars n h1) hhead,
    derived_parse_general U pattern n2 (isExportedName_chars n2 h2) hhead] at h
  exact kebab_inj n n2 h1 h2 (List.append_cancel_left h)

/-- Keys of verbs under one domain are equal only for one verb and one URI, when the
URIs hold no `:`. -/
theorem handlerKey_verb_uri_inj (U : CaseTables) (d v w u u2 : Str) (hv : v ∈ httpMethods)
    (hw : w ∈ httpMethods) (h : handlerKey U d v u = handlerKey U d w u2) :
    v = w ∧ u = u2 := by
  unfold handlerKey at h
  rw [ToUpper_verb U v hv, ToUpper_verb U w hw] at h
  have h1 : v ++ ':' :: u = w ++ ':' :: u2 := by
    have h2 : (v ++ ':' :: u) ++ ("@".toList ++ ToLower U d) =
        (w ++ ':' :: u2) ++ ("@".toList ++ ToLower U d) := by
      simpa using h
    exact List.append_cancel_right h2
  exact append_sep_inj_first v u w u2 ':' (verb_no_colon v hv) (verb_no_colon w hw) h1

/-- When every key of the map is a pattern of the wildcard method under one domain,
with a URI, and the URIs are distinct, `bindHandlerByMap` returns nil, every entry
is resolved at its URI for the nine verbs, and no other key of the handler map
changes, in whatever order the map is visited. -/
theorem bindHandlerByMap_wild (U : CaseTables) (d : Str) (m : HandlerMap) (s : Server)
    (hwf : s.WF) (hstatus : s.status ≠ 1)
    (hm : ∀ k ∈ mapKeys m, (parsePattern k).domain = d ∧
      (parsePattern k).method = gDEFAULT_METHOD ∧ (parsePattern k).uri ≠ [])
    (hnd : (m.map (fun e => (parsePattern e.1).uri)).Nodup) :
    (bindHandlerByMap U s m).2 = none ∧
    (∀ e ∈ m, ∀ v ∈ httpMethods,
      getHandler U (bindHandlerByMap U s m).1 d v (parsePattern e.1).uri = some e.2) ∧
    (∀ K, (∀ e ∈ m, ∀ v ∈ httpMethods, K ≠ handlerKey U d v (parsePattern e.1).uri) →
      mapGet (bindHandlerByMap U s m).1.handlerMap K = mapGet s.handlerMap K) := by
  induction m generalizing s with
  | nil =>
    refine ⟨rfl, ?_, fun K _ => rfl⟩
    intro e he
    cases he
  | cons e0 rest ih =>
    obtain ⟨p, item⟩ := e0
    obtain ⟨hpd, hpm, hp0⟩ := hm p (List.mem_cons_self p (mapKeys rest))
    rw [List.map_cons, List.nodup_cons] at hnd
    have hb := bindHandlerItem_ok U s p item hstatus hp0
    rw [hpm, hpd] at hb
    have hmm := setHandler_methodsMap U s d gDEFAULT_METHOD (parsePattern p).uri item
    have hwf1 : (setHandler U s d gDEFAULT_METHOD (parsePattern p).uri item).WF := by
      unfold Server.WF
      rw [hmm.1]
      exact hwf
    obtain ⟨herr, hhit, hframe⟩ := ih (setHandler U s d gDEFAULT_METHOD (parsePattern p).uri item)
      hwf1 (by rw [hmm.2]; exact hstatus)
      (fun k hk => hm k (List.mem_cons_of_mem p hk)) hnd.2
    have hbm : bindHandlerByMap U s ((p, item) :: rest) =
        bindHandlerByMap U (setHandler U s d gDEFAULT_METHOD (parsePattern p).uri item) rest := by
      rw [bindHandlerByMap]
      simp only [hb, ne_eq, not_true_eq_false, if_false]
    rw [hbm]
    refine ⟨herr, ?_, ?_⟩
    · intro e he v hv
      rcases List.mem_cons.mp he with h | h
      · subst h
        unfold getHandler
        rw [hframe]
        · exact getHandler_setHandler_all U s d _ v item hwf hv
        · intro e2 he2 w hw hK
          obtain ⟨-, hu⟩ := handlerKey_verb_uri_inj U d v w _ _ hv hw hK
          exact hnd.1 (List.mem_map.mpr ⟨e2, he2, hu.symm⟩)
      · exact hhit e h v hv
    · intro K hK
      rw [hframe K (fun e he v hv => hK e (List.mem_cons_of_mem _ he) v hv), setHandler_all,
        mapGet_foldl_mapSet (fun v => handlerKey U d v (parsePattern p).uri)]
      have hnot : K ∉ (mapKeys s.methodsMap).map
          (fun v => handlerKey U d v (parsePattern p).uri) := by
        intro hmem
        obtain ⟨v, hv, hvK⟩ := List.mem_map.mp hmem
        exact hK (p, item) (List.mem_cons_self _ _) v (hwf.mem_iff.mp hv) hvK.symm
      rw [if_neg hnot]

/-- A loop that stores the entries of the elements a test does not skip. -/
theorem foldl_skip_mapSet {α V : Type} (Q : α → Prop) [DecidablePred Q] (g : α → Str)
    (val : α → V) (xs : List α) (m : GoMap V) :
    xs.foldl (fun hm x => if Q x then hm else mapSet hm (g x) (val x)) m =
      ((xs.filter (fun x => decide (¬ Q x))).map (fun x => (g x, val x))).foldl
        (fun hm e => mapSet hm e.1 e.2) m := by
  induction xs generalizing m with
  | nil => rfl
  | cons x rest ih =>
    by_cases hx : Q x
    · have hf : decide (¬ Q x) = false := by simp [hx]
      rw [List.foldl_cons, if_pos hx, List.filter_cons, hf, ih]
      rfl
    · have hf : decide (¬ Q x) = true := by simp [hx]
      rw [List.foldl_cons, if_neg hx, List.filter_cons, hf, ih]
      rfl

/-- The map that `BindController` fills: under its derived pattern, every method
other than `Init` and `Shut`. -/
theorem BindController_m_eq (U : CaseTables) (pattern : Str) (c : Controller)
    (hhead : ':' ∉ (Split pattern '@').getD 0 [])
    (hnames : ∀ n ∈ c.methods, isExportedName n = true) (hnd : c.methods.Nodup) :
    BindController.m U pattern c =
      (c.methods.filter (fun n => decide (¬ (n = "Init".toList ∨ n = "Shut".toList)))).map
        (fun n => (appendMethodNameToUriWithPattern U pattern n,
          ({ ctype := some c.elemType, fname := n, faddr := none } : HandlerItem))) := by
  have h1 : BindController.m U pattern c =
      ((c.methods.filter (fun n => decide (¬ (n = "Init".toList ∨ n = "Shut".toList)))).map
        (fun n => (appendMethodNameToUriWithPattern U pattern n,
          ({ ctype := some c.elemType, fname := n, faddr := none } : HandlerItem)))).foldl
        (fun hm e => mapSet hm e.1 e.2) [] :=
    foldl_skip_mapSet (fun n : Str => n = "Init".toList ∨ n = "Shut".toList)
      (fun n => appendMethodNameToUriWithPattern U pattern n)
      (fun n => ({ ctype := some c.elemType, fname := n, faddr := none } : HandlerItem))
      c.methods []
  rw [h1, foldl_mapSet_entries _ [] ?_ (fun _ _ h => by cases h)]
  · rfl
  · unfold mapKeys
    rw [List.map_map]
    refine List.Nodup.map_on ?_ (hnd.filter _)
    intro n hn n2 hn2 h
    exact derived_inj U pattern n n2 (hnames n (List.mem_filter.mp hn).1)
      (hnames n2 (List.mem_filter.mp hn2).1) hhead (by
        have h2 : appendMethodNameToUriWithPattern U pattern n =
            appendMethodNameToUriWithPattern U pattern n2 := h
        rw [h2])

/-- Visited in any order, the map of `BindController` binds without error: every
method other than `Init` and `Shut` is resolved at its derived URI for the nine
verbs, and no key other than theirs changes. -/
theorem BindController_visit (U : CaseTables) (s : Server) (pattern : Str) (c : Controller)
    (hwf : s.WF) (hstatus : s.status ≠ 1)
    (hhead : ':' ∉ (Split pattern '@').getD 0 [])
    (hnames : ∀ n ∈ c.methods, isExportedName n = true) (hnd : c.methods.Nodup)
    (m2 : HandlerMap) (hperm : m2.Perm (BindController.m U pattern c)) :
    (bindHandlerByMap U s m2).2 = none ∧
    (∀ n ∈ c.methods, n ≠ "Init".toList → n ≠ "Shut".toList → ∀ v ∈ httpMethods,
      getHandler U (bindHandlerByMap U s m2).1 (parsePattern pattern).domain v
        (TrimRight ((Split pattern '@').getD 0 []) '/' ++ "/".toList ++ kebab n) =
          some { ctype := some c.elemType, fname := n, faddr := none }) ∧
    (∀ K, (∀ n ∈ c.methods, n ≠ "Init".toList → n ≠ "Shut".toList → ∀ v ∈ httpMethods,
        K ≠ handlerKey U (parsePattern pattern).domain v
          (TrimRight ((Split pattern '@').getD 0 []) '/' ++ "/".toList ++ kebab n)) →
      mapGet (bindHandlerByMap U s m2).1.handlerMap K = mapGet s.handlerMap K) := by
  have hM := BindController_m_eq U pattern c hhead hnames hnd
  have hentry : ∀ e, e ∈ m2 ↔ ∃ n ∈ c.methods, n ≠ "Init".toList ∧ n ≠ "Shut".toList ∧
      e = (appendMethodNameToUriWithPattern U pattern n,
        ({ ctype := some c.elemType, fname := n, faddr := none } : HandlerItem)) := by
    intro e
    rw [hperm.mem_iff, hM, List.mem_map]
    constructor
    · rintro ⟨n, hn, rfl⟩
      obtain ⟨hn1, hn2⟩ := List.mem_filter.mp hn
      have hn3 := of_decide_eq_true hn2
      rw [not_or] at hn3
      exact ⟨n, hn1, hn3.1, hn3.2, rfl⟩
    · rintro ⟨n, hn1, hn2, hn3, rfl⟩
      refine ⟨n, List.mem_filter.mpr ⟨hn1, decide_eq_true ?_⟩, rfl⟩
      rw [not_or]
      exact ⟨hn2, hn3⟩
  have hparse : ∀ n ∈ c.methods, parsePattern (appendMethodNameToUriWithPattern U pattern n) =
      ⟨(parsePattern pattern).domain, gDEFAULT_METHOD,
        TrimRight ((Split pattern '@').getD 0 []) '/' ++ "/".toList ++ kebab n, none⟩ :=
    fun n hn => derived_parse_general U pattern n (isExportedName_chars n (hnames n hn)) hhead
  have hkeys : ∀ k ∈ mapKeys m2, (parsePattern k).domain = (parsePattern pattern).domain ∧
      (parsePattern k).method = gDEFAULT_METHOD ∧ (parsePattern k).uri ≠ [] := by
    intro k hk
    obtain ⟨e, he, rfl⟩ := List.mem_map.mp hk
    obtain ⟨n, hn, -, -, rfl⟩ := (hentry e).mp he
    rw [hparse n hn]
    refine ⟨rfl, rfl, ?_⟩
    simp
  have hnd2 : (m2.map (fun e => (parsePattern e.1).uri)).Nodup := by
    rw [(hperm.map _).nodup_iff, hM, List.map_map]
    refine List.Nodup.map_on ?_ (hnd.filter _)
    intro n hn n2 hn2 h
    exact derived_inj U pattern n n2 (hnames n (List.mem_filter.mp hn).1)
      (hnames n2 (List.mem_filter.mp hn2).1) hhead h
  obtain ⟨herr, hhit, hframe⟩ := bindHandlerByMap_wild U (parsePattern pattern).domain m2 s
    hwf hstatus hkeys hnd2
  refine ⟨herr, ?_, ?_⟩
  · intro n hn h1 h2 v hv
    have h := hhit _ ((hentry _).mpr ⟨n, hn, h1, h2, rfl⟩) v hv
    rw [hparse n hn] at h
    exact h
  · intro K hK
    apply hframe K
    intro e he v hv
    obtain ⟨n, hn, h1, h2, rfl⟩ := (hentry e).mp he
    rw [hparse n hn]
    exact hK n hn h1 h2 v hv

/-! ## Facts about distinct derived patterns -/

/-- A lookup after `setHandler`: the item at the keys it assigns, the old map
elsewhere. -/
theorem mapGet_setHandler (U : CaseTables) (s : Server) (d m u : Str) (item : HandlerItem)
    (K : Str) :
    mapGet (setHandler U s d m u item).handlerMap K =
      if K ∈ setHandlerKeys U s d m u then some item else mapGet s.handlerMap K := by
  by_cases hm : m = gDEFAULT_METHOD
  · subst hm
    rw [setHandler_all, mapGet_foldl_mapSet (fun v => handlerKey U d v u)]
    unfold setHandlerKeys
    rw [if_pos rfl]
  · rw [setHandler_one U s d m u item hm]
    unfold setHandlerKeys
    rw [if_neg hm]
    by_cases hK : K = handlerKey U d m u
    · subst hK
      rw [mapGet_mapSet_self, if_pos (List.mem_singleton.mpr rfl)]
    · rw [mapGet_mapSet_of_ne _ _ _ _ (fun e => hK e.symm),
        if_neg (fun h => hK (List.mem_singleton.mp h))]

theorem setHandlerKeys_setHandler (U : CaseTables) (s : Server) (d m u : Str)
    (item : HandlerItem) (d2 m2 u2 : Str) :
    setHandlerKeys U (setHandler U s d m u item) d2 m2 u2 = setHandlerKeys U s d2 m2 u2 := by
  unfold setHandlerKeys
  rw [(setHandler_methodsMap U s d m u item).1]

/-- The key of a lookup is among the keys `setHandler` assigns: for the wildcard
method at every verb, otherwise at the method itself. -/
theorem handlerKey_mem_setHandlerKeys (U : CaseTables) (s : Server) (d m u v : Str)
    (hwf : s.WF) (hv : if m = gDEFAULT_METHOD then v ∈ httpMethods else v = m) :
    handlerKey U d v u ∈ setHandlerKeys U s d m u := by
  unfold setHandlerKeys
  by_cases hm : m = gDEFAULT_METHOD
  · rw [if_pos hm] at hv ⊢
    exact List.mem_map_of_mem _ (hwf.mem_iff.mpr hv)
  · rw [if_neg hm] at hv ⊢
    rw [hv]
    exact List.mem_singleton.mpr rfl

/-- Under one domain and one method, the keys assigned for two URIs are apart. -/
theorem setHandlerKeys_disjoint (U : CaseTables) (s : Server) (d m u u2 : Str) (hwf : s.WF)
    (hne : u ≠ u2) (K : Str) (h1 : K ∈ setHandlerKeys U s d m u) :
    K ∉ setHandlerKeys U s d m u2 := by
  intro h2
  unfold setHandlerKeys at h1 h2
  by_cases hm : m = gDEFAULT_METHOD
  · rw [if_pos hm] at h1 h2
    obtain ⟨v, hv, rfl⟩ := List.mem_map.mp h1
    obtain ⟨w, hw, hK⟩ := List.mem_map.mp h2
    exact hne (handlerKey_verb_uri_inj U d v w u u2 (hwf.mem_iff.mp hv) (hwf.mem_iff.mp hw)
      hK.symm).2
  · rw [if_neg hm] at h1 h2
    rw [List.mem_singleton] at h1 h2
    rw [h1] at h2
    exact hne (handlerKey_uri_inj U d m u2 u h2)

/-- When every key of the map is a pattern with a URI and the keys that `setHandler`
assigns for two entries are apart, `bindHandlerByMap` returns nil, every entry is
found at each of its keys, and no other key of the handler map changes. -/
theorem bindHandlerByMap_disjoint (U : CaseTables) (m : HandlerMap) (s : Server)
    (hstatus : s.status ≠ 1) (hm : ∀ e ∈ m, (parsePattern e.1).uri ≠ [])
    (hdis : m.Pairwise (fun e e2 => ∀ K,
      K ∈ setHandlerKeys U s (parsePattern e.1).domain (parsePattern e.1).method
        (parsePattern e.1).uri →
      K ∉ setHandlerKeys U s (parsePattern e2.1).domain (parsePattern e2.1).method
        (parsePattern e2.1).uri)) :
    (bindHandlerByMap U s m).2 = none ∧
    (∀ e ∈ m, ∀ K ∈ setHandlerKeys U s (parsePattern e.1).domain (parsePattern e.1).method
        (parsePattern e.1).uri,
      mapGet (bindHandlerByMap U s m).1.handlerMap K = some e.2) ∧
    (∀ K, (∀ e ∈ m, K ∉ setHandlerKeys U s (parsePattern e.1).domain (parsePattern e.1).method
        (parsePattern e.1).uri) →
      mapGet (bindHandlerByMap U s m).1.handlerMap K = mapGet s.handlerMap K) := by
  induction m generalizing s with
  | nil =>
    refine ⟨rfl, ?_, fun K _ => rfl⟩
    intro e he
    cases he
  | cons e0 rest ih =>
    obtain ⟨p, item⟩ := e0
    have hp0 := hm (p, item) (List.mem_cons_self _ _)
    rw [List.pairwise_cons] at hdis
    have hb := bindHandlerItem_ok U s p item hstatus hp0
    obtain ⟨herr, hhit, hframe⟩ := ih
      (setHandler U s (parsePattern p).domain (parsePattern p).method (parsePattern p).uri item)
      (by rw [(setHandler_methodsMap U s _ _ _ _).2]; exact hstatus)
      (fun e he => hm e (List.mem_cons_of_mem _ he))
      (by simp only [setHandlerKeys_setHandler]; exact hdis.2)
    simp only [setHandlerKeys_setHandler] at hhit hframe
    have hbm : bindHandlerByMap U s ((p, item) :: rest) =
        bindHandlerByMap U (setHandler U s (parsePattern p).domain (parsePattern p).method
          (parsePattern p).uri item) rest := by
      rw [bindHandlerByMap]
      simp only [hb, ne_eq, not_true_eq_false, if_false]
    rw [hbm]
    refine ⟨herr, ?_, ?_⟩
    · intro e he K hK
      rcases List.mem_cons.mp he with h | h
      · subst h
        rw [hframe K (fun e2 he2 => hdis.1 e2 he2 K hK), mapGet_setHandler, if_pos hK]
      · exact hhit e h K hK
    · intro K hK
      rw [hframe K (fun e he => hK e (List.mem_cons_of_mem _ he)), mapGet_setHandler,
        if_neg (hK (p, item) (List.mem_cons_self _ _))]
theorem dropWhile_append_stop (p : Char → Bool) (x y : Str) (c : Char) (hc : p c = false) :
    (x ++ c :: y).dropWhile p = x.dropWhile p ++ c :: y := by
  induction x with
  | nil => simp [List.dropWhile, hc]
  | cons z zs ih =>
    by_cases hz : p z = true
    · simp only [List.cons_append, List.dropWhile_cons, hz, if_true]
      exact ih
    · simp only [List.cons_append, List.dropWhile_cons, hz]
      simp

/-- Trimming on the right does not pass a rune outside the cutset. -/
theorem TrimRight_append_sep (a b : Str) (c cut : Char) (hc : c ≠ cut) :
    TrimRight (a ++ c :: b) cut = a ++ c :: TrimRight b cut := by
  unfold TrimRight
  have hr : (a ++ c :: b).reverse = b.reverse ++ c :: a.reverse := by simp
  rw [hr, dropWhile_append_stop _ _ _ _ (by simpa using hc)]
  simp

/-- The derived pattern, for any base pattern: the first piece of the base without
its trailing slashes, a slash, the suffix of the name, and the second piece behind
an `@` when there is one. -/
theorem appendMethodName_general (U : CaseTables) (pattern n : Str)
    (hn : ∀ x ∈ n, x.isAlphanum = true ∨ x = '_') :
    appendMethodNameToUriWithPattern U pattern n =
      TrimRight ((Split pattern '@').getD 0 []) '/' ++ "/".toList ++ kebab n ++
        (if (Split pattern '@').length > 1 then "@".toList ++ (Split pattern '@').getD 1 []
          else []) := by
  have hascii : ∀ c ∈ n, c.toNat < 128 := fun c hc => ident_ascii c (hn c hc)
  unfold appendMethodNameToUriWithPattern
  simp only [appendMethodNameLoop_kebab U n hascii]
  by_cases hlen : (Split pattern '@').length > 1
  · rw [if_pos hlen, if_pos hlen]
    simp only [List.append_assoc]
  · rw [if_neg hlen, if_neg hlen, List.append_nil]

/-- Exported names with one derived pattern are one name, for any base pattern. -/
theorem appendMethodName_inj (U : CaseTables) (pattern n n2 : Str)
    (h1 : isExportedName n = true) (h2 : isExportedName n2 = true)
    (h : appendMethodNameToUriWithPattern U pattern n =
      appendMethodNameToUriWithPattern U pattern n2) : n = n2 := by
  rw [appendMethodName_general U pattern n (isExportedName_chars n h1),
    appendMethodName_general U pattern n2 (isExportedName_chars n2 h2)] at h
  exact kebab_inj n n2 h1 h2 (List.append_cancel_left (List.append_cancel_right h))

/-- The derived pattern of a method, for a base pattern with at most one `:` before
its domain part, parses to the domain and the method of the base pattern and to the
URI of the base pattern without its trailing slashes, a slash and the suffix of the
name. -/
theorem derived_parse_colon (U : CaseTables) (pattern n : Str)
    (hn : ∀ x ∈ n, x.isAlphanum = true ∨ x = '_')
    (hc : ((Split pattern '@').getD 0 []).count ':' ≤ 1) :
    parsePattern (appendMethodNameToUriWithPattern U pattern n) =
      ⟨(parsePattern pattern).domain, (parsePattern pattern).method,
        TrimRight (parsePattern pattern).uri '/' ++ "/".toList ++ kebab n, none⟩ := by
  by_cases h0 : ((Split pattern '@').getD 0 []).count ':' = 0
  · have hhead : ':' ∉ (Split pattern '@').getD 0 [] := List.count_eq_zero.mp h0
    obtain ⟨e1, e2⟩ := parsePattern_no_method pattern hhead
    rw [derived_parse_general U pattern n hn hhead, e1, e2]
  · have h1 : ((Split pattern '@').getD 0 []).count ':' = 1 := by omega
    obtain ⟨a, b, hab, ha, hb⟩ := exists_of_count_one _ ':' h1
    have hat := Split_head_not_mem pattern '@'
    rw [hab] at hat
    have ha2 : '@' ∉ a := fun h => hat (by simp [h])
    have hb2 : '@' ∉ b := fun h => hat (by simp [h])
    have hsplit : Split ((Split pattern '@').getD 0 []) ':' = [a, b] := by
      rw [hab, Split_append_sep a b ':' ha, Split_of_not_mem b ':' hb]
    have hm : (parsePattern pattern).method = a := by
      simp only [parsePattern, hsplit]
      simp
    have hu : (parsePattern pattern).uri = b := by
      simp only [parsePattern, hsplit]
      simp
    have k1 := kebab_ident_not_mem n hn ':' (Or.inl rfl)
    have k2 := kebab_ident_not_mem n hn '@' (Or.inr (Or.inl rfl))
    have u1 : ':' ∉ TrimRight b '/' ++ "/".toList ++ kebab n := by
      simp only [List.mem_append, not_or]
      exact ⟨⟨fun h => hb (TrimRight_subset b '/' ':' h), by decide⟩, k1⟩
    have u2 : '@' ∉ TrimRight b '/' ++ "/".toList ++ kebab n := by
      simp only [List.mem_append, not_or]
      exact ⟨⟨fun h => hb2 (TrimRight_subset b '/' '@' h), by decide⟩, k2⟩
    have u3 : TrimRight b '/' ++ "/".toList ++ kebab n ≠ [] := by simp
    have htrim : TrimRight ((Split pattern '@').getD 0 []) '/' ++ "/".toList ++ kebab n =
        a ++ ':' :: (TrimRight b '/' ++ "/".toList ++ kebab n) := by
      rw [hab, TrimRight_append_sep a b ':' '/' (by decide)]
      simp
    rw [appendMethodName_general U pattern n hn, htrim, hm, hu]
    by_cases hlen : (Split pattern '@').length > 1
    · rw [if_pos hlen]
      have hdom : (parsePattern pattern).domain = (Split pattern '@').getD 1 [] := by
        simp only [parsePattern]
        rw [if_pos hlen]
      have h := parsePattern_method_domain a _ ((Split pattern '@').getD 1 []) ha ha2 u1 u2
        (Split_getD_not_mem pattern '@' 1)
      rw [if_neg u3] at h
      rw [hdom]
      simpa using h
    · rw [if_neg hlen, List.append_nil]
      have hdom : (parsePattern pattern).domain = gDEFAULT_DOMAIN := by
        simp only [parsePattern]
        rw [if_neg hlen]
      have h := parsePattern_method a _ ha ha2 u1 u2
      rw [if_neg u3] at h
      rw [hdom]
      exact h
/-- The map that `BindObject` fills, for any base pattern: one entry per method,
in the order of the methods. -/
theorem BindObject_m_entries (U : CaseTables) (pattern : Str) (obj : Object)
    (hnames : ∀ f ∈ obj, isExportedName f.1 = true) (hnd : (obj.map Prod.fst).Nodup) :
    BindObject.m U pattern obj =
      obj.map (fun f => (appendMethodNameToUriWithPattern U pattern f.1,
        ({ ctype := none, fname := [], faddr := f.2 } : HandlerItem))) := by
  have h1 : BindObject.m U pattern obj =
      (obj.map (fun f => (appendMethodNameToUriWithPattern U pattern f.1,
        ({ ctype := none, fname := [], faddr := f.2 } : HandlerItem)))).foldl
        (fun hm e => mapSet hm e.1 e.2) [] := by
    unfold BindObject.m
    rw [List.foldl_map]
  rw [h1, foldl_mapSet_entries _ [] ?_ (fun _ _ h => by cases h)]
  · rfl
  · unfold mapKeys
    rw [List.map_map]
    have hnd2 : obj.Nodup := List.Nodup.of_map _ hnd
    refine List.Nodup.map_on ?_ hnd2
    intro f hf g hg h
    have hfg : f.1 = g.1 := appendMethodName_inj U pattern f.1 g.1 (hnames f hf) (hnames g hg) h
    exact List.inj_on_of_nodup_map hnd hf hg hfg

/-- The map that `BindController` fills, for any base pattern: one entry per method
other than `Init` and `Shut`, in the order of the methods. -/
theorem BindController_m_entries (U : CaseTables) (pattern : Str) (c : Controller)
    (hnames : ∀ n ∈ c.methods, isExportedName n = true) (hnd : c.methods.Nodup) :
    BindController.m U pattern c =
      (c.methods.filter (fun n => decide (¬ (n = "Init".toList ∨ n = "Shut".toList)))).map
        (fun n => (appendMethodNameToUriWithPattern U pattern n,
          ({ ctype := some c.elemType, fname := n, faddr := none } : HandlerItem))) := by
  have h1 : BindController.m U pattern c =
      ((c.methods.filter (fun n => decide (¬ (n = "Init".toList ∨ n = "Shut".toList)))).map
        (fun n => (appendMethodNameToUriWithPattern U pattern n,
          ({ ctype := some c.elemType, fname := n, faddr := none } : HandlerItem)))).foldl
        (fun hm e => mapSet hm e.1 e.2) [] :=
    foldl_skip_mapSet (fun n : Str => n = "Init".toList ∨ n = "Shut".toList)
      (fun n => appendMethodNameToUriWithPattern U pattern n)
      (fun n => ({ ctype := some c.elemType, fname := n, faddr := none } : HandlerItem))
      c.methods []
  rw [h1, foldl_mapSet_entries _ [] ?_ (fun _ _ h => by cases h)]
  · rfl
  · unfold mapKeys
    rw [List.map_map]
    refine List.Nodup.map_on ?_ (hnd.filter _)
    intro n hn n2 hn2 h
    exact appendMethodName_inj U pattern n n2 (hnames n (List.mem_filter.mp hn).1)
      (hnames n2 (List.mem_filter.mp hn2).1) h

/-- Visited in any order, a map of derived patterns of distinct exported names,
under a base pattern with at most one `:` before its domain part, binds without
error: every entry is found at each key of its derived URI, and no other key of the
handler map changes. -/
theorem derived_visit {α : Type} (U : CaseTables) (s : Server) (pattern : Str) (xs : List α)
    (name : α → Str) (val : α → HandlerItem) (hwf : s.WF) (hstatus : s.status ≠ 1)
    (hc : ((Split pattern '@').getD 0 []).count ':' ≤ 1)
    (hnames : ∀ x ∈ xs, isExportedName (name x) = true) (hnd : (xs.map name).Nodup)
    (m2 : HandlerMap)
    (hperm : m2.Perm (xs.map (fun x =>
      (appendMethodNameToUriWithPattern U pattern (name x), val x)))) :
    (bindHandlerByMap U s m2).2 = none ∧
    (∀ x ∈ xs, ∀ K ∈ setHandlerKeys U s (parsePattern pattern).domain
        (parsePattern pattern).method
        (TrimRight (parsePattern pattern).uri '/' ++ "/".toList ++ kebab (name x)),
      mapGet (bindHandlerByMap U s m2).1.handlerMap K = some (val x)) ∧
    (∀ K, (∀ x ∈ xs, K ∉ setHandlerKeys U s (parsePattern pattern).domain
        (parsePattern pattern).method
        (TrimRight (parsePattern pattern).uri '/' ++ "/".toList ++ kebab (name x))) →
      mapGet (bindHandlerByMap U s m2).1.handlerMap K = mapGet s.handlerMap K) := by
  have hparse : ∀ x ∈ xs, parsePattern (appendMethodNameToUriWithPattern U pattern (name x)) =
      ⟨(parsePattern pattern).domain, (parsePattern pattern).method,
        TrimRight (parsePattern pattern).uri '/' ++ "/".toList ++ kebab (name x), none⟩ :=
    fun x hx => derived_parse_colon U pattern (name x)
      (isExportedName_chars _ (hnames x hx)) hc
  have hentry : ∀ e, e ∈ m2 ↔ ∃ x ∈ xs,
      e = (appendMethodNameToUriWithPattern U pattern (name x), val x) := by
    intro e
    rw [hperm.mem_iff, List.mem_map]
    constructor
    · rintro ⟨x, hx, rfl⟩
      exact ⟨x, hx, rfl⟩
    · rintro ⟨x, hx, rfl⟩
      exact ⟨x, hx, rfl⟩
  have huri : ∀ e ∈ m2, (parsePattern e.1).uri ≠ [] := by
    intro e he
    obtain ⟨x, hx, rfl⟩ := (hentry e).mp he
    rw [hparse x hx]
    simp
  have hsym : Symmetric (fun (e e2 : Str × HandlerItem) => ∀ K,
      K ∈ setHandlerKeys U s (parsePattern e.1).domain (parsePattern e.1).method
        (parsePattern e.1).uri →
      K ∉ setHandlerKeys U s (parsePattern e2.1).domain (parsePattern e2.1).method
        (parsePattern e2.1).uri) :=
    fun e e2 h K h2 h1 => h K h1 h2
  have hpair : (xs.map (fun x =>
      (appendMethodNameToUriWithPattern U pattern (name x), val x))).Pairwise
      (fun e e2 => ∀ K,
        K ∈ setHandlerKeys U s (parsePattern e.1).domain (parsePattern e.1).method
          (parsePattern e.1).uri →
        K ∉ setHandlerKeys U s (parsePattern e2.1).domain (parsePattern e2.1).method
          (parsePattern e2.1).uri) := by
    rw [List.pairwise_map]
    have hn0 : xs.Pairwise (fun x y => name x ≠ name y) := List.pairwise_map.mp hnd
    refine List.Pairwise.imp_of_mem ?_ hn0
    intro x y hx hy hxy K hK
    rw [hparse x hx] at hK
    rw [hparse y hy]
    refine setHandlerKeys_disjoint U s _ _ _ _ hwf ?_ K hK
    intro hu
    exact hxy (kebab_inj (name x) (name y) (hnames x hx) (hnames y hy)
      (List.append_cancel_left hu))
  obtain ⟨herr, hhit, hframe⟩ := bindHandlerByMap_disjoint U m2 s hstatus huri
    ((hperm.pairwise_iff (fun h => hsym h)).mpr hpair)
  refine ⟨herr, ?_, ?_⟩
  · intro x hx K hK
    have h := hhit _ ((hentry _).mpr ⟨x, hx, rfl⟩) K
    rw [hparse x hx] at h
    exact h hK
  · intro K hK
    apply hframe K
    intro e he
    obtain ⟨x, hx, rfl⟩ := (hentry e).mp he
    rw [hparse x hx]
    exact hK x hx

/-- In the setting of `derived_visit`, the lookups after the visit are those after
the visit in the order of the list. -/
theorem derived_visit_order {α : Type} (U : CaseTables) (s : Server) (pattern : Str)
    (xs : List α) (name : α → Str) (val : α → HandlerItem) (hwf : s.WF)
    (hstatus : s.status ≠ 1) (hc : ((Split pattern '@').getD 0 []).count ':' ≤ 1)
    (hnames : ∀ x ∈ xs, isExportedName (name x) = true) (hnd : (xs.map name).Nodup)
    (m2 : HandlerMap)
    (hperm : m2.Perm (xs.map (fun x =>
      (appendMethodNameToUriWithPattern U pattern (name x), val x)))) (K : Str) :
    mapGet (bindHandlerByMap U s m2).1.handlerMap K =
      mapGet (bindHandlerByMap U s (xs.map (fun x =>
        (appendMethodNameToUriWithPattern U pattern (name x), val x)))).1.handlerMap K := by
  obtain ⟨-, hhit, hframe⟩ := derived_visit U s pattern xs name val hwf hstatus hc hnames hnd
    m2 hperm
  obtain ⟨-, hhit0, hframe0⟩ := derived_visit U s pattern xs name val hwf hstatus hc hnames hnd
    _ (List.Perm.refl _)
  by_cases hw : ∃ x ∈ xs, K ∈ setHandlerKeys U s (parsePattern pattern).domain
      (parsePattern pattern).method
      (TrimRight (parsePattern pattern).uri '/' ++ "/".toList ++ kebab (name x))
  · obtain ⟨x, hx, hK⟩ := hw
    rw [hhit x hx K hK, hhit0 x hx K hK]
  · have hK : ∀ x ∈ xs, K ∉ setHandlerKeys U s (parsePattern pattern).domain
        (parsePattern pattern).method
        (TrimRight (parsePattern pattern).uri '/' ++ "/".toList ++ kebab (name x)) :=
      fun x hx h => hw ⟨x, hx, h⟩
    rw [hframe K hK, hframe0 K hK]

/-- C2: `parsePattern` decomposes `[METHOD:]URI[@DOMAIN]`, with the defaults
`default` and `all`, and keeps the letter case: for a method `m` without `:` and
`@`, a non-empty URI `u` without `:` and `@` and a domain `d` without `@`, the
pattern `m:u@d` parses to `(d, m, u)` without error, `u` to `(default, all, u)`,
`m:u` to domain `default` and `u@d` to method `all`. -/
theorem parsePattern_decomposes (m u d : Str) (hm1 : ':' ∉ m) (hm2 : '@' ∉ m)
    (hu0 : u ≠ []) (hu1 : ':' ∉ u) (hu2 : '@' ∉ u) (hd : '@' ∉ d) :
    parsePattern (m ++ ":".toList ++ u ++ "@".toList ++ d) = ⟨d, m, u, none⟩ ∧
    parsePattern u = ⟨"default".toList, "all".toList, u, none⟩ ∧
    parsePattern (m ++ ":".toList ++ u) = ⟨"default".toList, m, u, none⟩ ∧
    parsePattern (u ++ "@".toList ++ d) = ⟨d, "all".toList, u, none⟩ ∧
    parsePattern "GET:/user@a.com".toList =
      ⟨"a.com".toList, "GET".toList, "/user".toList, none⟩ ∧
    parsePattern "/user".toList = ⟨"default".toList, "all".toList, "/user".toList, none⟩ := by
  refine ⟨?_, ?_, ?_, ?_, by decide, by decide⟩
  · have h := parsePattern_method_domain m u d hm1 hm2 hu1 hu2 hd
    rw [if_neg hu0] at h
    simpa using h
  · have h := parsePattern_no_sep u hu1 hu2
    rw [if_neg hu0] at h
    exact h
  · have h := parsePattern_method m u hm1 hm2 hu1 hu2
    rw [if_neg hu0] at h
    simpa using h
  · have h := parsePattern_domain u d hu1 hu2 hd
    rw [if_neg hu0] at h
    simpa using h

theorem parsePattern_decomposes_witness :
    parsePattern ("get".toList ++ ":".toList ++ "/User".toList ++ "@".toList ++ "A.com:80".toList)
      = ⟨"A.com:80".toList, "get".toList, "/User".toList, none⟩ :=
  (parsePattern_decomposes "get".toList "/User".toList "A.com:80".toList
    (by decide) (by decide) (by decide) (by decide) (by decide) (by decide)).1

/-- C3: `parsePattern` fails exactly when the URI it returns is empty, and then with
the error `invalid pattern`; the patterns `""`, `"GET:"` and `"GET:@a.com"` fail,
and a pattern with a non-empty URI parses without error. -/
theorem parsePattern_err_iff (pattern : Str) :
    ((parsePattern pattern).err ≠ none ↔ (parsePattern pattern).uri = []) ∧
    ((parsePattern pattern).uri ≠ [] → (parsePattern pattern).err = none) ∧
    ((parsePattern pattern).uri = [] → (parsePattern pattern).err = some "invalid pattern") ∧
    (parsePattern "".toList).err ≠ none ∧
    (parsePattern "GET:".toList).err ≠ none ∧
    (parsePattern "GET:@a.com".toList).err ≠ none := by
  refine ⟨?_, ?_, ?_, by decide, by decide, by decide⟩
  · simp only [parsePattern]
    split <;> simp_all
  · intro h
    simp only [parsePattern] at h ⊢
    rw [if_neg h]
  · intro h
    simp only [parsePattern] at h ⊢
    rw [if_pos h]

/-- C1: wildcard expansion. On a configuring server (status 0) with an empty handler
map, a pattern without method part and with a non-empty URI `u` parses to method
`all` and a domain `d`; `BindHandler(pattern, fn)` returns nil, the handler map then
has exactly nine entries, and `getHandler(d, v, u)` returns an item whose `faddr` is
`fn` for each of the nine verbs `v`. -/
theorem BindHandler_wildcard (U : CaseTables) (s : Server) (pattern : Str) (fn : HandlerFunc)
    (hwf : s.WF) (hstatus : s.status = 0) (hempty : s.handlerMap = [])
    (hmethod : ':' ∉ (Split pattern '@').getD 0 [])
    (huri : (Split pattern '@').getD 0 [] ≠ []) :
    (parsePattern pattern).method = "all".toList ∧
    (parsePattern pattern).uri = (Split pattern '@').getD 0 [] ∧
    (BindHandler U s pattern fn).2 = none ∧
    (BindHandler U s pattern fn).1.handlerMap.length = 9 ∧
    ∀ v ∈ ["GET".toList, "PUT".toList, "POST".toList, "DELETE".toList, "PATCH".toList,
        "HEAD".toList, "CONNECT".toList, "OPTIONS".toList, "TRACE".toList],
      ∃ item, getHandler U (BindHandler U s pattern fn).1 (parsePattern pattern).domain v
        (parsePattern pattern).uri = some item ∧ item.faddr = fn := by
  obtain ⟨hm, hu⟩ := parsePattern_no_method pattern hmethod
  have hu0 : (parsePattern pattern).uri ≠ [] := by rw [hu]; exact huri
  have hs : s.status ≠ 1 := by rw [hstatus]; decide
  have hb := bindHandlerItem_ok U s pattern { ctype := none, fname := [], faddr := fn } hs hu0
  rw [hm] at hb
  refine ⟨hm, hu, ?_, ?_, ?_⟩
  · simp [BindHandler, hb]
  · simp only [BindHandler, hb]
    exact length_setHandler_all U s _ _ _ hwf hempty
  · intro v hv
    rw [← httpMethods_eq] at hv
    refine ⟨{ ctype := none, fname := [], faddr := fn }, ?_, rfl⟩
    simp only [BindHandler, hb]
    exact getHandler_setHandler_all U s _ _ v _ hwf hv

theorem BindHandler_wildcard_witness :
    (BindHandler asciiTables (newServer "default".toList) "/ping@a.com".toList (some 7)).2 = none ∧
    (BindHandler asciiTables (newServer "default".toList) "/ping@a.com".toList
      (some 7)).1.handlerMap.length = 9 :=
  have h := BindHandler_wildcard asciiTables (newServer "default".toList) "/ping@a.com".toList
    (some 7) (by decide) (by decide) (by decide) (by decide) (by decide)
  ⟨h.2.2.1, h.2.2.2.1⟩

/-- C5: handler binding is frozen once running. On a server of status 1, for every
pattern, valid or not, and every handler, `BindHandler` returns the already-running
error, not the invalid-pattern one, and the server, its handler map included, is
what it was before the call. -/
theorem BindHandler_running (U : CaseTables) (s : Server) (pattern : Str) (fn : HandlerFunc)
    (hstatus : s.status = 1) :
    (BindHandler U s pattern fn).2 = some "server handlers cannot be changed while running" ∧
    (BindHandler U s pattern fn).2 ≠ none ∧
    (BindHandler U s pattern fn).2 ≠ some "invalid pattern" ∧
    (BindHandler U s pattern fn).1 = s ∧
    (BindHandler U s pattern fn).1.handlerMap = s.handlerMap ∧
    (BindHandler U s pattern fn).1.handlerMap.length = s.handlerMap.length := by
  have h : BindHandler U s pattern fn =
      (s, some "server handlers cannot be changed while running") := by
    simp [BindHandler, bindHandlerItem, hstatus]
  rw [h]
  refine ⟨rfl, by simp, by simp, rfl, rfl, rfl⟩

theorem BindHandler_running_witness :
    (BindHandler asciiTables { newServer "default".toList with status := 1 } "".toList
      (some 7)).2 = some "server handlers cannot be changed while running" :=
  (BindHandler_running asciiTables { newServer "default".toList with status := 1 } "".toList
    (some 7) rfl).1

/-- C4: entries are identified by upper-cased method, URI and lower-cased domain, and
the last writer wins. For a method `m` that is a letter-casing of one of the nine
verbs, after `setHandler(d, m, u, a)` and then `setHandler(d1, m1, u, b)` with `m1`,
`d1` letter-casings of `m`, `d`, `getHandler(d2, m2, u)` returns `b` for all
letter-casings `d2`, `m2` of `d`, `m`, and the second call leaves the number of
entries as it was. The URI is compared as it is written: a second call with another
URI `u2`, be it a letter-casing of `u`, leaves the first item in place. -/
theorem setHandler_last_writer_wins (U : CaseTables) (s : Server)
    (verb m m1 m2 d d1 d2 u : Str) (a b : HandlerItem)
    (hverb : verb ∈ ["GET".toList, "PUT".toList, "POST".toList, "DELETE".toList,
      "PATCH".toList, "HEAD".toList, "CONNECT".toList, "OPTIONS".toList, "TRACE".toList])
    (hm : SameLetters m verb) (hm1 : SameLetters m1 m) (hm2 : SameLetters m2 m)
    (hd1 : SameLetters d1 d) (hd2 : SameLetters d2 d) :
    getHandler U (setHandler U s d m u a) d2 m2 u = some a ∧
    getHandler U (setHandler U (setHandler U s d m u a) d1 m1 u b) d2 m2 u = some b ∧
    (setHandler U (setHandler U s d m u a) d1 m1 u b).handlerMap.length =
      (setHandler U s d m u a).handlerMap.length ∧
    ∀ u2, u2 ≠ u →
      getHandler U (setHandler U (setHandler U s d m u a) d1 m1 u2 b) d2 m2 u = some a := by
  rw [← httpMethods_eq] at hverb
  have hne : m ≠ gDEFAULT_METHOD := ne_all_of_sameLetters_verb m verb hverb hm
  have hne1 : m1 ≠ gDEFAULT_METHOD :=
    ne_all_of_sameLetters_verb m1 verb hverb (hm1.trans hm)
  have hk1 : ∀ w, handlerKey U d1 m1 w = handlerKey U d m w :=
    fun w => handlerKey_congr U d d1 m m1 w hm1 hd1
  have hk2 : handlerKey U d2 m2 u = handlerKey U d m u := handlerKey_congr U d d2 m m2 u hm2 hd2
  have hfirst : mapGet (setHandler U s d m u a).handlerMap (handlerKey U d m u) = some a := by
    rw [setHandler_one U s d m u a hne, mapGet_mapSet_self]
  refine ⟨?_, ?_, ?_, ?_⟩
  · unfold getHandler
    rw [hk2, hfirst]
  · unfold getHandler
    rw [hk2, setHandler_one U _ d1 m1 u b hne1, hk1, mapGet_mapSet_self]
  · rw [setHandler_one U _ d1 m1 u b hne1, hk1]
    exact length_mapSet_of_some _ _ b a hfirst
  · intro u2 hu2
    unfold getHandler
    rw [hk2, setHandler_one U _ d1 m1 u2 b hne1, hk1,
      mapGet_mapSet_of_ne _ _ _ _ (fun e => hu2 (handlerKey_uri_inj U d m u u2 e)), hfirst]

theorem setHandler_last_writer_wins_witness :
    getHandler asciiTables
      (setHandler asciiTables
        (setHandler asciiTables (newServer "default".toList) "A.com".toList "get".toList
          "/User".toList { ctype := none, fname := [], faddr := some 1 })
        "a.COM".toList "Get".toList "/User".toList
        { ctype := none, fname := [], faddr := some 2 })
      "a.com".toList "GET".toList "/User".toList
      = some { ctype := none, fname := [], faddr := some 2 } :=
  (setHandler_last_writer_wins asciiTables (newServer "default".toList) "GET".toList
    "get".toList "Get".toList "GET".toList "A.com".toList "a.COM".toList "a.com".toList
    "/User".toList { ctype := none, fname := [], faddr := some 1 }
    { ctype := none, fname := [], faddr := some 2 }
    (by decide) (by decide) (by decide) (by decide) (by decide) (by decide)).2.1

/-- C6, the code at a running server: `BindHookHandler` has no test of the status.
On a server of status 1 the call `BindHookHandlerInit("/x", h)` returns nil and the
hook registry, empty before, holds `h` for `GET /x` afterwards. -/
theorem BindHookHandler_running_binds :
    (newServer "default".toList).hooksMap = [] ∧
    (BindHookHandlerInit asciiTables { newServer "default".toList with status := 1 }
        "/x".toList (some 7)).map
      (fun r => (r.2, getHookList asciiTables r.1 "default".toList "GET".toList "/x".toList
        "Init".toList, r.1.hooksMap.length)) = some (none, some [some 7], 9) := by
  constructor
  · rfl
  · rfl

/-- C7: hooks are returned in registration order. For a pattern without method part
and with a non-empty URI `u`, parsing to domain `d` and method `all`, one call
`BindHookHandlerInit(pattern, h)` returns nil and appends `h` to the list that
`getHookList(d, v, u, "Init")` returned before, for each of the nine verbs `v`: it
replaces and reorders nothing. So on an empty hook registry the calls for
`h1, ..., hn` in that order make `getHookList(d, v, u, "Init")` return exactly
`[h1, ..., hn]`. -/
theorem hooks_in_registration_order (U : CaseTables) (s : Server) (pattern : Str)
    (hs : List HandlerFunc) (hwf : s.WF)
    (hmethod : ':' ∉ (Split pattern '@').getD 0 [])
    (huri : (Split pattern '@').getD 0 [] ≠ []) :
    (parsePattern pattern).method = "all".toList ∧
    (parsePattern pattern).uri = (Split pattern '@').getD 0 [] ∧
    (∀ h, ∃ s1, BindHookHandlerInit U s pattern h = some (s1, none) ∧
      ∀ v ∈ ["GET".toList, "PUT".toList, "POST".toList, "DELETE".toList, "PATCH".toList,
          "HEAD".toList, "CONNECT".toList, "OPTIONS".toList, "TRACE".toList],
        getHookList U s1 (parsePattern pattern).domain v (parsePattern pattern).uri
            "Init".toList =
          some ((getHookList U s (parsePattern pattern).domain v (parsePattern pattern).uri
            "Init".toList).getD [] ++ [h])) ∧
    (s.hooksMap = [] →
      ∃ sn, bindHooksInit U s pattern hs = some sn ∧
        ∀ v ∈ ["GET".toList, "PUT".toList, "POST".toList, "DELETE".toList, "PATCH".toList,
            "HEAD".toList, "CONNECT".toList, "OPTIONS".toList, "TRACE".toList],
          (getHookList U sn (parsePattern pattern).domain v (parsePattern pattern).uri
            "Init".toList).getD [] = hs ∧
          (hs ≠ [] →
            getHookList U sn (parsePattern pattern).domain v (parsePattern pattern).uri
              "Init".toList = some hs)) := by
  obtain ⟨hm, hu⟩ := parsePattern_no_method pattern hmethod
  refine ⟨hm, hu, ?_, ?_⟩
  · intro h
    obtain ⟨s1, hb, -, -, -, hget⟩ :=
      BindHookHandler_all U s pattern "Init".toList h hwf hmethod huri
    refine ⟨s1, hb, ?_⟩
    intro v hv
    rw [← httpMethods_eq] at hv
    exact hget v hv
  · intro hempty
    obtain ⟨sn, hrun, hget⟩ := bindHooksInit_spec U pattern hs hmethod huri s hwf
    refine ⟨sn, hrun, ?_⟩
    intro v hv
    rw [← httpMethods_eq] at hv
    have h0 : getHookList U s (parsePattern pattern).domain v (parsePattern pattern).uri
        "Init".toList = none := by
      simp [getHookList, hempty, mapGet]
    rw [hget v hv, h0]
    by_cases hn : hs = []
    · simp [hn]
    · simp [hn]

theorem hooks_in_registration_order_witness :
    ∃ sn, bindHooksInit asciiTables (newServer "default".toList) "/x@a.com".toList
        [some 1, some 2, some 3] = some sn ∧
      getHookList asciiTables sn "a.com".toList "POST".toList "/x".toList "Init".toList =
        some [some 1, some 2, some 3] :=
  have h := (hooks_in_registration_order asciiTables (newServer "default".toList)
    "/x@a.com".toList [some 1, some 2, some 3] (by decide) (by decide)
    (by decide)).2.2.2 rfl
  h.elim fun sn hsn => ⟨sn, hsn.1, (hsn.2 "POST".toList (by decide)).2 (by decide)⟩

/-- C8: domain multiplexing binds every alias. On a configuring server, with the
domain cache empty, let `d` be the `Domain` that `s.Domain(L)` returns, its aliases
in whatever order `range` visits them. If no trimmed alias of `L` holds an `@`, and
`p` is a non-empty pattern without `@` and without method part (so its URI is `p`),
then `d.BindHandler(p, fn)` returns nil, and afterwards `getHandler(a, v, p)` returns
an item whose `faddr` is `fn` for every trimmed alias `a` of `L` and each of the
nine verbs `v`. -/
theorem Domain_BindHandler_every_alias (U : CaseTables) (w : Pkg) (sid : Nat) (L p : Str)
    (fn : HandlerFunc) (d : Domain)
    (hwf : (w.servers sid).WF) (hstatus : (w.servers sid).status = 0)
    (hcache : w.domains = [])
    (halias : ∀ a ∈ (Split L ',').map TrimSpace, '@' ∉ a)
    (hp0 : p ≠ []) (hp1 : '@' ∉ p) (hp2 : ':' ∉ p)
    (hds : d.s = (Server.Domain w sid L).2.s)
    (hdm : (mapKeys d.m).Perm (mapKeys (Server.Domain w sid L).2.m)) :
    (Domain.BindHandler U (Server.Domain w sid L).1 d p fn).2 = none ∧
    ∀ a ∈ (Split L ',').map TrimSpace,
      ∀ v ∈ ["GET".toList, "PUT".toList, "POST".toList, "DELETE".toList, "PATCH".toList,
          "HEAD".toList, "CONNECT".toList, "OPTIONS".toList, "TRACE".toList],
        ∃ item,
          getHandler U ((Domain.BindHandler U (Server.Domain w sid L).1 d p fn).1.servers sid)
            a v p = some item ∧ item.faddr = fn := by
  obtain ⟨hsrv, hsid, hkeys⟩ := Server.Domain_fresh w sid L hcache
  rw [hsid] at hds
  have hmem : ∀ a, a ∈ mapKeys d.m ↔ a ∈ (Split L ',').map TrimSpace :=
    fun a => (hdm.mem_iff).trans (hkeys a)
  have hst : ((Server.Domain w sid L).1.servers d.s).status ≠ 1 := by
    rw [hsrv, hds, hstatus]; decide
  obtain ⟨herr, hget⟩ := Domain.bindHandlerLoop_spec U d p fn hp0 hp1 hp2 (mapKeys d.m)
    (fun a ha => halias a ((hmem a).mp ha)) (Server.Domain w sid L).1
    (by rw [hsrv, hds]; exact hwf) hst
  refine ⟨herr, ?_⟩
  intro a ha v hv
  rw [← httpMethods_eq] at hv
  refine ⟨{ ctype := none, fname := [], faddr := fn }, ?_, rfl⟩
  have h := hget a v hv (Or.inl ((hmem a).mpr ha))
  rw [hds] at h
  exact h

theorem Domain_BindHandler_every_alias_witness :
    ∃ item,
      getHandler asciiTables
        ((Domain.BindHandler asciiTables
          (Server.Domain ⟨fun _ => newServer "default".toList, []⟩ 0 "a.com, b.com".toList).1
          (Server.Domain ⟨fun _ => newServer "default".toList, []⟩ 0 "a.com, b.com".toList).2
          "/x".toList (some 7)).1.servers 0)
        "b.com".toList "GET".toList "/x".toList = some item ∧ item.faddr = some 7 :=
  (Domain_BindHandler_every_alias asciiTables ⟨fun _ => newServer "default".toList, []⟩ 0
    "a.com, b.com".toList "/x".toList (some 7)
    (Server.Domain ⟨fun _ => newServer "default".toList, []⟩ 0 "a.com, b.com".toList).2
    (by decide) (by decide) rfl (by decide) (by decide) (by decide) (by decide) rfl
    (List.Perm.refl _)).2 "b.com".toList (by decide) "GET".toList (by decide)

/-- C9: the URI derived from a method name. For a name `n` of ASCII letters and
digits, `appendMethodNameToUriWithPattern(base, n)` is
`trimRight(base, "/") + "/" + kebab(n)` and
`appendMethodNameToUriWithPattern(base + "@" + dom, n)` is the same followed by
`"@" + dom`, for `base` and `dom` without `@`; `kebab` lower-cases every character
and puts one `-` before each upper-case letter that is not the first character,
and `kebab("GetUserList")` is `get-user-list`. -/
theorem appendMethodName_kebab (U : CaseTables) (base dom n : Str)
    (hn : ∀ c ∈ n, c.isAlphanum = true) (hbase : '@' ∉ base) (hdom : '@' ∉ dom) :
    appendMethodNameToUriWithPattern U base n =
      TrimRight base '/' ++ "/".toList ++ kebab n ∧
    appendMethodNameToUriWithPattern U (base ++ "@".toList ++ dom) n =
      TrimRight base '/' ++ "/".toList ++ kebab n ++ "@".toList ++ dom ∧
    kebab "GetUserList".toList = "get-user-list".toList :=
  ⟨(appendMethodName_eq U base dom n hn hbase hdom).1,
    (appendMethodName_eq U base dom n hn hbase hdom).2, by decide⟩

theorem appendMethodName_kebab_witness :
    appendMethodNameToUriWithPattern asciiTables ("/api/v2//".toList ++ "@".toList ++ "a.com".toList)
        "GetUser2List".toList =
      TrimRight "/api/v2//".toList '/' ++ "/".toList ++ kebab "GetUser2List".toList ++
        "@".toList ++ "a.com".toList :=
  (appendMethodName_kebab asciiTables "/api/v2//".toList "a.com".toList "GetUser2List".toList
    (by decide) (by decide) (by decide)).2.1

/-- C10, the claim as stated fails: a method named `GetUserList` bound under `/api` is
registered at `/api/get-user-list`, which does not end in `/`; `getHandler` finds
nothing at `/api/get-user-list/`. -/
theorem BindObject_trailing_slash_counterexample :
    appendMethodNameToUriWithPattern asciiTables "/api".toList "GetUserList".toList =
      "/api/get-user-list".toList ∧
    (parsePattern (appendMethodNameToUriWithPattern asciiTables "/api".toList
      "GetUserList".toList)).uri.getLast? = some 't' ∧
    (BindObject asciiTables (newServer "default".toList) "/api".toList
      [("GetUserList".toList, some 7)]).2 = none ∧
    getHandler asciiTables
      (BindObject asciiTables (newServer "default".toList) "/api".toList
        [("GetUserList".toList, some 7)]).1
      "default".toList "GET".toList "/api/get-user-list/".toList = none ∧
    getHandler asciiTables
      (BindObject asciiTables (newServer "default".toList) "/api".toList
        [("GetUserList".toList, some 7)]).1
      "default".toList "GET".toList "/api/get-user-list".toList =
        some { ctype := none, fname := [], faddr := some 7 } := by
  refine ⟨by decide, by decide, by rfl, by rfl, by rfl⟩

/-- C10 as amended: object-bound URIs carry no trailing slash. For a base pattern
`base` or `base@dom` (`base` without `:` and `@`, `dom` without `@`) and an object
whose method names are non-empty and made of ASCII letters and digits, `BindObject`
on a configuring server returns nil and registers each method `n` under the URI
`trimRight(base, "/") + "/" + kebab(n)`, which does not end in `/` and is resolvable
by `getHandler` for the nine verbs. A method named `GetUserList` bound under `/api`
is registered at, and resolved to its method value by, `/api/get-user-list`. -/
theorem BindObject_uri_no_trailing_slash (U : CaseTables) (s : Server) (base dom : Str)
    (obj : Object) (hwf : s.WF) (hstatus : s.status = 0)
    (hb1 : '@' ∉ base) (hb2 : ':' ∉ base) (hdom : '@' ∉ dom)
    (hobj : ∀ f ∈ obj, f.1 ≠ [] ∧ ∀ c ∈ f.1, c.isAlphanum = true) :
    (BindObject U s base obj).2 = none ∧
    (BindObject U s (base ++ "@".toList ++ dom) obj).2 = none ∧
    (∀ f ∈ obj,
      (parsePattern (appendMethodNameToUriWithPattern U base f.1)).uri =
        TrimRight base '/' ++ "/".toList ++ kebab f.1 ∧
      (parsePattern (appendMethodNameToUriWithPattern U (base ++ "@".toList ++ dom) f.1)).uri =
        TrimRight base '/' ++ "/".toList ++ kebab f.1 ∧
      (TrimRight base '/' ++ "/".toList ++ kebab f.1).getLast? ≠ some '/' ∧
      ∀ v ∈ ["GET".toList, "PUT".toList, "POST".toList, "DELETE".toList, "PATCH".toList,
          "HEAD".toList, "CONNECT".toList, "OPTIONS".toList, "TRACE".toList],
        (getHandler U (BindObject U s base obj).1 "default".toList v
          (TrimRight base '/' ++ "/".toList ++ kebab f.1)).isSome = true ∧
        (getHandler U (BindObject U s (base ++ "@".toList ++ dom) obj).1 dom v
          (TrimRight base '/' ++ "/".toList ++ kebab f.1)).isSome = true) ∧
    (∀ fn, ∀ v ∈ ["GET".toList, "PUT".toList, "POST".toList, "DELETE".toList, "PATCH".toList,
        "HEAD".toList, "CONNECT".toList, "OPTIONS".toList, "TRACE".toList],
      getHandler U (BindObject U s "/api".toList [("GetUserList".toList, fn)]).1
        "default".toList v "/api/get-user-list".toList =
          some { ctype := none, fname := [], faddr := fn }) := by
  have hst : s.status ≠ 1 := by rw [hstatus]; decide
  have hp : ∀ f ∈ obj, _ := fun f hf => derived_parse U base dom f.1 (hobj f hf).2 hb1 hb2 hdom
  have hu : ∀ f ∈ obj, TrimRight base '/' ++ "/".toList ++ kebab f.1 ≠ [] :=
    fun f hf => (derivedUri_facts base f.1 (hobj f hf).2 hb1 hb2).2.2.1
  obtain ⟨herr1, hget1⟩ := BindObject_resolvable U s base gDEFAULT_DOMAIN obj
    (fun n => TrimRight base '/' ++ "/".toList ++ kebab n) hwf hst
    (fun f hf => (hp f hf).1) hu
  obtain ⟨herr2, hget2⟩ := BindObject_resolvable U s (base ++ "@".toList ++ dom) dom obj
    (fun n => TrimRight base '/' ++ "/".toList ++ kebab n) hwf hst
    (fun f hf => (hp f hf).2) hu
  refine ⟨herr1, herr2, ?_, ?_⟩
  · intro f hf
    refine ⟨by rw [(hp f hf).1], by rw [(hp f hf).2],
      (derivedUri_facts base f.1 (hobj f hf).2 hb1 hb2).2.2.2 (hobj f hf).1, ?_⟩
    intro v hv
    rw [← httpMethods_eq] at hv
    exact ⟨hget1 f hf v hv, hget2 f hf v hv⟩
  · intro fn v hv
    rw [← httpMethods_eq] at hv
    have hkey : appendMethodNameToUriWithPattern U "/api".toList "GetUserList".toList =
        "/api/get-user-list".toList := by
      rw [(appendMethodName_eq U "/api".toList [] "GetUserList".toList (by decide) (by decide)
        (by decide)).1]
      decide
    have hparse : parsePattern "/api/get-user-list".toList =
        ⟨"default".toList, gDEFAULT_METHOD, "/api/get-user-list".toList, none⟩ := by decide
    have hb := bindHandlerItem_ok U s "/api/get-user-list".toList
      { ctype := none, fname := [], faddr := fn } hst (by rw [hparse]; decide)
    rw [hparse] at hb
    have hbind : BindObject U s "/api".toList [("GetUserList".toList, fn)] =
        (setHandler U s "default".toList gDEFAULT_METHOD "/api/get-user-list".toList
          { ctype := none, fname := [], faddr := fn }, none) := by
      simp only [BindObject, BindObject.m, List.foldl_cons, List.foldl_nil, hkey, mapSet,
        bindHandlerByMap, hb]
      simp
    rw [hbind]
    exact getHandler_setHandler_all U s _ _ v _ hwf hv

theorem BindObject_uri_no_trailing_slash_witness :
    (BindObject asciiTables (newServer "default".toList) ("/api/".toList ++ "@".toList ++
      "a.com".toList) [("GetUserList".toList, some 7), ("Index".toList, some 8)]).2 = none :=
  (BindObject_uri_no_trailing_slash asciiTables (newServer "default".toList) "/api/".toList
    "a.com".toList [("GetUserList".toList, some 7), ("Index".toList, some 8)]
    (by decide) (by decide) (by decide) (by decide) (by decide) (by decide)).2.1


/-- C13, the code at a name in another letter case: the object exposes `Show`, and
`BindObjectMethod("/user", obj, "show")` fails with `invalid method name:show` and
binds nothing, as does `BindControllerMethod`; with the name as it is written,
`Show`, both calls return nil. The comment of both methods says of the parameter
`methods` that it is case-insensitive. -/
theorem BindObjectMethod_case_sensitive :
    SameLetters "show".toList "Show".toList ∧
    BindObjectMethod asciiTables (newServer "default".toList) "/user".toList
        [("Show".toList, some 1)] "show".toList =
      (newServer "default".toList, some "invalid method name:show") ∧
    (BindObjectMethod asciiTables (newServer "default".toList) "/user".toList
        [("Show".toList, some 1)] "Show".toList).2 = none ∧
    BindControllerMethod asciiTables (newServer "default".toList) "/user".toList
        ⟨"User".toList, ["Init".toList, "Show".toList, "Shut".toList]⟩ "show".toList =
      (newServer "default".toList, some "invalid method name:show") ∧
    (BindControllerMethod asciiTables (newServer "default".toList) "/user".toList
        ⟨"User".toList, ["Init".toList, "Show".toList, "Shut".toList]⟩ "Show".toList).2 = none := by
  refine ⟨by decide, by decide, by rfl, by decide, by rfl⟩

/-- C17, the claim as stated fails: `GET:/a:b@x.com` has an `@` and a `:` before it and
parses without error, to the URI `/a`, not `/a:b`; put together again the three
parts give `GET:/a@x.com`. Of `GET:/u@a@b` the domain is `a`, not `a@b`. -/
theorem parsePattern_roundtrip_counterexample :
    parsePattern "GET:/a:b@x.com".toList =
      ⟨"x.com".toList, "GET".toList, "/a".toList, none⟩ ∧
    (parsePattern "GET:/a:b@x.com".toList).method ++ ":".toList ++
        (parsePattern "GET:/a:b@x.com".toList).uri ++ "@".toList ++
        (parsePattern "GET:/a:b@x.com".toList).domain ≠ "GET:/a:b@x.com".toList ∧
    (parsePattern "GET:/u@a@b".toList).domain = "a".toList := by
  refine ⟨by decide, by decide, by decide⟩

/-- C17 as amended: `parsePattern` splits at every `@` and at every `:` before the
first `@`, and keeps the first two pieces of each split. For a pattern with exactly
one `@` and exactly one `:` before it, `method + ":" + uri + "@" + domain` is the
pattern; no returned method holds a `:` and no returned domain an `@`; and
`GET:/a:b@x.com` yields the URI `/a`. -/
theorem parsePattern_single_separators (pattern : Str) (h1 : pattern.count '@' = 1)
    (h2 : ((Split pattern '@').getD 0 []).count ':' = 1) :
    (parsePattern pattern).method ++ ":".toList ++ (parsePattern pattern).uri ++ "@".toList ++
      (parsePattern pattern).domain = pattern ∧
    ':' ∉ (parsePattern pattern).method ∧ '@' ∉ (parsePattern pattern).domain ∧
    (parsePattern "GET:/a:b@x.com".toList).uri = "/a".toList :=
  ⟨parsePattern_roundtrip pattern h1 h2, (parsePattern_wellformed pattern).1,
    (parsePattern_wellformed pattern).2, by decide⟩

theorem parsePattern_single_separators_witness :
    (parsePattern "put:/User@A.com:80".toList).method ++ ":".toList ++
      (parsePattern "put:/User@A.com:80".toList).uri ++ "@".toList ++
      (parsePattern "put:/User@A.com:80".toList).domain = "put:/User@A.com:80".toList :=
  (parsePattern_single_separators "put:/User@A.com:80".toList (by decide) (by decide)).1

/-- C18, the code with two servers: the package variable `domains` is keyed by the
domain string alone. After `s1.Domain("a.com")`, the call `s2.Domain("a.com")`
returns the `Domain` of `s1`, and `BindHandler("/x", fn)` through it is stored in
the handler map of `s1`; that of `s2` stays empty. It is so for every domain string
that the first call put into the cache. -/
theorem Domain_shared_across_servers :
    (Server.Domain (Server.Domain ⟨fun _ => newServer "default".toList, []⟩ 1
      "a.com".toList).1 2 "a.com".toList).2.s = 1 ∧
    ((Domain.BindHandler asciiTables
      (Server.Domain (Server.Domain ⟨fun _ => newServer "default".toList, []⟩ 1
        "a.com".toList).1 2 "a.com".toList).1
      (Server.Domain (Server.Domain ⟨fun _ => newServer "default".toList, []⟩ 1
        "a.com".toList).1 2 "a.com".toList).2
      "/x".toList (some 7)).1.servers 2).handlerMap = [] ∧
    getHandler asciiTables
      ((Domain.BindHandler asciiTables
        (Server.Domain (Server.Domain ⟨fun _ => newServer "default".toList, []⟩ 1
          "a.com".toList).1 2 "a.com".toList).1
        (Server.Domain (Server.Domain ⟨fun _ => newServer "default".toList, []⟩ 1
          "a.com".toList).1 2 "a.com".toList).2
        "/x".toList (some 7)).1.servers 1)
      "a.com".toList "GET".toList "/x".toList =
        some { ctype := none, fname := [], faddr := some 7 } ∧
    ∀ (w : Pkg) (s1 s2 : Nat) (L : Str), mapGet w.domains L = none →
      (Server.Domain (Server.Domain w s1 L).1 s2 L).2.s = s1 := by
  refine ⟨by rfl, by rfl, by rfl, ?_⟩
  intro w s1 s2 L h
  exact Server.Domain_second w s1 s2 L h

/-- C19, the code at an explicit verb: `BindHookHandlerInit("GET:/x", h)` panics, for
the branch of an explicit method tests `v == nil` where the wildcard branch tests
`v != nil`, so that `l` is nil at `l.PushBack(handler)`; the wildcard pattern `/x`
binds. It is so for every pattern that parses to a method other than `all`. -/
theorem BindHookHandler_explicit_verb_panics :
    BindHookHandler asciiTables (newServer "default".toList) "GET:/x".toList "Init".toList
      (some 7) = none ∧
    (BindHookHandler asciiTables (newServer "default".toList) "/x".toList "Init".toList
      (some 7)).isSome = true ∧
    ∀ (U : CaseTables) (s : Server) (pattern hook : Str) (h : HandlerFunc),
      (parsePattern pattern).err = none → (parsePattern pattern).method ≠ "all".toList →
      BindHookHandler U s pattern hook h = none := by
  refine ⟨by decide, by rfl, ?_⟩
  intro U s pattern hook h herr hm
  exact BindHookHandler_explicit U s pattern hook h herr hm


/-- C14, the claim as stated fails: with the list `Show,Nope`, of an existing name and
then a name that is no method, `BindObjectMethod` returns `invalid method name:Nope`
and the handler map is as empty as before; and there are no server, pattern, object
and list with a name that is no method for which the call changes the handler
map. -/
theorem BindObjectMethod_atomic_counterexample :
    BindObjectMethod asciiTables (newServer "default".toList) "/user".toList
        [("Show".toList, some 1)] "Show,Nope".toList =
      (newServer "default".toList, some "invalid method name:Nope") ∧
    (newServer "default".toList).handlerMap = [] ∧
    ¬ ∃ (U : CaseTables) (s : Server) (pattern : Str) (obj : Object) (methods : Str),
      (∃ v ∈ Split methods ',', MethodByName obj (TrimSpace v) = none) ∧
      (BindObjectMethod U s pattern obj methods).1.handlerMap ≠ s.handlerMap := by
  refine ⟨by decide, rfl, ?_⟩
  rintro ⟨U, s, pattern, obj, methods, hbad, hne⟩
  obtain ⟨-, name, -, -, -, -, hres⟩ := BindObjectMethod_invalid U s pattern obj methods hbad
  rw [hres] at hne
  exact hne rfl

/-- C14 as amended: binding by an explicit method list binds nothing when a name of
the list is unknown. `BindObjectMethod` looks up every name before it binds any:
for a list in which some trimmed name is no method of the object, on any server,
it returns `invalid method name:` with the first such name, and the server, its
handler map included, is what it was before the call. -/
theorem BindObjectMethod_fails_as_a_whole (U : CaseTables) (s : Server) (pattern : Str)
    (obj : Object) (methods : Str)
    (hbad : ∃ v ∈ Split methods ',', MethodByName obj (TrimSpace v) = none) :
    ∃ pre name post, (Split methods ',').map TrimSpace = pre ++ name :: post ∧
      (∀ x ∈ pre, MethodByName obj x ≠ none) ∧ MethodByName obj name = none ∧
      (BindObjectMethod U s pattern obj methods).2 =
        some ("invalid method name:" ++ String.mk name) ∧
      (BindObjectMethod U s pattern obj methods).1 = s ∧
      (BindObjectMethod U s pattern obj methods).1.handlerMap = s.handlerMap := by
  obtain ⟨pre, name, post, hsplit, hpre, hname, hres⟩ :=
    BindObjectMethod_invalid U s pattern obj methods hbad
  refine ⟨pre, name, post, hsplit, hpre, hname, ?_, ?_, ?_⟩
  · rw [hres]
  · rw [hres]
  · rw [hres]

theorem BindObjectMethod_fails_as_a_whole_witness :
    ∃ pre name post,
      (Split "Show, Nope,Edit".toList ',').map TrimSpace = pre ++ name :: post ∧
      (∀ x ∈ pre, MethodByName [("Show".toList, some 1), ("Edit".toList, some 2)] x ≠ none) ∧
      MethodByName [("Show".toList, some 1), ("Edit".toList, some 2)] name = none ∧
      (BindObjectMethod asciiTables (newServer "default".toList) "/user".toList
        [("Show".toList, some 1), ("Edit".toList, some 2)] "Show, Nope,Edit".toList).2 =
        some ("invalid method name:" ++ String.mk name) ∧
      (BindObjectMethod asciiTables (newServer "default".toList) "/user".toList
        [("Show".toList, some 1), ("Edit".toList, some 2)] "Show, Nope,Edit".toList).1 =
        newServer "default".toList ∧
      (BindObjectMethod asciiTables (newServer "default".toList) "/user".toList
        [("Show".toList, some 1), ("Edit".toList, some 2)]
        "Show, Nope,Edit".toList).1.handlerMap = (newServer "default".toList).handlerMap :=
  BindObjectMethod_fails_as_a_whole asciiTables (newServer "default".toList) "/user".toList
    [("Show".toList, some 1), ("Edit".toList, some 2)] "Show, Nope,Edit".toList
    ⟨" Nope".toList, by decide, by decide⟩

/-- C15, the claim as stated fails: on a running server the domain of the aliases
`a.com` and `b.com` gets an error from `BindHandler` and no alias is bound; and there
are no state, domain and pattern for which `Domain.BindHandler` returns an error and
has changed the handler map, or could have bound one of the aliases. -/
theorem Domain_BindHandler_partial_counterexample :
    (Domain.BindHandler asciiTables
      ⟨fun _ => { newServer "default".toList with status := 1 }, []⟩
      ⟨0, [("a.com".toList, true), ("b.com".toList, true)]⟩ "/x".toList (some 7)).2 =
        some "server handlers cannot be changed while running" ∧
    ((Domain.BindHandler asciiTables
      ⟨fun _ => { newServer "default".toList with status := 1 }, []⟩
      ⟨0, [("a.com".toList, true), ("b.com".toList, true)]⟩ "/x".toList
      (some 7)).1.servers 0).handlerMap = [] ∧
    (Domain.BindHandler asciiTables ⟨fun _ => newServer "default".toList, []⟩
      ⟨0, [("a.com".toList, true), ("b.com".toList, true)]⟩ ":@".toList (some 7)).2 =
        some "invalid pattern" ∧
    ((Domain.BindHandler asciiTables ⟨fun _ => newServer "default".toList, []⟩
      ⟨0, [("a.com".toList, true), ("b.com".toList, true)]⟩ ":@".toList
      (some 7)).1.servers 0).handlerMap = [] ∧
    ¬ ∃ (U : CaseTables) (w : Pkg) (d : Domain) (pattern : Str) (fn : HandlerFunc),
      (Domain.BindHandler U w d pattern fn).2 ≠ none ∧
      (((Domain.BindHandler U w d pattern fn).1.servers d.s).handlerMap ≠
          (w.servers d.s).handlerMap ∨
        ∃ a ∈ mapKeys d.m, (bindHandlerItem U (w.servers d.s) (pattern ++ "@".toList ++ a)
          { ctype := none, fname := [], faddr := fn }).2 = none) := by
  refine ⟨by rfl, by rfl, by rfl, by rfl, ?_⟩
  rintro ⟨U, w, d, pattern, fn, herr, hchange⟩
  obtain ⟨hbad, hsrv, -⟩ := Domain.BindHandler_error U w d pattern fn herr
  rcases hchange with h | ⟨a, -, ha⟩
  · rw [hsrv] at h
    exact h rfl
  · exact bindHandlerItem_alias_fails U (w.servers d.s) pattern a _ hbad ha

/-- C15 as amended: `Domain.BindHandler` fails on the first alias or not at all. An
alias changes the domain of the pattern only, and the two errors of
`bindHandlerItem` come from the status of the server and from the URI. So when
`Domain.BindHandler` returns an error, the server is running or the pattern has no
URI, binding fails for every alias, and the servers and the domain cache are what
they were before the call: no alias has been bound. -/
theorem Domain_BindHandler_all_or_nothing (U : CaseTables) (w : Pkg) (d : Domain)
    (pattern : Str) (fn : HandlerFunc)
    (herr : (Domain.BindHandler U w d pattern fn).2 ≠ none) :
    ((w.servers d.s).status = 1 ∨ (parsePattern pattern).uri = []) ∧
    (∀ a, (bindHandlerItem U (w.servers d.s) (pattern ++ "@".toList ++ a)
      { ctype := none, fname := [], faddr := fn }).2 ≠ none) ∧
    (Domain.BindHandler U w d pattern fn).1.servers = w.servers ∧
    (Domain.BindHandler U w d pattern fn).1.domains = w.domains ∧
    ((Domain.BindHandler U w d pattern fn).1.servers d.s).handlerMap =
      (w.servers d.s).handlerMap := by
  obtain ⟨hbad, hsrv, hdom⟩ := Domain.BindHandler_error U w d pattern fn herr
  refine ⟨hbad, ?_, hsrv, hdom, by rw [hsrv]⟩
  intro a
  exact bindHandlerItem_alias_fails U (w.servers d.s) pattern a _ hbad

theorem Domain_BindHandler_all_or_nothing_witness :
    ((Domain.BindHandler asciiTables ⟨fun _ => newServer "default".toList, []⟩
      ⟨0, [("a.com".toList, true), ("b.com".toList, true)]⟩ "GET:".toList
      (some 7)).1.servers 0).handlerMap = (newServer "default".toList).handlerMap :=
  (Domain_BindHandler_all_or_nothing asciiTables ⟨fun _ => newServer "default".toList, []⟩
    ⟨0, [("a.com".toList, true), ("b.com".toList, true)]⟩ "GET:".toList (some 7)
    (by decide)).2.2.2.2


/-- C16, the claim as stated fails: `ALL` is a letter-casing of `all`, and
`BindHandler("ALL:/x", fn)` stores one entry, whose key `ALL:/x@default` has the method
component `ALL`; no verb resolves at `/x`. The test in `setHandler` is
`method == "all"`. -/
theorem BindHandler_upper_wildcard_counterexample :
    SameLetters "ALL".toList "all".toList ∧
    (BindHandler asciiTables (newServer "default".toList) "ALL:/x".toList (some 7)).2 = none ∧
    (BindHandler asciiTables (newServer "default".toList) "ALL:/x".toList
      (some 7)).1.handlerMap =
        [("ALL:/x@default".toList, { ctype := none, fname := [], faddr := some 7 })] ∧
    keyMethod "ALL:/x@default".toList = "ALL".toList ∧
    getHandler asciiTables
      (BindHandler asciiTables (newServer "default".toList) "ALL:/x".toList (some 7)).1
      "default".toList "GET".toList "/x".toList = none := by
  refine ⟨by decide, by rfl, by decide, by decide, by rfl⟩

/-- C16 as amended: the wildcard is the literal `all` as it is written, and is never
stored. For a non-empty URI `u` without `:` and `@`, `BindHandler("all:" + u, fn)` on
a configuring server with an empty handler map returns nil and stores one entry per
each of the nine verbs; and after any run of `BindHandler` calls whose methods are
letter-casings of verbs or the literal `all`, the method component of every key of
the handler map is one of the nine verbs, never `ALL`. -/
theorem wildcard_literal_never_stored (U : CaseTables) (s : Server) (u : Str)
    (fn : HandlerFunc) (binds : List (Str × HandlerFunc))
    (hwf : s.WF) (hstatus : s.status = 0) (hempty : s.handlerMap = [])
    (hu0 : u ≠ []) (hu1 : ':' ∉ u) (hu2 : '@' ∉ u)
    (hbinds : ∀ b ∈ binds, (parsePattern b.1).method = "all".toList ∨
      ∃ verb ∈ ["GET".toList, "PUT".toList, "POST".toList, "DELETE".toList, "PATCH".toList,
        "HEAD".toList, "CONNECT".toList, "OPTIONS".toList, "TRACE".toList],
        SameLetters (parsePattern b.1).method verb) :
    (BindHandler U s ("all".toList ++ ":".toList ++ u) fn).2 = none ∧
    (BindHandler U s ("all".toList ++ ":".toList ++ u) fn).1.handlerMap.length = 9 ∧
    (∀ v ∈ ["GET".toList, "PUT".toList, "POST".toList, "DELETE".toList, "PATCH".toList,
        "HEAD".toList, "CONNECT".toList, "OPTIONS".toList, "TRACE".toList],
      getHandler U (BindHandler U s ("all".toList ++ ":".toList ++ u) fn).1
        "default".toList v u = some { ctype := none, fname := [], faddr := fn }) ∧
    (∀ k ∈ mapKeys (bindHandlers U s binds).handlerMap,
      keyMethod k ∈ ["GET".toList, "PUT".toList, "POST".toList, "DELETE".toList,
        "PATCH".toList, "HEAD".toList, "CONNECT".toList, "OPTIONS".toList, "TRACE".toList] ∧
      keyMethod k ≠ "ALL".toList) := by
  have hst : s.status ≠ 1 := by rw [hstatus]; decide
  have hparse : parsePattern ("all".toList ++ ":".toList ++ u) =
      ⟨gDEFAULT_DOMAIN, gDEFAULT_METHOD, u, none⟩ := by
    have h := parsePattern_method "all".toList u (by decide) (by decide) hu1 hu2
    rw [if_neg hu0] at h
    simpa using h
  have hb := bindHandlerItem_ok U s ("all".toList ++ ":".toList ++ u)
    { ctype := none, fname := [], faddr := fn } hst (by rw [hparse]; exact hu0)
  rw [hparse] at hb
  have hB : BindHandler U s ("all".toList ++ ":".toList ++ u) fn =
      (setHandler U s gDEFAULT_DOMAIN gDEFAULT_METHOD u
        { ctype := none, fname := [], faddr := fn }, none) := hb
  refine ⟨by rw [hB], ?_, ?_, ?_⟩
  · rw [hB]
    exact length_setHandler_all U s _ _ _ hwf hempty
  · intro v hv
    rw [← httpMethods_eq] at hv
    rw [hB]
    exact getHandler_setHandler_all U s _ _ v _ hwf hv
  · intro k hk
    have hinv : ∀ k ∈ mapKeys s.handlerMap, keyMethod k ∈ httpMethods := by
      rw [hempty]
      intro k hk
      simp [mapKeys] at hk
    have hb2 : ∀ b ∈ binds, (parsePattern b.1).method = gDEFAULT_METHOD ∨
        ∃ verb ∈ httpMethods, SameLetters (parsePattern b.1).method verb := by
      intro b hb
      rw [httpMethods_eq]
      exact hbinds b hb
    have hmem := bindHandlers_keyMethod U binds s hwf hinv hb2 k hk
    have hnot : "ALL".toList ∉ httpMethods := by decide
    refine ⟨by rw [← httpMethods_eq]; exact hmem, ?_⟩
    intro e
    rw [e] at hmem
    exact hnot hmem

theorem wildcard_literal_never_stored_witness :
    (BindHandler asciiTables (newServer "default".toList)
      ("all".toList ++ ":".toList ++ "/x".toList) (some 7)).1.handlerMap.length = 9 ∧
    ∀ k ∈ mapKeys (bindHandlers asciiTables (newServer "default".toList)
        [("get:/a".toList, some 1), ("all:/b@x.com".toList, some 2), ("/c".toList, some 3),
          ("Post:/d".toList, some 4)]).handlerMap,
      keyMethod k ∈ ["GET".toList, "PUT".toList, "POST".toList, "DELETE".toList,
        "PATCH".toList, "HEAD".toList, "CONNECT".toList, "OPTIONS".toList, "TRACE".toList] ∧
      keyMethod k ≠ "ALL".toList :=
  have h := wildcard_literal_never_stored asciiTables (newServer "default".toList) "/x".toList
    (some 7)
    [("get:/a".toList, some 1), ("all:/b@x.com".toList, some 2), ("/c".toList, some 3),
      ("Post:/d".toList, some 4)]
    (by decide) (by decide) (by decide) (by decide) (by decide) (by decide)
    (by decide)
  ⟨h.2.1, h.2.2.2⟩


/-- C20: the composite key has no collisions on well-formed triples. For methods
without `:` and domains without `@`, as `parsePattern` returns them,
`handlerKey(d1, m1, p1) = handlerKey(d2, m2, p2)` exactly when the upper-cased
methods, the URIs and the lower-cased domains are equal; so a `setHandler` with a
method other than the wildcard leaves `getHandler` as it was for every triple that
differs in one of the three. The case tables are taken to make no `:` and no `@`
out of another rune. -/
theorem handlerKey_collision_free (U : CaseTables) (hU : U.KeepsSeparators)
    (d1 m1 p1 d2 m2 p2 : Str)
    (hm1 : ':' ∉ m1) (hm2 : ':' ∉ m2) (hd1 : '@' ∉ d1) (hd2 : '@' ∉ d2) :
    (handlerKey U d1 m1 p1 = handlerKey U d2 m2 p2 ↔
      ToUpper U m1 = ToUpper U m2 ∧ p1 = p2 ∧ ToLower U d1 = ToLower U d2) ∧
    (∀ (s : Server) (item : HandlerItem), m1 ≠ "all".toList →
      ¬ (ToUpper U m1 = ToUpper U m2 ∧ p1 = p2 ∧ ToLower U d1 = ToLower U d2) →
      getHandler U (setHandler U s d1 m1 p1 item) d2 m2 p2 = getHandler U s d2 m2 p2) ∧
    (∀ pattern : Str,
      ':' ∉ (parsePattern pattern).method ∧ '@' ∉ (parsePattern pattern).domain) := by
  have hiff := handlerKey_eq_iff U hU d1 m1 p1 d2 m2 p2 hm1 hm2 hd1 hd2
  refine ⟨hiff, ?_, parsePattern_wellformed⟩
  intro s item hall hdiff
  unfold getHandler
  rw [setHandler_one U s d1 m1 p1 item hall,
    mapGet_mapSet_of_ne _ _ _ _ (fun e => hdiff (hiff.mp e))]

theorem handlerKey_collision_free_witness :
    getHandler asciiTables
      (setHandler asciiTables (newServer "default".toList) "a.com".toList "get".toList
        "/x@y:z".toList { ctype := none, fname := [], faddr := some 1 })
      "A.com".toList "GET".toList "/x@y".toList =
    getHandler asciiTables (newServer "default".toList) "A.com".toList "GET".toList
      "/x@y".toList :=
  (handlerKey_collision_free asciiTables asciiTables_keepsSeparators "a.com".toList
    "get".toList "/x@y:z".toList "A.com".toList "GET".toList "/x@y".toList
    (by decide) (by decide) (by decide) (by decide)).2.1
    (newServer "default".toList) { ctype := none, fname := [], faddr := some 1 }
    (by decide) (by decide)


/-- C11: REST binding keeps only verb-named methods and adds no URI suffix. On a
configuring server with an empty handler map, for an object whose method names have
distinct upper cases and a pattern `p` without `:` that parses to domain `d` and a
non-empty URI `u`, `BindObjectRest(p, obj)` returns nil and the handler map holds
exactly `restEntries`: `getHandler(d, V, u)` finds an item exactly when the upper case
of `V` is one of the nine verbs and is the upper-cased name of a method of the object,
the item holds that method, and every entry is of this kind. The entries are the
same in whatever order `bindHandlerByMap` visits the map of the methods. A method
named `Post` is resolvable at `POST`, a method named `Helper` leaves no entry. -/
theorem BindObjectRest_binds_verbs (U : CaseTables) (s : Server) (p : Str) (obj : Object)
    (hwf : s.WF) (hstatus : s.status = 0) (hempty : s.handlerMap = [])
    (hp : ':' ∉ p) (hu : (parsePattern p).uri ≠ [])
    (hnames : (obj.map (fun f => ToUpper U f.1)).Nodup) :
    (BindObjectRest U s p obj).2 = none ∧
    (BindObjectRest U s p obj).1.handlerMap =
      restEntries U (parsePattern p).domain (parsePattern p).uri obj ∧
    (∀ V item,
      getHandler U (BindObjectRest U s p obj).1 (parsePattern p).domain V (parsePattern p).uri =
          some item ↔
        ∃ f ∈ obj, ToUpper U f.1 ∈ ["GET".toList, "PUT".toList, "POST".toList, "DELETE".toList,
            "PATCH".toList, "HEAD".toList, "CONNECT".toList, "OPTIONS".toList, "TRACE".toList] ∧
          ToUpper U V = ToUpper U f.1 ∧ item = { ctype := none, fname := [], faddr := f.2 }) ∧
    (∀ e ∈ (BindObjectRest U s p obj).1.handlerMap,
      ∃ f ∈ obj, ToUpper U f.1 ∈ ["GET".toList, "PUT".toList, "POST".toList, "DELETE".toList,
          "PATCH".toList, "HEAD".toList, "CONNECT".toList, "OPTIONS".toList, "TRACE".toList] ∧
        e = (handlerKey U (parsePattern p).domain f.1 (parsePattern p).uri,
          { ctype := none, fname := [], faddr := f.2 })) ∧
    (∀ m2 : HandlerMap, m2.Perm (BindObjectRest.m U s p obj) →
      (bindHandlerByMap U s m2).2 = none ∧
      (bindHandlerByMap U s m2).1.handlerMap.Perm (BindObjectRest U s p obj).1.handlerMap) ∧
    (BindObjectRest asciiTables (newServer "default".toList) "/user".toList
      [("Helper".toList, some 1), ("Post".toList, some 2)]).1.handlerMap =
        [("POST:/user@default".toList, { ctype := none, fname := [], faddr := some 2 })] := by
  have hst : s.status ≠ 1 := by rw [hstatus]; decide
  obtain ⟨herr, -, heq⟩ := BindObjectRest_visit U s p obj hwf hst hempty hp hu hnames
    (BindObjectRest.m U s p obj) (List.Perm.refl _)
  have hmap : (BindObjectRest U s p obj).1.handlerMap =
      restEntries U (parsePattern p).domain (parsePattern p).uri obj := heq rfl
  have hmem : ∀ e, e ∈ restEntries U (parsePattern p).domain (parsePattern p).uri obj ↔
      ∃ f ∈ obj, ToUpper U f.1 ∈ httpMethods ∧
        e = (handlerKey U (parsePattern p).domain f.1 (parsePattern p).uri,
          ({ ctype := none, fname := [], faddr := f.2 } : HandlerItem)) := by
    intro e
    unfold restEntries
    rw [List.mem_map]
    constructor
    · rintro ⟨f, hf, rfl⟩
      obtain ⟨hf1, hf2⟩ := List.mem_filter.mp hf
      exact ⟨f, hf1, of_decide_eq_true hf2, rfl⟩
    · rintro ⟨f, hf1, hf2, rfl⟩
      exact ⟨f, List.mem_filter.mpr ⟨hf1, decide_eq_true hf2⟩, rfl⟩
  refine ⟨herr, hmap, ?_, ?_, ?_, by decide⟩
  · intro V item
    unfold getHandler
    rw [hmap, mapGet_eq_some_iff _ (restEntries_nodup U _ _ obj hnames), hmem, ← httpMethods_eq]
    constructor
    · rintro ⟨f, hf1, hf2, he⟩
      rw [Prod.mk.injEq] at he
      exact ⟨f, hf1, hf2, (handlerKey_method_inj U _ _ V f.1).mp he.1, he.2⟩
    · rintro ⟨f, hf1, hf2, hup, rfl⟩
      exact ⟨f, hf1, hf2, by rw [(handlerKey_method_inj U _ _ V f.1).mpr hup]⟩
  · intro e he
    rw [hmap, hmem] at he
    rw [← httpMethods_eq]
    exact he
  · intro m2 hperm
    obtain ⟨herr2, hperm2, -⟩ := BindObjectRest_visit U s p obj hwf hst hempty hp hu hnames
      m2 hperm
    refine ⟨herr2, ?_⟩
    rw [hmap]
    exact hperm2

theorem BindObjectRest_binds_verbs_witness :
    getHandler asciiTables
      (BindObjectRest asciiTables (newServer "default".toList) "/user@a.com".toList
        [("Helper".toList, some 1), ("Post".toList, some 2), ("Get".toList, some 3)]).1
      "a.com".toList "post".toList "/user".toList =
        some { ctype := none, fname := [], faddr := some 2 } :=
  ((BindObjectRest_binds_verbs asciiTables (newServer "default".toList) "/user@a.com".toList
    [("Helper".toList, some 1), ("Post".toList, some 2), ("Get".toList, some 3)]
    (by decide) (by decide) (by decide) (by decide) (by decide) (by decide)).2.2.1
    "post".toList { ctype := none, fname := [], faddr := some 2 }).mpr
    ⟨("Post".toList, some 2), by decide, by decide, by decide, rfl⟩


/-- C12: controller binding is deferred and skips the lifecycle methods. On a
configuring server with an empty handler map, for a controller with distinct
exported method names and a base pattern without method part, that parses to the
domain `d`, `BindController` returns nil; each method `n` other than `Init` and
`Shut` is resolved for the nine verbs at its derived URI
`trimRight(base, "/") + "/" + kebab(n)`, to the item of `ctype` the controller's
element type, `fname = n` and `faddr = nil`; and nothing is resolved at the URIs
derived from `Init` and `Shut`. The lookups are the same in whatever order
`bindHandlerByMap` visits the map of the methods. -/
theorem BindController_deferred (U : CaseTables) (s : Server) (pattern : Str) (c : Controller)
    (hwf : s.WF) (hstatus : s.status = 0) (hempty : s.handlerMap = [])
    (hhead : ':' ∉ (Split pattern '@').getD 0 [])
    (hnames : ∀ n ∈ c.methods, isExportedName n = true) (hnd : c.methods.Nodup) :
    (BindController U s pattern c).2 = none ∧
    (∀ n ∈ c.methods, n ≠ "Init".toList → n ≠ "Shut".toList →
      (parsePattern (appendMethodNameToUriWithPattern U pattern n)).uri =
        TrimRight ((Split pattern '@').getD 0 []) '/' ++ "/".toList ++ kebab n ∧
      ∀ v ∈ ["GET".toList, "PUT".toList, "POST".toList, "DELETE".toList, "PATCH".toList,
          "HEAD".toList, "CONNECT".toList, "OPTIONS".toList, "TRACE".toList],
        getHandler U (BindController U s pattern c).1 (parsePattern pattern).domain v
          (TrimRight ((Split pattern '@').getD 0 []) '/' ++ "/".toList ++ kebab n) =
            some { ctype := some c.elemType, fname := n, faddr := none }) ∧
    (∀ v ∈ ["GET".toList, "PUT".toList, "POST".toList, "DELETE".toList, "PATCH".toList,
        "HEAD".toList, "CONNECT".toList, "OPTIONS".toList, "TRACE".toList],
      getHandler U (BindController U s pattern c).1 (parsePattern pattern).domain v
        (TrimRight ((Split pattern '@').getD 0 []) '/' ++ "/".toList ++ kebab "Init".toList) =
          none ∧
      getHandler U (BindController U s pattern c).1 (parsePattern pattern).domain v
        (TrimRight ((Split pattern '@').getD 0 []) '/' ++ "/".toList ++ kebab "Shut".toList) =
          none) ∧
    (∀ m2 : HandlerMap, m2.Perm (BindController.m U pattern c) →
      (bindHandlerByMap U s m2).2 = none ∧
      ∀ K, mapGet (bindHandlerByMap U s m2).1.handlerMap K =
        mapGet (BindController U s pattern c).1.handlerMap K) := by
  have hst : s.status ≠ 1 := by rw [hstatus]; decide
  obtain ⟨herr, hhit, hframe⟩ := BindController_visit U s pattern c hwf hst hhead hnames hnd
    (BindController.m U pattern c) (List.Perm.refl _)
  have hlife : ∀ life : Str, isExportedName life = true →
      (∀ n ∈ c.methods, n ≠ "Init".toList → n ≠ "Shut".toList → n ≠ life) →
      ∀ v ∈ httpMethods,
        getHandler U (BindController U s pattern c).1 (parsePattern pattern).domain v
          (TrimRight ((Split pattern '@').getD 0 []) '/' ++ "/".toList ++ kebab life) = none := by
    intro life hlife hne v hv
    unfold getHandler
    have h := hframe (handlerKey U (parsePattern pattern).domain v
      (TrimRight ((Split pattern '@').getD 0 []) '/' ++ "/".toList ++ kebab life)) (by
        intro n hn h1 h2 w hw hK
        obtain ⟨-, hu⟩ := handlerKey_verb_uri_inj U _ v w _ _ hv hw hK
        exact hne n hn h1 h2
          (kebab_inj n life (hnames n hn) hlife (List.append_cancel_left hu).symm))
    have h2 : mapGet (BindController U s pattern c).1.handlerMap
        (handlerKey U (parsePattern pattern).domain v
          (TrimRight ((Split pattern '@').getD 0 []) '/' ++ "/".toList ++ kebab life)) =
        mapGet s.handlerMap (handlerKey U (parsePattern pattern).domain v
          (TrimRight ((Split pattern '@').getD 0 []) '/' ++ "/".toList ++ kebab life)) := h
    rw [h2, hempty]
    rfl
  refine ⟨herr, ?_, ?_, ?_⟩
  · intro n hn h1 h2
    refine ⟨?_, ?_⟩
    · rw [derived_parse_general U pattern n (isExportedName_chars n (hnames n hn)) hhead]
    · intro v hv
      rw [← httpMethods_eq] at hv
      exact hhit n hn h1 h2 v hv
  · intro v hv
    rw [← httpMethods_eq] at hv
    exact ⟨hlife "Init".toList (by decide) (fun n _ h1 _ => h1) v hv,
      hlife "Shut".toList (by decide) (fun n _ _ h2 => h2) v hv⟩
  · intro m2 hperm
    obtain ⟨herr2, hhit2, hframe2⟩ := BindController_visit U s pattern c hwf hst hhead hnames
      hnd m2 hperm
    refine ⟨herr2, ?_⟩
    intro K
    by_cases hw : ∃ n ∈ c.methods, n ≠ "Init".toList ∧ n ≠ "Shut".toList ∧
        ∃ v ∈ httpMethods, K = handlerKey U (parsePattern pattern).domain v
          (TrimRight ((Split pattern '@').getD 0 []) '/' ++ "/".toList ++ kebab n)
    · obtain ⟨n, hn, h1, h2, v, hv, rfl⟩ := hw
      have e1 := hhit2 n hn h1 h2 v hv
      have e2 := hhit n hn h1 h2 v hv
      unfold getHandler at e1 e2
      rw [e1]
      exact e2.symm
    · have hK : ∀ n ∈ c.methods, n ≠ "Init".toList → n ≠ "Shut".toList → ∀ v ∈ httpMethods,
          K ≠ handlerKey U (parsePattern pattern).domain v
            (TrimRight ((Split pattern '@').getD 0 []) '/' ++ "/".toList ++ kebab n) :=
        fun n hn h1 h2 v hv e => hw ⟨n, hn, h1, h2, v, hv, e⟩
      rw [hframe2 K hK]
      exact (hframe K hK).symm

theorem BindController_deferred_witness :
    getHandler asciiTables
      (BindController asciiTables (newServer "default".toList) "/user/@a.com".toList
        ⟨"UserController".toList,
          ["EditProfile".toList, "Init".toList, "Show".toList, "Shut".toList]⟩).1
      (parsePattern "/user/@a.com".toList).domain "PUT".toList
      (TrimRight ((Split "/user/@a.com".toList '@').getD 0 []) '/' ++ "/".toList ++
        kebab "EditProfile".toList) =
      some ⟨some "UserController".toList, "EditProfile".toList, none⟩ :=
  ((BindController_deferred asciiTables (newServer "default".toList) "/user/@a.com".toList
    ⟨"UserController".toList,
      ["EditProfile".toList, "Init".toList, "Show".toList, "Shut".toList]⟩
    (by decide) (by decide) (by decide) (by decide) (by decide) (by decide)).2.1
    "EditProfile".toList (by decide) (by decide) (by decide)).2 "PUT".toList (by decide)

/-- C21, the claim as stated fails at a pattern with two `:` before the domain part.
Under `GET:/x:y` the methods `Bar` and `Foo` get the distinct derived patterns
`GET:/x:y/bar` and `GET:/x:y/foo`, yet `parsePattern` reads only the first two
pieces of the split at `:`, so both are registered at the one URI `/x` of method
`GET`. `BindObject` leaves there the method visited last, `Foo`, and a visit of the
same map in the other order leaves `Bar`; `BindController` likewise. -/
theorem derived_uri_collision_counterexample :
    appendMethodNameToUriWithPattern asciiTables "GET:/x:y".toList "Bar".toList =
      "GET:/x:y/bar".toList ∧
    appendMethodNameToUriWithPattern asciiTables "GET:/x:y".toList "Foo".toList =
      "GET:/x:y/foo".toList ∧
    parsePattern "GET:/x:y/bar".toList =
      ⟨"default".toList, "GET".toList, "/x".toList, none⟩ ∧
    parsePattern "GET:/x:y/foo".toList =
      ⟨"default".toList, "GET".toList, "/x".toList, none⟩ ∧
    BindObject.m asciiTables "GET:/x:y".toList
        [("Bar".toList, some 1), ("Foo".toList, some 2)] =
      [("GET:/x:y/bar".toList, ⟨none, [], some 1⟩),
        ("GET:/x:y/foo".toList, ⟨none, [], some 2⟩)] ∧
    (BindObject asciiTables (newServer "default".toList) "GET:/x:y".toList
      [("Bar".toList, some 1), ("Foo".toList, some 2)]).2 = none ∧
    getHandler asciiTables
      (BindObject asciiTables (newServer "default".toList) "GET:/x:y".toList
        [("Bar".toList, some 1), ("Foo".toList, some 2)]).1
      "default".toList "GET".toList "/x".toList = some ⟨none, [], some 2⟩ ∧
    getHandler asciiTables
      (bindHandlerByMap asciiTables (newServer "default".toList)
        [("GET:/x:y/foo".toList, ⟨none, [], some 2⟩),
          ("GET:/x:y/bar".toList, ⟨none, [], some 1⟩)]).1
      "default".toList "GET".toList "/x".toList = some ⟨none, [], some 1⟩ ∧
    (BindObject asciiTables (newServer "default".toList) "GET:/x:y".toList
      [("Bar".toList, some 1), ("Foo".toList, some 2)]).1.handlerMap.length = 1 ∧
    getHandler asciiTables
      (BindController asciiTables (newServer "default".toList) "GET:/x:y".toList
        ⟨"C".toList, ["Bar".toList, "Foo".toList]⟩).1
      "default".toList "GET".toList "/x".toList =
        some ⟨some "C".toList, "Foo".toList, none⟩ ∧
    (BindController asciiTables (newServer "default".toList) "GET:/x:y".toList
      ⟨"C".toList, ["Bar".toList, "Foo".toList]⟩).1.handlerMap.length = 1 := by
  refine ⟨by decide, by decide, by decide, by decide, by decide, by rfl, by rfl, by rfl,
    by rfl, by rfl, by rfl⟩

/-- C21 as amended: distinct exposed methods never collide on one derived pattern,
and under a base pattern with at most one `:` before its first `@` they never
collide on one URI. For every pattern and every two different names of exported Go
methods `n1` and `n2`, `appendMethodNameToUriWithPattern(pattern, n1)` differs from
`appendMethodNameToUriWithPattern(pattern, n2)`. When the part of the pattern before
its first `@` holds at most one `:`, the two derived patterns are registered at the
different URIs `trimRight(uri, "/") + "/" + kebab(n)`, `uri` being the URI of the
base pattern; and on a configuring server, for an object or a controller whose
method names are distinct names of exported methods, `BindObject` and
`BindController` return nil and each exposed method is found at its own URI with its
own item, for the nine verbs when the base pattern names no method and for the
method it names otherwise, with the same lookups in whatever order
`bindHandlerByMap` visits the intermediate map. -/
theorem derived_patterns_distinct (U : CaseTables) (pattern n1 n2 : Str)
    (h1 : isExportedName n1 = true) (h2 : isExportedName n2 = true) (hne : n1 ≠ n2) :
    appendMethodNameToUriWithPattern U pattern n1 ≠
      appendMethodNameToUriWithPattern U pattern n2 ∧
    (((Split pattern '@').getD 0 []).count ':' ≤ 1 →
      (parsePattern (appendMethodNameToUriWithPattern U pattern n1)).uri =
        TrimRight (parsePattern pattern).uri '/' ++ "/".toList ++ kebab n1 ∧
      (parsePattern (appendMethodNameToUriWithPattern U pattern n2)).uri =
        TrimRight (parsePattern pattern).uri '/' ++ "/".toList ++ kebab n2 ∧
      (parsePattern (appendMethodNameToUriWithPattern U pattern n1)).uri ≠
        (parsePattern (appendMethodNameToUriWithPattern U pattern n2)).uri ∧
      (∀ (s : Server) (obj : Object), s.WF → s.status = 0 →
        (∀ f ∈ obj, isExportedName f.1 = true) → (obj.map Prod.fst).Nodup →
        (BindObject U s pattern obj).2 = none ∧
        (∀ f ∈ obj, ∀ v : Str,
          (if (parsePattern pattern).method = "all".toList then
            v ∈ ["GET".toList, "PUT".toList, "POST".toList, "DELETE".toList, "PATCH".toList,
              "HEAD".toList, "CONNECT".toList, "OPTIONS".toList, "TRACE".toList]
          else v = (parsePattern pattern).method) →
          getHandler U (BindObject U s pattern obj).1 (parsePattern pattern).domain v
            (parsePattern (appendMethodNameToUriWithPattern U pattern f.1)).uri =
              some { ctype := none, fname := [], faddr := f.2 }) ∧
        (∀ m2 : HandlerMap, m2.Perm (BindObject.m U pattern obj) →
          (bindHandlerByMap U s m2).2 = none ∧
          ∀ K, mapGet (bindHandlerByMap U s m2).1.handlerMap K =
            mapGet (BindObject U s pattern obj).1.handlerMap K)) ∧
      (∀ (s : Server) (c : Controller), s.WF → s.status = 0 →
        (∀ n ∈ c.methods, isExportedName n = true) → c.methods.Nodup →
        (BindController U s pattern c).2 = none ∧
        (∀ n ∈ c.methods, n ≠ "Init".toList → n ≠ "Shut".toList → ∀ v : Str,
          (if (parsePattern pattern).method = "all".toList then
            v ∈ ["GET".toList, "PUT".toList, "POST".toList, "DELETE".toList, "PATCH".toList,
              "HEAD".toList, "CONNECT".toList, "OPTIONS".toList, "TRACE".toList]
          else v = (parsePattern pattern).method) →
          getHandler U (BindController U s pattern c).1 (parsePattern pattern).domain v
            (parsePattern (appendMethodNameToUriWithPattern U pattern n)).uri =
              some { ctype := some c.elemType, fname := n, faddr := none }) ∧
        (∀ m2 : HandlerMap, m2.Perm (BindController.m U pattern c) →
          (bindHandlerByMap U s m2).2 = none ∧
          ∀ K, mapGet (bindHandlerByMap U s m2).1.handlerMap K =
            mapGet (BindController U s pattern c).1.handlerMap K))) := by
  refine ⟨fun h => hne (appendMethodName_inj U pattern n1 n2 h1 h2 h), ?_⟩
  intro hc
  have hp1 := derived_parse_colon U pattern n1 (isExportedName_chars n1 h1) hc
  have hp2 := derived_parse_colon U pattern n2 (isExportedName_chars n2 h2) hc
  refine ⟨by rw [hp1], by rw [hp2], ?_, ?_, ?_⟩
  · rw [hp1, hp2]
    intro hu
    exact hne (kebab_inj n1 n2 h1 h2 (List.append_cancel_left hu))
  · intro s obj hwf hstatus hnames hnd
    have hst : s.status ≠ 1 := by rw [hstatus]; decide
    have hM := BindObject_m_entries U pattern obj hnames hnd
    obtain ⟨herr, hhit, -⟩ := derived_visit U s pattern obj Prod.fst
      (fun f => ({ ctype := none, fname := [], faddr := f.2 } : HandlerItem)) hwf hst hc hnames
      hnd (BindObject.m U pattern obj) (by rw [hM])
    refine ⟨herr, ?_, ?_⟩
    · intro f hf v hv
      rw [← httpMethods_eq] at hv
      rw [derived_parse_colon U pattern f.1 (isExportedName_chars f.1 (hnames f hf)) hc]
      exact hhit f hf _ (handlerKey_mem_setHandlerKeys U s _ _ _ v hwf hv)
    · intro m2 hperm
      rw [hM] at hperm
      refine ⟨(derived_visit U s pattern obj Prod.fst
        (fun f => ({ ctype := none, fname := [], faddr := f.2 } : HandlerItem)) hwf hst hc
        hnames hnd m2 hperm).1, ?_⟩
      intro K
      unfold BindObject
      rw [hM]
      exact derived_visit_order U s pattern obj Prod.fst
        (fun f => ({ ctype := none, fname := [], faddr := f.2 } : HandlerItem)) hwf hst hc
        hnames hnd m2 hperm K
  · intro s c hwf hstatus hnames hnd
    have hst : s.status ≠ 1 := by rw [hstatus]; decide
    have hM := BindController_m_entries U pattern c hnames hnd
    have hnames2 : ∀ n ∈ c.methods.filter
        (fun n => decide (¬ (n = "Init".toList ∨ n = "Shut".toList))),
        isExportedName (id n) = true := fun n hn => hnames n (List.mem_filter.mp hn).1
    have hnd2 : ((c.methods.filter
        (fun n => decide (¬ (n = "Init".toList ∨ n = "Shut".toList)))).map id).Nodup := by
      rw [List.map_id]
      exact hnd.filter _
    obtain ⟨herr, hhit, -⟩ := derived_visit U s pattern _ id
      (fun n => ({ ctype := some c.elemType, fname := n, faddr := none } : HandlerItem)) hwf hst
      hc hnames2 hnd2 (BindController.m U pattern c) (by rw [hM]; rfl)
    refine ⟨herr, ?_, ?_⟩
    · intro n hn hi hs v hv
      rw [← httpMethods_eq] at hv
      rw [derived_parse_colon U pattern n (isExportedName_chars n (hnames n hn)) hc]
      have hmem : n ∈ c.methods.filter
          (fun n => decide (¬ (n = "Init".toList ∨ n = "Shut".toList))) := by
        refine List.mem_filter.mpr ⟨hn, decide_eq_true ?_⟩
        rw [not_or]
        exact ⟨hi, hs⟩
      exact hhit n hmem _ (handlerKey_mem_setHandlerKeys U s _ _ _ v hwf hv)
    · intro m2 hperm
      rw [hM] at hperm
      refine ⟨(derived_visit U s pattern _ id
        (fun n => ({ ctype := some c.elemType, fname := n, faddr := none } : HandlerItem)) hwf
        hst hc hnames2 hnd2 m2 hperm).1, ?_⟩
      intro K
      unfold BindController
      rw [hM]
      exact derived_visit_order U s pattern _ id
        (fun n => ({ ctype := some c.elemType, fname := n, faddr := none } : HandlerItem)) hwf
        hst hc hnames2 hnd2 m2 hperm K

theorem derived_patterns_distinct_witness :
    appendMethodNameToUriWithPattern asciiTables "GET:/user/@a.com".toList "Show".toList ≠
      appendMethodNameToUriWithPattern asciiTables "GET:/user/@a.com".toList
        "EditProfile".toList ∧
    (parsePattern (appendMethodNameToUriWithPattern asciiTables "GET:/user/@a.com".toList
      "Show".toList)).uri ≠
      (parsePattern (appendMethodNameToUriWithPattern asciiTables "GET:/user/@a.com".toList
        "EditProfile".toList)).uri ∧
    getHandler asciiTables
      (BindObject asciiTables (newServer "default".toList) "GET:/user/@a.com".toList
        [("Show".toList, some 1), ("EditProfile".toList, some 2)]).1
      (parsePattern "GET:/user/@a.com".toList).domain "GET".toList
      (parsePattern (appendMethodNameToUriWithPattern asciiTables "GET:/user/@a.com".toList
        "EditProfile".toList)).uri = some ⟨none, [], some 2⟩ :=
  have h := derived_patterns_distinct asciiTables "GET:/user/@a.com".toList "Show".toList
    "EditProfile".toList (by decide) (by decide) (by decide)
  ⟨h.1, (h.2 (by decide)).2.2.1,
    ((h.2 (by decide)).2.2.2.1 (newServer "default".toList)
      [("Show".toList, some 1), ("EditProfile".toList, some 2)] (by decide) (by decide)
      (by decide) (by decide)).2.1 ("EditProfile".toList, some 2) (by decide) "GET".toList
      (by decide)⟩

end Ghttp
